import Mathlib

/-!
Verification of the jsonmarshal library (marshal.py / unmarshal.py and their
helpers in types.py, fields.py, exceptions.py) against its natural-language
specification.  The Python code is shallowly embedded: Python runtime values
and schemas become inductive trees, Python dicts become insertion-ordered
association lists with faithful pop/set semantics, exceptions become an
explicit error type carried in Except, and the iterative work-list engines
are embedded as the structural recursions they compute (the work-list with
its dump side-buffer visits children depth-first and promotes results back
in declaration order, which the recursive definitions reproduce; in-place
mutation of caller lists, which the pure functions cannot show, is modelled
separately by a heap-threaded variant of the marshaller).
-/

namespace JM

/-- The exceptions the library can surface.  exceptions.py defines exactly
UnmarshalError and MarshalError; the remaining constructors are the Python
builtin exceptions that the code can raise by falling over (attribute access
on types lacking the attribute, keyword-argument mismatch at dataclass
construction, ValueError from datetime parsing, KeyError from dict access). -/
inductive JMErr where
  | unmarshalError (msg : String)
  | marshalError (msg : String)
  | attributeError (msg : String)
  | typeError (msg : String)
  | valueError (msg : String)
  | keyError (msg : String)
  | indexError (msg : String)
  | recursionError
deriving DecidableEq, Repr

/-- The Python class name of an exception, as the repository's exception
inventory (exceptions.py plus builtins) names it. -/
def JMErr.className : JMErr → String
  | .unmarshalError _ => "UnmarshalError"
  | .marshalError _ => "MarshalError"
  | .attributeError _ => "AttributeError"
  | .typeError _ => "TypeError"
  | .valueError _ => "ValueError"
  | .keyError _ => "KeyError"
  | .indexError _ => "IndexError"
  | .recursionError => "RecursionError"

/-- The message carried by an exception. -/
def JMErr.message : JMErr → String
  | .unmarshalError m => m
  | .marshalError m => m
  | .attributeError m => m
  | .typeError m => m
  | .valueError m => m
  | .keyError m => m
  | .indexError m => m
  | .recursionError => "maximum recursion depth exceeded"

@[simp] theorem exc_bind_ok {α β : Type} (a : α) (f : α → Except JMErr β) :
    (Except.ok a >>= f) = f a := rfl

@[simp] theorem exc_bind_err {α β : Type} (e : JMErr) (f : α → Except JMErr β) :
    ((Except.error e : Except JMErr α) >>= f) = .error e := rfl

@[simp] theorem exc_pure {α : Type} (a : α) :
    (pure a : Except JMErr α) = .ok a := rfl

@[simp] theorem exc_map_ok {α β : Type} (a : α) (f : α → β) :
    (Except.ok a : Except JMErr α).map f = .ok (f a) := rfl

@[simp] theorem exc_map_err {α β : Type} (e : JMErr) (f : α → β) :
    (Except.error e : Except JMErr α).map f = .error e := rfl

/-- A Python float value.  The engines never compute with floats: they only
pass them through and render them in error messages, so a float is modelled
opaquely by its decimal rendering (its Python str form). -/
structure FloatV where
  txt : String
deriving DecidableEq, Repr

/-- A datetime.date runtime value (year, month, day). -/
structure DateV where
  year : Nat
  month : Nat
  day : Nat
deriving DecidableEq, Repr

/-- A datetime.datetime runtime value.  tzMinutes is the fixed UTC offset in
minutes for an aware value, none for a naive value. -/
structure DateTimeV where
  year : Nat
  month : Nat
  day : Nat
  hour : Nat
  minute : Nat
  second : Nat
  microsecond : Nat
  tzMinutes : Option Int
deriving DecidableEq, Repr

/-- The underlying value of an enum member.  Enum members may carry any value;
the kinds here cover the ones the library can meet (primitives plus the
temporal types used to show that non-primitive member values are passed
through unconverted). -/
inductive EnumVal where
  | eNone
  | eBool (b : Bool)
  | eInt (n : Int)
  | eFloat (f : FloatV)
  | eStr (s : String)
  | eDate (d : DateV)
  | eDatetime (dt : DateTimeV)
deriving DecidableEq, Repr

mutual
/-- A schema: the Python type annotation driving unmarshalling and, stored on
dataclass fields, consulted by marshalling.  sNone stands for both the None
annotation and NoneType (they classify identically); sUnion is typing.Union
with its argument list; sList is typing.List; sEnum carries the enum class
name and its canonical members (name, value), sRecord a dataclass with its
fields, sClass a bare class the engine has no handler for. -/
inductive Schema where
  | sNone
  | sStr
  | sInt
  | sFloat
  | sBool
  | sUuid
  | sDatetime
  | sDate
  | sEnum (ename : String) (members : List (String × EnumVal))
  | sList (t : Schema)
  | sUnion (args : List Schema)
  | sRecord (rname : String) (fields : List Field)
  | sClass (cname : String)

/-- One dataclass field: internal name, the json metadata key (none when the
json_field "json" option was not given), the omitempty flag, and the declared
type annotation. -/
inductive Field where
  | mk (name : String) (json : Option String) (omitempty : Bool) (ftype : Schema)
end

def Field.name : Field → String
  | .mk n _ _ _ => n

def Field.json : Field → Option String
  | .mk _ j _ _ => j

def Field.omitempty : Field → Bool
  | .mk _ _ o _ => o

def Field.ftype : Field → Schema
  | .mk _ _ _ t => t

/-- A Python runtime value as the engines meet it: JSON-tree nodes (null,
bool, int, float, str, list, dict) and the richer host values (UUID, datetime,
date, enum member, dataclass instance).  A UUID is carried as its 32
lowercase hex digits; an enum member carries its class name, member name and
underlying value; a dataclass instance carries its class name and its
declared fields paired with the attribute values. -/
inductive Value where
  | vNone
  | vBool (b : Bool)
  | vInt (n : Int)
  | vFloat (f : FloatV)
  | vStr (s : String)
  | vUuid (hex : List Char)
  | vDatetime (dt : DateTimeV)
  | vDate (d : DateV)
  | vEnum (ename : String) (mname : String) (mval : EnumVal)
  | vList (xs : List Value)
  | vDict (entries : List (String × Value))
  | vRecord (rname : String) (fields : List (Field × Value))
  | vOpaque (cname : String) (txt : String)

/-- A Python dict with string keys: an insertion-ordered association list.
All operations below reproduce CPython dict semantics for unique-key lists. -/
abbrev PyDict := List (String × Value)

/-- Python: key in d. -/
def dictContains (d : PyDict) (k : String) : Bool :=
  d.any (fun kv => kv.1 == k)

/-- Python: d[k] as an Option. -/
def dictLookup (d : PyDict) (k : String) : Option Value :=
  match d.find? (fun kv => kv.1 == k) with
  | some kv => some kv.2
  | none => none

/-- Python: d[k] = v.  Updates the value in place when the key is present,
appends the pair at the end otherwise. -/
def dictSet (d : PyDict) (k : String) (v : Value) : PyDict :=
  match d with
  | [] => [(k, v)]
  | (k2, v2) :: rest =>
      if k2 == k then (k2, v) :: rest else (k2, v2) :: dictSet rest k v

/-- Python: d.pop(k).  Removes the entry for k (keys are unique in a dict). -/
def dictPop (d : PyDict) (k : String) : PyDict :=
  match d with
  | [] => []
  | (k2, v2) :: rest =>
      if k2 == k then rest else (k2, v2) :: dictPop rest k

/-- Python: list(d.keys()). -/
def dictKeys (d : PyDict) : List String :=
  d.map (fun kv => kv.1)

/-! ### Temporal rendering and parsing (datetime.isoformat / fromisoformat) -/

/-- Zero-padded two-digit rendering, as %02d produces for values below 100. -/
def two (n : Nat) : List Char :=
  [Nat.digitChar (n / 10 % 10), Nat.digitChar (n % 10)]

/-- Zero-padded four-digit rendering, as %04d produces for values below 10000. -/
def four (n : Nat) : List Char :=
  [Nat.digitChar (n / 1000 % 10), Nat.digitChar (n / 100 % 10),
   Nat.digitChar (n / 10 % 10), Nat.digitChar (n % 10)]

/-- Zero-padded six-digit rendering, as %06d produces for values below 10^6. -/
def six (n : Nat) : List Char :=
  [Nat.digitChar (n / 100000 % 10), Nat.digitChar (n / 10000 % 10),
   Nat.digitChar (n / 1000 % 10), Nat.digitChar (n / 100 % 10),
   Nat.digitChar (n / 10 % 10), Nat.digitChar (n % 10)]

/-- The +HH:MM / -HH:MM rendering of a fixed UTC offset that
datetime.isoformat appends for an aware value; empty for a naive value. -/
def offChars : Option Int → List Char
  | none => []
  | some m =>
      let sign : Char := if m < 0 then '-' else '+'
      let a : Nat := m.natAbs
      sign :: (two (a / 60) ++ ':' :: two (a % 60))

/-- The YYYY-MM-DD part shared by date.isoformat and datetime.isoformat. -/
def isoDateChars (d : DateV) : List Char :=
  four d.year ++ '-' :: (two d.month ++ '-' :: two d.day)

/-- The HH:MM:SS[.ffffff] part of datetime.isoformat: fractional seconds are
rendered exactly when the microsecond field is nonzero. -/
def isoTimeChars (dt : DateTimeV) : List Char :=
  two dt.hour ++ ':' :: (two dt.minute ++ ':' :: (two dt.second ++
    (if dt.microsecond == 0 then [] else '.' :: six dt.microsecond)))

/-- datetime.isoformat() with the default 'T' separator, as marshal.py's
process_datetime calls it. -/
def pyDatetimeIsoformat (dt : DateTimeV) : String :=
  ⟨isoDateChars ⟨dt.year, dt.month, dt.day⟩ ++
    'T' :: (isoTimeChars dt ++ offChars dt.tzMinutes)⟩

/-- date.isoformat(). -/
def pyDateIsoformat (d : DateV) : String :=
  ⟨isoDateChars d⟩

/-- Numeric value of a decimal digit character. -/
def charVal (c : Char) : Nat := c.toNat - '0'.toNat

/-- Value of a two-digit group. -/
def d2v (a b : Char) : Nat := charVal a * 10 + charVal b

/-- Value of a four-digit group. -/
def d4v (a b c d : Char) : Nat :=
  charVal a * 1000 + charVal b * 100 + charVal c * 10 + charVal d

/-- Value of a six-digit group. -/
def d6v (a b c d e f : Char) : Nat :=
  charVal a * 100000 + charVal b * 10000 + charVal c * 1000 +
    charVal d * 100 + charVal e * 10 + charVal f

/-- Gregorian leap-year test, as datetime uses. -/
def isLeapYear (y : Nat) : Bool :=
  y % 4 == 0 && (y % 100 != 0 || y % 400 == 0)

/-- Days in a month, as the datetime constructors validate. -/
def daysInMonth (y m : Nat) : Nat :=
  match m with
  | 1 => 31
  | 2 => if isLeapYear y then 29 else 28
  | 3 => 31
  | 4 => 30
  | 5 => 31
  | 6 => 30
  | 7 => 31
  | 8 => 31
  | 9 => 30
  | 10 => 31
  | 11 => 30
  | 12 => 31
  | _ => 0

/-- Parse the leading YYYY-MM-DD of an isoformat string, validating ranges as
the date constructor does, and return the remaining characters. -/
def parseDatePrefix : List Char → Option (DateV × List Char)
  | y1 :: y2 :: y3 :: y4 :: '-' :: m1 :: m2 :: '-' :: dd1 :: dd2 :: rest =>
      if y1.isDigit && y2.isDigit && y3.isDigit && y4.isDigit &&
          m1.isDigit && m2.isDigit && dd1.isDigit && dd2.isDigit then
        let y := d4v y1 y2 y3 y4
        let mo := d2v m1 m2
        let dd := d2v dd1 dd2
        if 1 ≤ y && 1 ≤ mo && mo ≤ 12 && 1 ≤ dd && dd ≤ daysInMonth y mo then
          some (⟨y, mo, dd⟩, rest)
        else none
      else none
  | _ => none

/-- Parse the HH[:MM[:SS[.fff or .ffffff]]] part of an isoformat string,
yielding hour, minute, second, microsecond.  Component ranges are validated
as the time constructor does; a fractional part must have exactly three or
six digits, as CPython accepts. -/
def parseTimeChars : List Char → Option (Nat × Nat × Nat × Nat)
  | [h1, h2] =>
      if h1.isDigit && h2.isDigit && d2v h1 h2 < 24 then
        some (d2v h1 h2, 0, 0, 0)
      else none
  | [h1, h2, ':', m1, m2] =>
      if h1.isDigit && h2.isDigit && m1.isDigit && m2.isDigit &&
          d2v h1 h2 < 24 && d2v m1 m2 < 60 then
        some (d2v h1 h2, d2v m1 m2, 0, 0)
      else none
  | [h1, h2, ':', m1, m2, ':', s1, s2] =>
      if h1.isDigit && h2.isDigit && m1.isDigit && m2.isDigit &&
          s1.isDigit && s2.isDigit &&
          d2v h1 h2 < 24 && d2v m1 m2 < 60 && d2v s1 s2 < 60 then
        some (d2v h1 h2, d2v m1 m2, d2v s1 s2, 0)
      else none
  | [h1, h2, ':', m1, m2, ':', s1, s2, '.', f1, f2, f3] =>
      if h1.isDigit && h2.isDigit && m1.isDigit && m2.isDigit &&
          s1.isDigit && s2.isDigit && f1.isDigit && f2.isDigit && f3.isDigit &&
          d2v h1 h2 < 24 && d2v m1 m2 < 60 && d2v s1 s2 < 60 then
        some (d2v h1 h2, d2v m1 m2, d2v s1 s2, (d2v f1 f2 * 10 + charVal f3) * 1000)
      else none
  | [h1, h2, ':', m1, m2, ':', s1, s2, '.', f1, f2, f3, f4, f5, f6] =>
      if h1.isDigit && h2.isDigit && m1.isDigit && m2.isDigit &&
          s1.isDigit && s2.isDigit && f1.isDigit && f2.isDigit && f3.isDigit &&
          f4.isDigit && f5.isDigit && f6.isDigit &&
          d2v h1 h2 < 24 && d2v m1 m2 < 60 && d2v s1 s2 < 60 then
        some (d2v h1 h2, d2v m1 m2, d2v s1 s2, d6v f1 f2 f3 f4 f5 f6)
      else none
  | _ => none

/-- Parse the optional trailing UTC-offset part (sign HH:MM) of an isoformat
string into offset minutes; the offset must be strictly less than 24 hours in
absolute value, as the timezone constructor demands. -/
def parseTz : List Char → Option (Option Int)
  | [] => some none
  | sign :: rest =>
      if sign == '+' || sign == '-' then
        match rest with
        | [h1, h2, ':', m1, m2] =>
            if h1.isDigit && h2.isDigit && m1.isDigit && m2.isDigit then
              let total : Nat := d2v h1 h2 * 60 + d2v m1 m2
              if total < 1440 then
                some (some (if sign == '-' then -(total : Int) else (total : Int)))
              else none
            else none
        | _ => none
      else none

/-- datetime.fromisoformat on a character list: the date part, then an
arbitrary single separator character, then the time part split from the
offset part at the first sign character, exactly as CPython slices. -/
def parseIsoDateTimeChars (cs : List Char) : Option DateTimeV := do
  let (d, rest) ← parseDatePrefix cs
  match rest with
  | [] => some ⟨d.year, d.month, d.day, 0, 0, 0, 0, none⟩
  | _sep :: tcs =>
      let tpart := tcs.takeWhile (fun c => c != '+' && c != '-')
      let zpart := tcs.dropWhile (fun c => c != '+' && c != '-')
      let (h, mi, s, us) ← parseTimeChars tpart
      let tz ← parseTz zpart
      some ⟨d.year, d.month, d.day, h, mi, s, us, tz⟩

/-- datetime.fromisoformat; failure is the ValueError CPython raises. -/
def pyDatetimeFromisoformat (s : String) : Except JMErr DateTimeV :=
  match parseIsoDateTimeChars s.data with
  | some dt => .ok dt
  | none => .error (.valueError ("Invalid isoformat string: '" ++ s ++ "'"))

/-- date.fromisoformat: exactly YYYY-MM-DD with nothing following. -/
def pyDateFromisoformat (s : String) : Except JMErr DateV :=
  match parseDatePrefix s.data with
  | some (d, []) => .ok d
  | _ => .error (.valueError ("Invalid isoformat string: '" ++ s ++ "'"))

/-- The trailing-Z rewrite of _Unmarshaller.process_datetime:
data[:-1] + "+00:00" when data.endswith("Z"), else data unchanged. -/
def zfix (s : String) : String :=
  if s.data.getLast? == some 'Z' then ⟨s.data.dropLast ++ ("+00:00").data⟩ else s

/-! ### strftime / strptime (the caller-supplied format paths) -/

/-- The +HHMM rendering %z produces (no colon), empty for naive values. -/
def offCharsNoColon : Option Int → List Char
  | none => []
  | some m =>
      let sign : Char := if m < 0 then '-' else '+'
      let a : Nat := m.natAbs
      sign :: (two (a / 60) ++ two (a % 60))

/-- datetime.strftime over the directives the library's callers use
(%Y %m %d %H %M %S %f %z %%); other directives pass through literally. -/
def pyStrftimeChars (dt : DateTimeV) : List Char → List Char
  | [] => []
  | '%' :: c :: rest =>
      (match c with
       | 'Y' => four dt.year
       | 'm' => two dt.month
       | 'd' => two dt.day
       | 'H' => two dt.hour
       | 'M' => two dt.minute
       | 'S' => two dt.second
       | 'f' => six dt.microsecond
       | 'z' => offCharsNoColon dt.tzMinutes
       | '%' => ['%']
       | other => ['%', other]) ++ pyStrftimeChars dt rest
  | c :: rest => c :: pyStrftimeChars dt rest

/-- datetime.strftime as a String function. -/
def pyStrftime (dt : DateTimeV) (fmt : String) : String :=
  ⟨pyStrftimeChars dt fmt.data⟩

/-- date.strftime: a date behaves as a midnight naive datetime. -/
def pyStrftimeDate (d : DateV) (fmt : String) : String :=
  pyStrftime ⟨d.year, d.month, d.day, 0, 0, 0, 0, none⟩ fmt

/-- Greedily read up to k digits (at least one) as strptime numeric
directives do, returning the value and the remaining input. -/
def takeDigitsUpTo (k : Nat) (acc : Nat) (sawOne : Bool) :
    List Char → Option (Nat × List Char)
  | [] => if sawOne then some (acc, []) else none
  | c :: rest =>
      match k with
      | 0 => if sawOne then some (acc, c :: rest) else none
      | k' + 1 =>
          if c.isDigit then takeDigitsUpTo k' (acc * 10 + charVal c) true rest
          else if sawOne then some (acc, c :: rest) else none

/-- datetime.strptime over the same directive subset as pyStrftime (without
%z); literal format characters must match the input.  Returns the parsed
fields; unmatched input or a failed literal is the ValueError strptime
raises. -/
def pyStrptimeChars : List Char → List Char → DateTimeV → Option DateTimeV
  | [], [], dt => some dt
  | [], _ :: _, _ => none
  | '%' :: c :: restF, input, dt =>
      (match c with
       | 'Y' => (takeDigitsUpTo 4 0 false input).bind
           (fun p => pyStrptimeChars restF p.2 { dt with year := p.1 })
       | 'm' => (takeDigitsUpTo 2 0 false input).bind
           (fun p => if 1 ≤ p.1 && p.1 ≤ 12 then
               pyStrptimeChars restF p.2 { dt with month := p.1 } else none)
       | 'd' => (takeDigitsUpTo 2 0 false input).bind
           (fun p => if 1 ≤ p.1 && p.1 ≤ 31 then
               pyStrptimeChars restF p.2 { dt with day := p.1 } else none)
       | 'H' => (takeDigitsUpTo 2 0 false input).bind
           (fun p => if p.1 < 24 then
               pyStrptimeChars restF p.2 { dt with hour := p.1 } else none)
       | 'M' => (takeDigitsUpTo 2 0 false input).bind
           (fun p => if p.1 < 60 then
               pyStrptimeChars restF p.2 { dt with minute := p.1 } else none)
       | 'S' => (takeDigitsUpTo 2 0 false input).bind
           (fun p => if p.1 < 60 then
               pyStrptimeChars restF p.2 { dt with second := p.1 } else none)
       | 'f' => (takeDigitsUpTo 6 0 false input).bind
           (fun p => pyStrptimeChars restF p.2 { dt with microsecond := p.1 })
       | '%' =>
           match input with
           | '%' :: restI => pyStrptimeChars restF restI dt
           | _ => none
       | _ => none)
  | f :: restF, i :: restI, dt =>
      if f == i then pyStrptimeChars restF restI dt else none
  | _ :: _, [], _ => none

/-- datetime.strptime(s, fmt): fields default to 1900-01-01 00:00:00 naive. -/
def pyStrptime (s fmt : String) : Except JMErr DateTimeV :=
  match pyStrptimeChars fmt.data s.data ⟨1900, 1, 1, 0, 0, 0, 0, none⟩ with
  | some dt => .ok dt
  | none => .error (.valueError ("time data '" ++ s ++
      "' does not match format '" ++ fmt ++ "'"))

/-! ### UUID (uuid.UUID construction and str rendering) -/

/-- The lowercase hexadecimal digits (as a set; the order here is
irrelevant, only membership is used). -/
def hexLowerChars : List Char :=
  ['a', 'b', 'c', 'd', 'e', 'f', '0', '1', '2', '3', '4', '5', '6', '7', '8', '9']

/-- Characters int(hex, 16) accepts as digits. -/
def isHexDigitPy (c : Char) : Bool :=
  c.isDigit || ('a' ≤ c && c ≤ 'f') || ('A' ≤ c && c ≤ 'F')

/-- Value-preserving lowercase normalisation of a hex digit: the int(hex, 16)
conversion followed by the %032x rendering maps A-F to a-f and fixes every
other digit. -/
def hexNormalize (c : Char) : Char :=
  if 'A' ≤ c && c ≤ 'F' then Char.ofNat (c.toNat + 32) else c

/-- str.replace(pat, '') for a nonempty pattern; the fuel is an upper bound
on the scan length (the input length always suffices). -/
def removePatternAux (pat : List Char) : Nat → List Char → List Char
  | 0, cs => cs
  | _ + 1, [] => []
  | fuel + 1, c :: rest =>
      if pat.isPrefixOf (c :: rest) then
        removePatternAux pat fuel (rest.drop (pat.length - 1))
      else c :: removePatternAux pat fuel rest

/-- str.replace(pat, ''). -/
def removePattern (pat cs : List Char) : List Char :=
  removePatternAux pat cs.length cs

/-- Is the character one of the braces str.strip('{}') removes? -/
def isBrace (c : Char) : Bool := c == '{' || c == '}'

/-- str.strip('{}'). -/
def stripBraces (cs : List Char) : List Char :=
  ((cs.dropWhile isBrace).reverse.dropWhile isBrace).reverse

/-- uuid.UUID(s): drop urn: and uuid: occurrences, strip braces, drop
hyphens, then require exactly 32 hex digits; the result is the canonical
lowercase digit string the constructed UUID renders as. -/
def pyUuidParse (s : String) : Except JMErr (List Char) :=
  let h1 := removePattern ("urn:").data s.data
  let h2 := removePattern ("uuid:").data h1
  let h3 := (stripBraces h2).filter (fun c => c != '-')
  if h3.length == 32 && h3.all isHexDigitPy then .ok (h3.map hexNormalize)
  else .error (.valueError "badly formed hexadecimal UUID string")

/-- str(uuid): the 8-4-4-4-12 hyphenated rendering of the 32 digits. -/
def uuidStr (hex : List Char) : String :=
  ⟨hex.take 8 ++ '-' :: ((hex.drop 8).take 4 ++ '-' ::
    ((hex.drop 12).take 4 ++ '-' ::
      ((hex.drop 16).take 4 ++ '-' :: hex.drop 20)))⟩

/-! ### Python renderings of schemas and values (for error messages) -/

/-- member.value: the raw underlying value of an enum member, as a Value. -/
def enumValToValue : EnumVal → Value
  | .eNone => .vNone
  | .eBool b => .vBool b
  | .eInt n => .vInt n
  | .eFloat f => .vFloat f
  | .eStr s => .vStr s
  | .eDate d => .vDate d
  | .eDatetime dt => .vDatetime dt

mutual
/-- typing's inner type rendering (_type_repr): bare qualified names for
classes, typing.List[...] / typing.Union[...] for the typing constructs. -/
def typeReprInner : Schema → String
  | .sNone => "NoneType"
  | .sStr => "str"
  | .sInt => "int"
  | .sFloat => "float"
  | .sBool => "bool"
  | .sUuid => "uuid.UUID"
  | .sDatetime => "datetime.datetime"
  | .sDate => "datetime.date"
  | .sEnum en _ => en
  | .sList t => "typing.List[" ++ typeReprInner t ++ "]"
  | .sUnion args => "typing.Union[" ++ typeReprInnerJoined args ++ "]"
  | .sRecord rn _ => rn
  | .sClass cn => cn

/-- Comma-joined inner renderings of a schema list. -/
def typeReprInnerJoined : List Schema → String
  | [] => ""
  | [t] => typeReprInner t
  | t :: rest => typeReprInner t ++ ", " ++ typeReprInnerJoined rest
end

/-- f-string interpolation of a schema object: classes render as
<class 'qualname'>, enum classes as <enum 'Name'>, typing constructs via
their typing repr. -/
def reprSchema : Schema → String
  | .sNone => "<class 'NoneType'>"
  | .sStr => "<class 'str'>"
  | .sInt => "<class 'int'>"
  | .sFloat => "<class 'float'>"
  | .sBool => "<class 'bool'>"
  | .sUuid => "<class 'uuid.UUID'>"
  | .sDatetime => "<class 'datetime.datetime'>"
  | .sDate => "<class 'datetime.date'>"
  | .sEnum en _ => "<enum '" ++ en ++ "'>"
  | .sList t => typeReprInner (.sList t)
  | .sUnion args => typeReprInner (.sUnion args)
  | .sRecord rn _ => "<class '" ++ rn ++ "'>"
  | .sClass cn => "<class '" ++ cn ++ "'>"

/-- The tuple repr of schema.__args__, as interpolated into the
unsupported-union message: ("(<class 'str'>, <class 'dict'>)"), with the
trailing comma Python prints for one-element tuples. -/
def argsTupleRepr (args : List Schema) : String :=
  match args with
  | [t] => "(" ++ reprSchema t ++ ",)"
  | _ => "(" ++ String.intercalate ", " (args.map reprSchema) ++ ")"

/-- repr() of an enum member's underlying value. -/
def reprEnumVal : EnumVal → String
  | .eNone => "None"
  | .eBool true => "True"
  | .eBool false => "False"
  | .eInt n => toString n
  | .eFloat f => f.txt
  | .eStr s => "'" ++ s ++ "'"
  | .eDate d => "datetime.date(" ++ toString d.year ++ ", " ++ toString d.month ++
      ", " ++ toString d.day ++ ")"
  | .eDatetime dt => "datetime.datetime(" ++ toString dt.year ++ ", " ++
      toString dt.month ++ ", " ++ toString dt.day ++ ", " ++ toString dt.hour ++
      ", " ++ toString dt.minute ++ ", " ++ toString dt.second ++ ", " ++
      toString dt.microsecond ++ ")"

mutual
/-- repr() of a runtime value over the modelled kinds (dataclass trailing
zero elision for datetimes is not reproduced; no claim depends on it). -/
def reprValue : Value → String
  | .vNone => "None"
  | .vBool true => "True"
  | .vBool false => "False"
  | .vInt n => toString n
  | .vFloat f => f.txt
  | .vStr s => "'" ++ s ++ "'"
  | .vUuid h => "UUID('" ++ uuidStr h ++ "')"
  | .vDatetime dt => reprEnumVal (.eDatetime dt)
  | .vDate d => reprEnumVal (.eDate d)
  | .vEnum en mn ev => "<" ++ en ++ "." ++ mn ++ ": " ++ reprEnumVal ev ++ ">"
  | .vList xs => "[" ++ reprValueJoined xs ++ "]"
  | .vDict es => "\x7b" ++ reprDictJoined es ++ "\x7d"
  | .vRecord rn fs => rn ++ "(" ++ reprFieldsJoined fs ++ ")"
  | .vOpaque _ txt => txt

/-- Comma-joined reprs of list elements. -/
def reprValueJoined : List Value → String
  | [] => ""
  | [v] => reprValue v
  | v :: rest => reprValue v ++ ", " ++ reprValueJoined rest

/-- Comma-joined 'key': repr pairs of dict entries. -/
def reprDictJoined : List (String × Value) → String
  | [] => ""
  | [(k, v)] => "'" ++ k ++ "': " ++ reprValue v
  | (k, v) :: rest => "'" ++ k ++ "': " ++ reprValue v ++ ", " ++ reprDictJoined rest

/-- Comma-joined name=repr pairs of a dataclass repr. -/
def reprFieldsJoined : List (Field × Value) → String
  | [] => ""
  | [(f, v)] => f.name ++ "=" ++ reprValue v
  | (f, v) :: rest => f.name ++ "=" ++ reprValue v ++ ", " ++ reprFieldsJoined rest
end

/-- str() of a runtime value: differs from repr for strings, temporal values
and enum members; containers defer to repr as Python does. -/
def strValue : Value → String
  | .vStr s => s
  | .vDatetime dt => ⟨isoDateChars ⟨dt.year, dt.month, dt.day⟩ ++
      ' ' :: (isoTimeChars dt ++ offChars dt.tzMinutes)⟩
  | .vDate d => pyDateIsoformat d
  | .vEnum en mn _ => en ++ "." ++ mn
  | .vUuid h => uuidStr h
  | v => reprValue v

/-- repr of type(data): the runtime class of a value. -/
def reprRuntimeType : Value → String
  | .vNone => "<class 'NoneType'>"
  | .vBool _ => "<class 'bool'>"
  | .vInt _ => "<class 'int'>"
  | .vFloat _ => "<class 'float'>"
  | .vStr _ => "<class 'str'>"
  | .vList _ => "<class 'list'>"
  | .vDict _ => "<class 'dict'>"
  | .vUuid _ => "<class 'uuid.UUID'>"
  | .vDatetime _ => "<class 'datetime.datetime'>"
  | .vDate _ => "<class 'datetime.date'>"
  | .vEnum en _ _ => "<enum '" ++ en ++ "'>"
  | .vRecord rn _ => "<class '" ++ rn ++ "'>"
  | .vOpaque cn _ => "<class '" ++ cn ++ "'>"

/-! ### types.py and fields.py helpers -/

/-- Membership in unmarshal.py's PRIMITIVES set {str, int, float, bool,
NoneType}.  The None annotation and NoneType classify identically everywhere
they are compared, so sNone stands for both. -/
def isPrimitiveSchema : Schema → Bool
  | .sNone | .sStr | .sInt | .sFloat | .sBool => true
  | _ => false

/-- Is the schema NoneType (for membership tests on union argument lists)? -/
def isNoneSchema : Schema → Bool
  | .sNone => true
  | _ => false

/-- schema.__args__ for the typing constructs that have it. -/
def schemaArgs : Schema → Option (List Schema)
  | .sList t => some [t]
  | .sUnion args => some args
  | _ => none

/-- types._is_optional: a Union of exactly two arguments, one NoneType. -/
def is_optional (t : Schema) : Bool :=
  match t with
  | .sUnion args => args.length == 2 && args.any isNoneSchema
  | _ => false

/-- fields._get_json_key and unmarshal.get_json_key (identical bodies): the
json metadata entry when truthy (a nonempty string), else the field name. -/
def get_json_key (f : Field) : String :=
  match f.json with
  | some j => if j == "" then f.name else j
  | none => f.name

/-- fields._omit_field: omit when the omitempty flag is set, the value is
None, and the declared type is Optional. -/
def omit_field (f : Field) (v : Value) : Bool :=
  f.omitempty &&
    (match v with
     | .vNone => true
     | _ => false) &&
    is_optional f.ftype

/-- unmarshal.is_field_optional: primitives are not optional; otherwise the
field is optional when NoneType is among field.type.__args__ — an attribute
access that raises AttributeError for a bare class annotation (datetime,
date, UUID, an enum class or a dataclass), which have no __args__. -/
def is_field_optional (f : Field) : Except JMErr Bool :=
  if isPrimitiveSchema f.ftype then .ok false
  else
    match schemaArgs f.ftype with
    | some args => .ok (args.any isNoneSchema)
    | none => .error (.attributeError ("type object '" ++ typeReprInner f.ftype ++
        "' has no attribute '__args__'"))

/-! ### The marshaller (marshal.py) -/

/-- The datetime_fmt / date_fmt options both entry points accept. -/
structure Fmts where
  datetime_fmt : Option String
  date_fmt : Option String

/-- No formatting overrides (both options left at their None default). -/
def noFmts : Fmts := ⟨none, none⟩

/-- Python truthiness of a format option: None and the empty string both
fall back to the ISO-8601 default (the code tests `if self.datetime_fmt:`). -/
def fmtTruthy : Option String → Option String
  | some f => if f == "" then none else some f
  | none => none

/-- types._Type: the marshaller's value-kind enumeration. -/
inductive MType where
  | NOT_SET
  | DATACLASS
  | NONETYPE
  | LIST
  | DICT
  | STRING
  | INT
  | FLOAT
  | BOOL
  | UUID
  | ENUM
  | DATETIME
  | DATE
deriving DecidableEq, Repr

/-- Membership in types._PRIMITIVES. -/
def mtypePrimitive : MType → Bool
  | .STRING | .INT | .FLOAT | .BOOL | .NONETYPE => true
  | _ => false

/-- The MarshalError message of marshal._get_type's fall-through. -/
def marshal_unknown_msg (v : Value) : String :=
  "Unable to marshal data '" ++ strValue v ++ "' (" ++ reprRuntimeType v ++
    ") to known type."

/-- marshal._get_type: dataclass first, then list/dict, then the _TYPE_MAP
primitives and temporal classes, then the isinstance Enum check; anything
else raises MarshalError. -/
def get_type : Value → Except JMErr MType
  | .vRecord _ _ => .ok .DATACLASS
  | .vList _ => .ok .LIST
  | .vDict _ => .ok .DICT
  | .vNone => .ok .NONETYPE
  | .vStr _ => .ok .STRING
  | .vInt _ => .ok .INT
  | .vFloat _ => .ok .FLOAT
  | .vBool _ => .ok .BOOL
  | .vDatetime _ => .ok .DATETIME
  | .vDate _ => .ok .DATE
  | .vUuid _ => .ok .UUID
  | .vEnum _ _ _ => .ok .ENUM
  | .vOpaque cn txt => .error (.marshalError (marshal_unknown_msg (.vOpaque cn txt)))

/-- The field loop of _Marshaller.clean_dataclass restricted to its direct
effect on the accumulating output mapping: for each field in declaration
order compute the json key, classify the runtime value (which can raise
MarshalError), skip omitted fields, and write primitive values straight into
the mapping.  Non-primitive fields are attached later (see
marshalRecordChildren), after all primitives, which is the key order the
work-list engine produces. -/
def clean_dataclass_loop : List (Field × Value) → PyDict → Except JMErr PyDict
  | [], m => .ok m
  | (f, v) :: rest, m =>
      let json_key := get_json_key f
      match get_type v with
      | .error e => .error e
      | .ok t =>
          if omit_field f v then clean_dataclass_loop rest m
          else if mtypePrimitive t then
            clean_dataclass_loop rest (dictSet m json_key v)
          else clean_dataclass_loop rest m

mutual
/-- The marshalling a single work item undergoes in _Marshaller: dataclasses
are flattened to a mapping (clean_dataclass then promotion of the marshalled
children), lists are rebuilt element by element in order (clean_list then
promotion), dicts pass through unchanged, enum members are replaced by their
raw .value with no further processing, UUIDs by str(), temporal values by
strftime when the format option is truthy else isoformat, primitives pass
through; an unclassifiable value raises MarshalError. -/
def marshalValue (fmts : Fmts) : Value → Except JMErr Value
  | .vRecord _ fvs => do
      let m ← clean_dataclass_loop fvs []
      let m2 ← marshalRecordChildren fmts fvs m
      .ok (.vDict m2)
  | .vList xs => do
      let ys ← marshalList fmts xs
      .ok (.vList ys)
  | .vDict es => .ok (.vDict es)
  | .vEnum _ _ ev => .ok (enumValToValue ev)
  | .vUuid h => .ok (.vStr (uuidStr h))
  | .vDatetime dt =>
      .ok (.vStr (match fmtTruthy fmts.datetime_fmt with
        | some f => pyStrftime dt f
        | none => pyDatetimeIsoformat dt))
  | .vDate d =>
      .ok (.vStr (match fmtTruthy fmts.date_fmt with
        | some f => pyStrftimeDate d f
        | none => pyDateIsoformat d))
  | .vNone => .ok .vNone
  | .vBool b => .ok (.vBool b)
  | .vInt n => .ok (.vInt n)
  | .vFloat f => .ok (.vFloat f)
  | .vStr s => .ok (.vStr s)
  | .vOpaque cn txt => .error (.marshalError (marshal_unknown_msg (.vOpaque cn txt)))

/-- _Marshaller._clean_list plus promotion: elements are spawned in input
order and their marshalled results appended back in that same order. -/
def marshalList (fmts : Fmts) : List Value → Except JMErr (List Value)
  | [] => .ok []
  | x :: rest => do
      let w ← marshalValue fmts x
      let tl ← marshalList fmts rest
      .ok (w :: tl)

/-- Promotion of a dataclass's non-primitive children: each marshalled child
is written into the accumulated mapping under its json key, in field
declaration order (after every primitive field, reproducing the engine's
key order). -/
def marshalRecordChildren (fmts : Fmts) :
    List (Field × Value) → PyDict → Except JMErr PyDict
  | [], m => .ok m
  | (f, v) :: rest, m =>
      if omit_field f v then marshalRecordChildren fmts rest m
      else
        match get_type v with
        | .error e => .error e
        | .ok t =>
            if mtypePrimitive t then marshalRecordChildren fmts rest m
            else do
              let w ← marshalValue fmts v
              marshalRecordChildren fmts rest (dictSet m (get_json_key f) w)
end

/-- marshal(data, datetime_fmt, date_fmt): the module-level entry point. -/
def marshal (fmts : Fmts) (data : Value) : Except JMErr Value :=
  marshalValue fmts data

/-! ### The unmarshaller (unmarshal.py) -/

/-- The Python type object ResultContainer.schema_type evaluates to. -/
inductive PyType where
  | pNone
  | pStr
  | pInt
  | pFloat
  | pBool
  | pDict
  | pList
  | pUuid
  | pEnum
  | pDatetime
  | pDate
deriving DecidableEq, Repr

/-- Membership in CUSTOM_TYPES = {NoneType, UUID, Enum, datetime, date}. -/
def isCustomPyType : PyType → Bool
  | .pNone | .pUuid | .pEnum | .pDatetime | .pDate => true
  | _ => false

/-- Membership in PRIMITIVES = {str, int, float, bool, NoneType}. -/
def isPrimitivePyType : PyType → Bool
  | .pNone | .pStr | .pInt | .pFloat | .pBool => true
  | _ => false

/-- type(data) == schema_type: the runtime-class comparison of
ResultContainer.validate_schema (an enum member's class is the enum
subclass, never the abstract Enum, and a dataclass instance's class is
never dict). -/
def runtimeTypeEq (v : Value) (t : PyType) : Bool :=
  match v, t with
  | .vNone, .pNone => true
  | .vStr _, .pStr => true
  | .vInt _, .pInt => true
  | .vFloat _, .pFloat => true
  | .vBool _, .pBool => true
  | .vList _, .pList => true
  | .vDict _, .pDict => true
  | .vUuid _, .pUuid => true
  | .vDatetime _, .pDatetime => true
  | .vDate _, .pDate => true
  | _, _ => false

/-- The UnmarshalError message of _is_union for a union that is not
optional-of-one-type (note the double spaces, as in the source f-string). -/
def union_unsupported_msg (args : List Schema) : String :=
  "Schemas defined with unions containing anything other than optional " ++
    "(NoneType + other) fields are not currently supported. Got " ++
    reprSchema (.sUnion args) ++ "  with  " ++ argsTupleRepr args

/-- The UnmarshalError message of _calculate_schema_type's fall-through. -/
def not_supported_msg (schema : Schema) : String :=
  "Schema type '" ++ reprSchema schema ++ "' is not currently supported."

mutual
/-- ResultContainer._calculate_schema_type: primitives and None first, then
dataclass, UUID, Enum, datetime, date (in that order), then typing
constructs — a union must be optional-of-one-type or _is_union raises, and
an optional resolves to NoneType on null data else to the classification of
its non-null part; a remaining typing construct classifies by __origin__;
anything else raises UnmarshalError. -/
def calculate_schema_type : Schema → Value → Except JMErr PyType
  | .sNone, _ => .ok .pNone
  | .sStr, _ => .ok .pStr
  | .sInt, _ => .ok .pInt
  | .sFloat, _ => .ok .pFloat
  | .sBool, _ => .ok .pBool
  | .sRecord _ _, _ => .ok .pDict
  | .sUuid, _ => .ok .pUuid
  | .sEnum _ _, _ => .ok .pEnum
  | .sDatetime, _ => .ok .pDatetime
  | .sDate, _ => .ok .pDate
  | .sUnion args, data =>
      if args.length == 2 && args.any isNoneSchema then
        match data with
        | .vNone => .ok .pNone
        | _ => union_first_match args data
      else .error (.unmarshalError (union_unsupported_msg args))
  | .sList _, _ => .ok .pList
  | .sClass cn, _ => .error (.unmarshalError (not_supported_msg (.sClass cn)))

/-- _get_matching_union_type's valid[0] on non-null data: classify the first
non-NoneType union argument (an IndexError if there is none, which Python
typing cannot actually produce). -/
def union_first_match : List Schema → Value → Except JMErr PyType
  | [], _ => .error (.indexError "list index out of range")
  | t :: rest, data =>
      if isNoneSchema t then union_first_match rest data
      else calculate_schema_type t data
end

/-- ResultContainer.is_union: a typing construct whose origin is Union;
_is_union raises for a union that is not optional-of-one-type. -/
def container_is_union : Schema → Except JMErr Bool
  | .sUnion args =>
      if args.length == 2 && args.any isNoneSchema then .ok true
      else .error (.unmarshalError (union_unsupported_msg args))
  | _ => .ok false

/-- valid[0] of the non-NoneType union arguments, as a schema. -/
def firstNonNoneSchema : List Schema → Except JMErr Schema
  | [] => .error (.indexError "list index out of range")
  | t :: rest => if isNoneSchema t then firstNonNoneSchema rest else .ok t

/-- ResultContainer.get_non_null_union_part. -/
def get_non_null_union_part : Schema → Except JMErr Schema
  | .sUnion args => firstNonNoneSchema args
  | s => .error (.attributeError ("'" ++ typeReprInner s ++
      "' object has no attribute '__args__'"))

/-- ResultContainer.inner_schema: unwrap an optional union, then take
schema.__args__[0] (the element type of a List construct). -/
def inner_schema (s : Schema) : Except JMErr Schema := do
  let u ← container_is_union s
  let s2 ← if u then get_non_null_union_part s else .ok s
  match schemaArgs s2 with
  | some (t :: _) => .ok t
  | some [] => .error (.indexError "tuple index out of range")
  | none => .error (.attributeError ("'" ++ typeReprInner s2 ++
      "' object has no attribute '__args__'"))

/-- The message of ResultContainer.validate_schema: note it reports
self.parent — the nearest enclosing mapping key — as the location, not the
dotted path. -/
def invalid_schema_msg (schema : Schema) (data : Value) (parent : String) : String :=
  "Invalid schema. schema = " ++ reprSchema schema ++ ", data = '" ++
    strValue data ++ "' (" ++ reprRuntimeType data ++ ") at location = " ++ parent

/-- ResultContainer.validate_schema on a node's first visit: custom types
are exempt; otherwise the runtime class must equal the classified type. -/
def validate_schema (schema : Schema) (st : PyType) (data : Value)
    (parent : String) : Except JMErr Unit :=
  if isCustomPyType st then .ok ()
  else if runtimeTypeEq data st then .ok ()
  else .error (.unmarshalError (invalid_schema_msg schema data parent))

/-- The Python list repr of the available keys, as interpolated into the
missing-key message. -/
def reprKeyList (ks : List String) : String :=
  "[" ++ String.intercalate ", " (ks.map (fun k => "'" ++ k ++ "'")) ++ "]"

/-- The UnmarshalError message of _Unmarshaller.get_json_key_for_item:
reports the node's dotted path, the missing key and the available keys. -/
def missing_key_msg (path json_key : String) (keys : List String) : String :=
  "Expected json key is not present in object at position '" ++ path ++
    "'. '" ++ json_key ++ "' not in " ++ reprKeyList keys

/-- _Unmarshaller.get_json_key_for_item: accept the key when present in the
data or when the field is optional (an optionality check that can itself
raise AttributeError); otherwise raise UnmarshalError with the path, the
missing key and the available keys. -/
def get_json_key_for_item (f : Field) (data : PyDict) (path : String) :
    Except JMErr String := do
  let json_key := get_json_key f
  if dictContains data json_key then .ok json_key
  else do
    let opt ← is_field_optional f
    if opt then .ok json_key
    else .error (.unmarshalError (missing_key_msg path json_key (dictKeys data)))

/-- The per-field body of the renaming loop of _Unmarshaller.clean_item:
resolve the json key (raising for an absent required key); synthesize a None
placeholder under the schema name when the key is absent (the optional
case); keep an already-correctly-named entry; otherwise pop the json key
and re-insert its value under the schema name. -/
def clean_item_field (f : Field) (data : PyDict) (path : String) :
    Except JMErr PyDict := do
  let json_key ← get_json_key_for_item f data path
  if !dictContains data json_key then .ok (dictSet data f.name .vNone)
  else if json_key == f.name then .ok data
  else
    match dictLookup data json_key with
    | some v => .ok (dictSet (dictPop data json_key) f.name v)
    | none => .error (.keyError json_key)

/-- The renaming loop of _Unmarshaller.clean_item over all declared fields. -/
def clean_item_keys (fields : List Field) (data : PyDict) (path : String) :
    Except JMErr PyDict :=
  match fields with
  | [] => .ok data
  | f :: rest => do
      let data2 ← clean_item_field f data path
      clean_item_keys rest data2 path

/-- The names of the declared fields (the keys of __dataclass_fields__). -/
def field_names (fields : List Field) : List String :=
  fields.map Field.name

/-- The unknown-key loop of clean_item: every data key with no declared
field is popped. -/
def drop_unknown_keys (fields : List Field) (data : PyDict) : PyDict :=
  data.filter (fun kv => (field_names fields).contains kv.1)

/-- schema.__annotations__[k]: the declared type of the named field. -/
def field_type_lookup (fields : List Field) (k : String) : Except JMErr Schema :=
  match fields.find? (fun f => f.name == k) with
  | some f => .ok f.ftype
  | none => .error (.keyError k)

/-- The closing loop of clean_item: for each remaining entry, compute the
child's schema type (which can raise) and validate primitive-typed children
immediately (with the data key as the reported location); container and
custom children are deferred to the work-list. -/
def classify_entries (fields : List Field) : PyDict → Except JMErr Unit
  | [] => .ok ()
  | (k, v) :: rest => do
      let ftype ← field_type_lookup fields k
      let cst ← calculate_schema_type ftype v
      let _ ← if isPrimitivePyType cst then validate_schema ftype cst v k else .ok ()
      classify_entries fields rest

/-- schema(**data): bind each declared field to its entry by name; a missing
name is the TypeError the dataclass __init__ raises. -/
def construct_fields : List Field → PyDict → Except JMErr (List (Field × Value))
  | [], _ => .ok []
  | f :: rest, data =>
      match dictLookup data f.name with
      | some v => do
          let tl ← construct_fields rest data
          .ok ((f, v) :: tl)
      | none => .error (.typeError ("__init__() missing 1 required positional " ++
          "argument: '" ++ f.name ++ "'"))

/-- schema(**data): construct the dataclass instance; a key that is not a
declared field is the unexpected-keyword TypeError. -/
def construct_dataclass (rname : String) (fields : List Field) (data : PyDict) :
    Except JMErr Value := do
  let fvs ← construct_fields fields data
  if data.all (fun kv => (field_names fields).contains kv.1) then
    .ok (.vRecord rname fvs)
  else .error (.typeError "__init__() got an unexpected keyword argument")

/-- Python == between an enum member's stored value and incoming data, as
the Enum by-value lookup compares (cross-type numeric equalities such as
True == 1 do not arise for the modelled member kinds and are not
reproduced). -/
def enumValMatches (ev : EnumVal) (v : Value) : Bool :=
  match ev, v with
  | .eNone, .vNone => true
  | .eBool b, .vBool c => b == c
  | .eInt n, .vInt m => n == m
  | .eFloat f, .vFloat g => f == g
  | .eStr s, .vStr t => s == t
  | .eDate d, .vDate e => d == e
  | .eDatetime d, .vDatetime e => d == e
  | _, _ => false

/-- _Unmarshaller.process_enum: unwrap an optional union, then construct the
enum by value — the first member whose value equals the data (the == lookup
Python's Enum performs); a failed lookup is the UnmarshalError of the except
branch, whose message interpolates the original (possibly union) schema. -/
def process_enum (schema : Schema) (data : Value) : Except JMErr Value := do
  let u ← container_is_union schema
  let sch ← if u then get_non_null_union_part schema else .ok schema
  match sch with
  | .sEnum en members =>
      match members.find? (fun m => enumValMatches m.2 data) with
      | some m => .ok (.vEnum en m.1 m.2)
      | none => .error (.unmarshalError ("Unable to use data value '" ++
          strValue data ++ "' as Enum " ++ reprSchema schema))
  | _ => .error (.typeError "object is not callable")

/-- _Unmarshaller.process_uuid: unwrap an optional union, then UUID(data);
every constructor failure (ValueError, TypeError, AttributeError) is caught
and reported as the same UnmarshalError. -/
def process_uuid (schema : Schema) (data : Value) : Except JMErr Value := do
  let u ← container_is_union schema
  let _sch ← if u then get_non_null_union_part schema else .ok schema
  let failed : Except JMErr Value := .error (.unmarshalError
    ("Unable to use data value '" ++ strValue data ++ "' as UUID " ++
      reprSchema schema))
  match data with
  | .vStr s =>
      match pyUuidParse s with
      | .ok h => .ok (.vUuid h)
      | .error _ => failed
  | _ => failed

/-- _Unmarshaller.process_datetime: when the datetime_fmt option is truthy,
strptime with it; otherwise rewrite a trailing Z to +00:00 and parse with
fromisoformat. -/
def process_datetime (fmts : Fmts) (data : Value) : Except JMErr Value :=
  match fmtTruthy fmts.datetime_fmt with
  | some f =>
      match data with
      | .vStr s => (pyStrptime s f).map .vDatetime
      | _ => .error (.typeError "strptime() argument 1 must be str")
  | none =>
      match data with
      | .vStr s => (pyDatetimeFromisoformat (zfix s)).map .vDatetime
      | _ => .error (.typeError "fromisoformat: argument must be str")

/-- _Unmarshaller.process_date: strptime(...).date() with a truthy date_fmt,
else date.fromisoformat. -/
def process_date (fmts : Fmts) (data : Value) : Except JMErr Value :=
  match fmtTruthy fmts.date_fmt with
  | some f =>
      match data with
      | .vStr s => (pyStrptime s f).map (fun dt => .vDate ⟨dt.year, dt.month, dt.day⟩)
      | _ => .error (.typeError "strptime() argument 1 must be str")
  | none =>
      match data with
      | .vStr s => (pyDateFromisoformat s).map .vDate
      | _ => .error (.typeError "fromisoformat: argument must be str")

/-- _Unmarshaller._clean_list plus promotion, with the node conversion
passed in: elements are spawned in input order with the list's inherited
parent key, indexed paths, and their results are reassembled in that same
order. -/
def elemsLoop (g : Schema → Value → String → String → Except JMErr Value)
    (inner : Schema) (parent path : String) :
    Nat → List Value → Except JMErr (List Value)
  | _, [] => .ok []
  | idx, x :: rest => do
      let w ← g inner x parent (path ++ "." ++ toString idx)
      let tl ← elemsLoop g inner parent path (idx + 1) rest
      .ok (w :: tl)

/-- The work-list processing of a cleaned dataclass mapping's children, with
the node conversion passed in: primitive-typed entries stay as they are;
every other entry is converted with its data key as parent and an extended
dotted path, and the result replaces the entry, in order. -/
def entriesLoop (g : Schema → Value → String → String → Except JMErr Value)
    (fields : List Field) (path : String) : PyDict → Except JMErr PyDict
  | [] => .ok []
  | (k, v) :: rest => do
      let ftype ← field_type_lookup fields k
      let cst ← calculate_schema_type ftype v
      if isPrimitivePyType cst then do
        let tl ← entriesLoop g fields path rest
        .ok ((k, v) :: tl)
      else do
        let w ← g ftype v k (path ++ "." ++ k)
        let tl ← entriesLoop g fields path rest
        .ok ((k, w) :: tl)

/-- The conversion the _Unmarshaller work-list applies to one node: classify
against the schema (which can raise), shape-validate non-custom nodes,
dispatch to the processor for the classified type; mappings run clean_item
(rename keys, drop unknown keys, classify and validate children), process
their children, then instantiate the dataclass.   The fuel only bounds the
recursion depth (Python's recursion is bounded the same way); the public
entry point supplies enough for any input. -/
def unmarshalNodeF : Nat → Fmts → Schema → Value → String → String →
    Except JMErr Value
  | 0, _, _, _, _, _ => .error .recursionError
  | fuel + 1, fmts, schema, data, parent, path => do
      let st ← calculate_schema_type schema data
      let _ ← validate_schema schema st data parent
      match st with
      | .pNone | .pStr | .pInt | .pFloat | .pBool => .ok data
      | .pEnum => process_enum schema data
      | .pUuid => process_uuid schema data
      | .pDatetime => process_datetime fmts data
      | .pDate => process_date fmts data
      | .pList =>
          match data with
          | .vList xs => do
              let inner ← inner_schema schema
              let ys ← elemsLoop (unmarshalNodeF fuel fmts) inner parent path 0 xs
              .ok (.vList ys)
          | _ => .error (.typeError "expected a list")
      | .pDict =>
          match data with
          | .vDict es =>
              match schema with
              | .sRecord rn fields => do
                  let cleaned ← clean_item_keys fields es path
                  let kept := drop_unknown_keys fields cleaned
                  let _ ← classify_entries fields kept
                  let processed ← entriesLoop (unmarshalNodeF fuel fmts) fields path kept
                  construct_dataclass rn fields processed
              | other => .error (.attributeError ("'" ++ typeReprInner other ++
                  "' object has no attribute '__dataclass_fields__'"))
          | _ => .error (.typeError "expected a dict")

mutual
/-- The number of nodes of a value tree (an upper bound on the recursion
depth either engine can reach on it). -/
def sizeValue : Value → Nat
  | .vList xs => 1 + sizeValueList xs
  | .vDict es => 1 + sizeValueEntries es
  | .vRecord _ fs => 1 + sizeValueFields fs
  | _ => 1

/-- Total size of list elements. -/
def sizeValueList : List Value → Nat
  | [] => 0
  | x :: rest => sizeValue x + sizeValueList rest

/-- Total size of dict entry values. -/
def sizeValueEntries : List (String × Value) → Nat
  | [] => 0
  | (_, v) :: rest => sizeValue v + sizeValueEntries rest

/-- Total size of dataclass field values. -/
def sizeValueFields : List (Field × Value) → Nat
  | [] => 0
  | (_, v) :: rest => sizeValue v + sizeValueFields rest
end

/-- unmarshal(response, schema, datetime_fmt, date_fmt): the module-level
entry point; the root work item has empty parent and path. -/
def unmarshal (fmts : Fmts) (schema : Schema) (response : Value) :
    Except JMErr Value :=
  unmarshalNodeF (sizeValue response + 1) fmts schema response "" ""

/-! ### The marshaller with list identity (the in-place mutation model)

marshal.py mutates exactly one kind of caller-owned object: lists.
_clean_list empties the very list object the caller handed in
(item.data.pop(0) in a loop) and promotion then appends each marshalled
element back into that same object (prev.data.append), so after the call
the caller's list holds the marshalled images of its elements.  Dataclass
instances are only read (clean_dataclass builds a fresh mapping) and dicts
pass through untouched.  To make this observable the values below carry
lists by reference into a heap of cells; everything else is as in
marshalValue. -/

/-- A runtime value whose lists are heap references. -/
inductive RValue where
  | rNone
  | rBool (b : Bool)
  | rInt (n : Int)
  | rFloat (f : FloatV)
  | rStr (s : String)
  | rUuid (hex : List Char)
  | rDatetime (dt : DateTimeV)
  | rDate (d : DateV)
  | rEnum (ename mname : String) (mval : EnumVal)
  | rListRef (addr : Nat)
  | rDict (entries : List (String × RValue))
  | rRecord (rname : String) (fields : List (Field × RValue))
  | rOpaque (cname txt : String)

/-- The heap of list objects: cell address to contents. -/
def Heap := List (List RValue)

/-- Contents of a list cell. -/
def heapGet (h : Heap) (a : Nat) : List RValue :=
  (List.get? h a).getD []

/-- Replace the contents of a list cell. -/
def heapSet (h : Heap) (a : Nat) (xs : List RValue) : Heap :=
  List.set h a xs

/-- member.value as an RValue (enum member values are leaves). -/
def enumValToRValue : EnumVal → RValue
  | .eNone => .rNone
  | .eBool b => .rBool b
  | .eInt n => .rInt n
  | .eFloat f => .rFloat f
  | .eStr s => .rStr s
  | .eDate d => .rDate d
  | .eDatetime dt => .rDatetime dt

/-- marshal._get_type on reference values. -/
def rget_type : RValue → Except JMErr MType
  | .rRecord _ _ => .ok .DATACLASS
  | .rListRef _ => .ok .LIST
  | .rDict _ => .ok .DICT
  | .rNone => .ok .NONETYPE
  | .rStr _ => .ok .STRING
  | .rInt _ => .ok .INT
  | .rFloat _ => .ok .FLOAT
  | .rBool _ => .ok .BOOL
  | .rDatetime _ => .ok .DATETIME
  | .rDate _ => .ok .DATE
  | .rUuid _ => .ok .UUID
  | .rEnum _ _ _ => .ok .ENUM
  | .rOpaque cn txt => .error (.marshalError ("Unable to marshal data '" ++ txt ++
      "' (<class '" ++ cn ++ "'>) to known type."))

/-- fields._omit_field on reference values. -/
def romit_field (f : Field) (v : RValue) : Bool :=
  f.omitempty &&
    (match v with
     | .rNone => true
     | _ => false) &&
    is_optional f.ftype

/-- dict assignment on reference-valued mappings. -/
def rdictSet (d : List (String × RValue)) (k : String) (v : RValue) :
    List (String × RValue) :=
  match d with
  | [] => [(k, v)]
  | (k2, v2) :: rest =>
      if k2 == k then (k2, v) :: rest else (k2, v2) :: rdictSet rest k v

/-- The clean_dataclass field loop on reference values (primitive entries
only, as in clean_dataclass_loop). -/
def rclean_dataclass_loop : List (Field × RValue) → List (String × RValue) →
    Except JMErr (List (String × RValue))
  | [], m => .ok m
  | (f, v) :: rest, m =>
      let json_key := get_json_key f
      match rget_type v with
      | .error e => .error e
      | .ok t =>
          if romit_field f v then rclean_dataclass_loop rest m
          else if mtypePrimitive t then
            rclean_dataclass_loop rest (rdictSet m json_key v)
          else rclean_dataclass_loop rest m

/-- _clean_list plus promotion on the heap, with the node conversion passed
in: the cell is emptied first (every element is popped from the caller's
object), then each marshalled element is appended back into that same
cell, in order. -/
def heapElemsLoop (g : RValue → Heap → Except JMErr (RValue × Heap)) (a : Nat) :
    List RValue → Heap → Except JMErr Heap
  | [], h => .ok h
  | x :: rest, h => do
      let (w, h2) ← g x h
      let h3 := heapSet h2 a (heapGet h2 a ++ [w])
      heapElemsLoop g a rest h3

/-- Promotion of a dataclass's non-primitive children on the heap. -/
def heapChildrenLoop (g : RValue → Heap → Except JMErr (RValue × Heap)) :
    List (Field × RValue) → List (String × RValue) → Heap →
    Except JMErr (List (String × RValue) × Heap)
  | [], m, h => .ok (m, h)
  | (f, v) :: rest, m, h =>
      if romit_field f v then heapChildrenLoop g rest m h
      else
        match rget_type v with
        | .error e => .error e
        | .ok t =>
            if mtypePrimitive t then heapChildrenLoop g rest m h
            else do
              let (w, h2) ← g v h
              heapChildrenLoop g rest (rdictSet m (get_json_key f) w) h2

/-- marshalValue with list identity: identical node logic, with every list
consumed out of its heap cell and rebuilt in place; the marshalled form of a
list value is a reference to the same (now rewritten) cell. -/
def marshalHeapF : Nat → Fmts → RValue → Heap → Except JMErr (RValue × Heap)
  | 0, _, _, _ => .error .recursionError
  | fuel + 1, fmts, data, h =>
      match data with
      | .rRecord _ fvs => do
          let m ← rclean_dataclass_loop fvs []
          let (m2, h2) ← heapChildrenLoop (marshalHeapF fuel fmts) fvs m h
          .ok (.rDict m2, h2)
      | .rListRef a =>
          let xs := heapGet h a
          let h1 := heapSet h a []
          match heapElemsLoop (marshalHeapF fuel fmts) a xs h1 with
          | .ok h2 => .ok (.rListRef a, h2)
          | .error e => .error e
      | .rDict es => .ok (.rDict es, h)
      | .rEnum _ _ ev => .ok (enumValToRValue ev, h)
      | .rUuid hx => .ok (.rStr (uuidStr hx), h)
      | .rDatetime dt =>
          .ok (.rStr (match fmtTruthy fmts.datetime_fmt with
            | some f => pyStrftime dt f
            | none => pyDatetimeIsoformat dt), h)
      | .rDate d =>
          .ok (.rStr (match fmtTruthy fmts.date_fmt with
            | some f => pyStrftimeDate d f
            | none => pyDateIsoformat d), h)
      | .rNone => .ok (.rNone, h)
      | .rBool b => .ok (.rBool b, h)
      | .rInt n => .ok (.rInt n, h)
      | .rFloat f => .ok (.rFloat f, h)
      | .rStr s => .ok (.rStr s, h)
      | .rOpaque cn txt =>
          match rget_type (.rOpaque cn txt) with
          | .error e => .error e
          | .ok _ => .ok (.rOpaque cn txt, h)

/-! ### Equality of schemas and fields -/

mutual
/-- Structural equality of schemas. -/
def schemaBeq : Schema → Schema → Bool
  | .sNone, .sNone => true
  | .sStr, .sStr => true
  | .sInt, .sInt => true
  | .sFloat, .sFloat => true
  | .sBool, .sBool => true
  | .sUuid, .sUuid => true
  | .sDatetime, .sDatetime => true
  | .sDate, .sDate => true
  | .sEnum e1 m1, .sEnum e2 m2 => e1 == e2 && m1 == m2
  | .sList t1, .sList t2 => schemaBeq t1 t2
  | .sUnion a1, .sUnion a2 => schemaListBeq a1 a2
  | .sRecord r1 f1, .sRecord r2 f2 => r1 == r2 && fieldListBeq f1 f2
  | .sClass c1, .sClass c2 => c1 == c2
  | _, _ => false

/-- Pointwise equality of schema lists. -/
def schemaListBeq : List Schema → List Schema → Bool
  | [], [] => true
  | a :: as1, b :: bs => schemaBeq a b && schemaListBeq as1 bs
  | _, _ => false

/-- Structural equality of fields. -/
def fieldBeq : Field → Field → Bool
  | .mk n1 j1 o1 t1, .mk n2 j2 o2 t2 =>
      n1 == n2 && j1 == j2 && o1 == o2 && schemaBeq t1 t2

/-- Pointwise equality of field lists. -/
def fieldListBeq : List Field → List Field → Bool
  | [], [] => true
  | a :: as1, b :: bs => fieldBeq a b && fieldListBeq as1 bs
  | _, _ => false
end

mutual
theorem schemaBeq_sound : ∀ a b : Schema, schemaBeq a b = true → a = b
  | .sNone, b => by cases b <;> simp [schemaBeq]
  | .sStr, b => by cases b <;> simp [schemaBeq]
  | .sInt, b => by cases b <;> simp [schemaBeq]
  | .sFloat, b => by cases b <;> simp [schemaBeq]
  | .sBool, b => by cases b <;> simp [schemaBeq]
  | .sUuid, b => by cases b <;> simp [schemaBeq]
  | .sDatetime, b => by cases b <;> simp [schemaBeq]
  | .sDate, b => by cases b <;> simp [schemaBeq]
  | .sEnum e1 m1, b => by cases b <;> simp [schemaBeq]
  | .sList t1, b => by
      cases b <;> simp [schemaBeq]
      exact fun h => schemaBeq_sound t1 _ h
  | .sUnion a1, b => by
      cases b <;> simp [schemaBeq]
      exact fun h => schemaListBeq_sound a1 _ h
  | .sRecord r1 f1, b => by
      cases b <;> simp [schemaBeq]
      exact fun hr h => ⟨hr, fieldListBeq_sound f1 _ h⟩
  | .sClass c1, b => by cases b <;> simp [schemaBeq]

theorem schemaListBeq_sound : ∀ a b : List Schema, schemaListBeq a b = true → a = b
  | [], b => by cases b <;> simp [schemaListBeq]
  | x :: xs, b => by
      cases b with
      | nil => simp [schemaListBeq]
      | cons y ys =>
          simp only [schemaListBeq, Bool.and_eq_true]
          exact fun ⟨h1, h2⟩ => by
            rw [schemaBeq_sound x y h1, schemaListBeq_sound xs ys h2]

theorem fieldBeq_sound : ∀ a b : Field, fieldBeq a b = true → a = b
  | .mk n1 j1 o1 t1, .mk n2 j2 o2 t2 => by
      simp only [fieldBeq, Bool.and_eq_true, beq_iff_eq]
      exact fun ⟨⟨⟨h1, h2⟩, h3⟩, h4⟩ => by
        rw [h1, h2, h3, schemaBeq_sound t1 t2 h4]

theorem fieldListBeq_sound : ∀ a b : List Field, fieldListBeq a b = true → a = b
  | [], b => by cases b <;> simp [fieldListBeq]
  | x :: xs, b => by
      cases b with
      | nil => simp [fieldListBeq]
      | cons y ys =>
          simp only [fieldListBeq, Bool.and_eq_true]
          exact fun ⟨h1, h2⟩ => by
            rw [fieldBeq_sound x y h1, fieldListBeq_sound xs ys h2]
end

mutual
theorem schemaBeq_refl : ∀ a : Schema, schemaBeq a a = true
  | .sNone | .sStr | .sInt | .sFloat | .sBool | .sUuid | .sDatetime | .sDate =>
      by simp [schemaBeq]
  | .sEnum e m => by simp [schemaBeq]
  | .sList t => by simp [schemaBeq, schemaBeq_refl t]
  | .sUnion a => by simp [schemaBeq, schemaListBeq_refl a]
  | .sRecord r f => by simp [schemaBeq, fieldListBeq_refl f]
  | .sClass c => by simp [schemaBeq]

theorem schemaListBeq_refl : ∀ a : List Schema, schemaListBeq a a = true
  | [] => by simp [schemaListBeq]
  | x :: xs => by simp [schemaListBeq, schemaBeq_refl x, schemaListBeq_refl xs]

theorem fieldBeq_refl : ∀ a : Field, fieldBeq a a = true
  | .mk n j o t => by simp [fieldBeq, schemaBeq_refl t]

theorem fieldListBeq_refl : ∀ a : List Field, fieldListBeq a a = true
  | [] => by simp [fieldListBeq]
  | x :: xs => by simp [fieldListBeq, fieldBeq_refl x, fieldListBeq_refl xs]
end

instance : DecidableEq Schema := fun a b =>
  if h : schemaBeq a b = true then .isTrue (schemaBeq_sound a b h)
  else .isFalse (fun e => h (e ▸ schemaBeq_refl a))

instance : DecidableEq Field := fun a b =>
  if h : fieldBeq a b = true then .isTrue (fieldBeq_sound a b h)
  else .isFalse (fun e => h (e ▸ fieldBeq_refl a))

/-! ### Typing: which runtime values inhabit a schema

A Python datetime/date value satisfies its constructor's range invariants by
construction; the predicates below state them.  conformsTo then says that a
runtime value is an instance of a schema — the hypothesis of the round-trip
property ("a record value v of a schema"). -/

/-- The invariants of a constructed datetime.date. -/
def validDate (d : DateV) : Bool :=
  1 ≤ d.year && d.year ≤ 9999 && 1 ≤ d.month && d.month ≤ 12 &&
    1 ≤ d.day && d.day ≤ daysInMonth d.year d.month

/-- The invariants of a timezone's fixed offset: strictly within 24 hours
(whole minutes). -/
def validTzOff : Option Int → Bool
  | none => true
  | some m => m.natAbs < 1440

/-- The invariants of a constructed datetime.datetime. -/
def validDateTime (dt : DateTimeV) : Bool :=
  validDate ⟨dt.year, dt.month, dt.day⟩ && dt.hour < 24 && dt.minute < 60 &&
    dt.second < 60 && dt.microsecond < 1000000 && validTzOff dt.tzMinutes

/-- The invariant of a uuid.UUID's canonical digits: 32 lowercase hex. -/
def validUuidHex (hex : List Char) : Bool :=
  hex.length == 32 && hex.all (fun c => hexLowerChars.contains c)

mutual
/-- The runtime value is an instance of the schema: None for the None
annotation, the matching primitive kinds, a range-valid UUID / datetime /
date, a member of the enum class, element-wise for List[T], None or an
instance of the non-null part for Optional[T] (the only supported union
shape), and for a dataclass an instance of that class — its stored
dataclass fields are the schema's and each attribute value is an instance
of its declared type. -/
def conformsTo : Schema → Value → Bool
  | .sNone, .vNone => true
  | .sStr, .vStr _ => true
  | .sInt, .vInt _ => true
  | .sFloat, .vFloat _ => true
  | .sBool, .vBool _ => true
  | .sUuid, .vUuid h => validUuidHex h
  | .sDatetime, .vDatetime dt => validDateTime dt
  | .sDate, .vDate d => validDate d
  | .sEnum en ms, .vEnum en2 mn ev => en == en2 && ms.contains (mn, ev)
  | .sList t, .vList xs => conformsList t xs
  | .sUnion [t1, t2], v =>
      (match v with
       | .vNone => isNoneSchema t1 || isNoneSchema t2
       | _ => if isNoneSchema t1 then conformsTo t2 v else conformsTo t1 v)
  | .sRecord rn fs, .vRecord rn2 fvs => rn == rn2 && conformsFields fs fvs
  | _, _ => false

/-- Element-wise conformance of a list value. -/
def conformsList : Schema → List Value → Bool
  | _, [] => true
  | t, x :: rest => conformsTo t x && conformsList t rest

/-- The instance's stored fields are the schema's fields and each value is
an instance of its field's declared type. -/
def conformsFields : List Field → List (Field × Value) → Bool
  | [], [] => true
  | ⟨n, j, o, t⟩ :: fs, (g, v) :: rest =>
      fieldBeq ⟨n, j, o, t⟩ g && conformsTo t v && conformsFields fs rest
  | _, _ => false
end

/-- No duplicates in a string list. -/
def distinctStrings : List String → Bool
  | [] => true
  | s :: rest => !rest.contains s && distinctStrings rest

/-- No two members of the enum share an underlying value (Python collapses
a duplicated value into an alias of the earlier member, so the canonical
member list of a real enum always satisfies this). -/
def distinctEnumVals : List (String × EnumVal) → Bool
  | [] => true
  | (_, v) :: rest => !rest.any (fun m => m.2 == v) && distinctEnumVals rest

/-- No field's external key names a different field: renaming then never
clobbers or revives another field's entry. -/
def noCrossCollision (fs : List Field) : Bool :=
  fs.all (fun f => fs.all (fun g => f.name == g.name || get_json_key f != g.name))

mutual
/-- The schema is supported and collision-free, so that the round-trip
property can hold of it: no bare unhandled classes; unions are exactly
optional-of-one-supported-non-record type (unmarshalling an optional
dataclass crashes in clean_item, see the C1 analysis); in every record the
field names are distinct, the external keys are distinct, no external key
collides with another field's name, and every field type is again good. -/
def goodSchema : Schema → Bool
  | .sNone | .sStr | .sInt | .sFloat | .sBool | .sUuid | .sDatetime | .sDate => true
  | .sEnum _ ms => distinctEnumVals ms
  | .sList t => goodSchema t
  | .sUnion [t1, t2] =>
      (isNoneSchema t1 ^^ isNoneSchema t2) &&
        (if isNoneSchema t1 then goodNonNull t2 else goodNonNull t1)
  | .sUnion _ => false
  | .sRecord _ fs =>
      distinctStrings (field_names fs) &&
        distinctStrings (fs.map get_json_key) &&
        noCrossCollision fs && goodFields fs
  | .sClass _ => false

/-- A type allowed as the non-null part of an optional: any good
non-record, non-union, non-None schema; an enum is further required to have
no member whose underlying value is None, since such a member marshals to
null, which the optional branch of the classifier then reads back as the
null alternative rather than the member. -/
def goodNonNull : Schema → Bool
  | .sRecord _ _ => false
  | .sUnion _ => false
  | .sNone => false
  | .sEnum _ ms => distinctEnumVals ms && !ms.any (fun m => m.2 == EnumVal.eNone)
  | t => goodSchema t

/-- All field types are good. -/
def goodFields : List Field → Bool
  | [] => true
  | ⟨_, _, _, t⟩ :: rest => goodSchema t && goodFields rest
end

/-- Modelled from the spec: the fixed ISO-8601 profile
YYYY-MM-DDTHH:MM:SS±HH:MM that the spec claims for default timestamp
output — 25 characters, seconds precision, no fractional part, explicit
offset.  (This is a spec-side predicate, for comparison with what the code
actually emits.) -/
def specFixedProfile (s : String) : Bool :=
  match s.data with
  | [y1, y2, y3, y4, '-', mo1, mo2, '-', d1, d2, 'T',
     h1, h2, ':', mi1, mi2, ':', s1, s2, sg, o1, o2, ':', o3, o4] =>
      y1.isDigit && y2.isDigit && y3.isDigit && y4.isDigit &&
        mo1.isDigit && mo2.isDigit && d1.isDigit && d2.isDigit &&
        h1.isDigit && h2.isDigit && mi1.isDigit && mi2.isDigit &&
        s1.isDigit && s2.isDigit && (sg == '+' || sg == '-') &&
        o1.isDigit && o2.isDigit && o3.isDigit && o4.isDigit
  | _ => false

/-- Is there an occurrence of sub inside hay? -/
def containsSub (hay sub : List Char) : Bool :=
  match hay with
  | [] => sub.isEmpty
  | _ :: rest => sub.isPrefixOf hay || containsSub rest sub

/-- Is the runtime value written straight into the mapping by
clean_dataclass (a marshal-primitive)? -/
def entryKind (v : Value) : Bool :=
  match get_type v with
  | .ok t => mtypePrimitive t
  | .error _ => false

/-- The mapping clean_dataclass accumulates from an empty start: the
non-omitted primitive fields' entries, in declaration order. -/
def phase1Entries : List (Field × Value) → PyDict
  | [] => []
  | (f, v) :: rest =>
      if omit_field f v then phase1Entries rest
      else if entryKind v then (get_json_key f, v) :: phase1Entries rest
      else phase1Entries rest

/-- The non-omitted non-primitive fields: the children the work-list
promotes after all primitives, in declaration order. -/
def childPairs : List (Field × Value) → List (Field × Value)
  | [] => []
  | (f, v) :: rest =>
      if omit_field f v then childPairs rest
      else if entryKind v then childPairs rest
      else (f, v) :: childPairs rest

/-! ### C6: timestamp Z normalization -/

/-- C6: with no datetime_fmt option, a timestamp leaf is parsed as ISO-8601
after first rewriting a trailing literal Z into the explicit +00:00 offset;
in particular "2020-06-22T08:55:05Z" yields 2020-06-22T08:55:05+00:00. -/
theorem C6_timestamp_z_rewrite :
    (∀ s : String, process_datetime noFmts (.vStr s) =
      (pyDatetimeFromisoformat
        (if s.data.getLast? == some 'Z' then ⟨s.data.dropLast ++ ("+00:00").data⟩
         else s)).map Value.vDatetime) ∧
    unmarshal noFmts .sDatetime (.vStr "2020-06-22T08:55:05Z") =
      .ok (.vDatetime ⟨2020, 6, 22, 8, 55, 5, 0, some 0⟩) :=
  ⟨fun _ => rfl, rfl⟩

/-! ### C7: default timestamp rendering -/

/-- C7 counterexample: the timestamp 2020-01-01T00:00:00.000001+00:00 (one
microsecond past midnight, UTC) marshals by default to a string carrying the
fractional seconds, which is not in the spec's fixed
YYYY-MM-DDTHH:MM:SS±HH:MM profile; the claim that fractional seconds are
omitted for all timestamps is false. -/
theorem C7_counterexample :
    marshal noFmts (.vDatetime ⟨2020, 1, 1, 0, 0, 0, 1, some 0⟩) =
      .ok (.vStr "2020-01-01T00:00:00.000001+00:00") ∧
    specFixedProfile "2020-01-01T00:00:00.000001+00:00" = false ∧
    specFixedProfile "2020-06-22T08:55:05+00:00" = true :=
  ⟨rfl, by decide, by decide⟩

/-- A rendered decimal digit is a digit character. -/
theorem digitChar_mod_isDigit (n : Nat) : (Nat.digitChar (n % 10)).isDigit = true := by
  have h : n % 10 < 10 := Nat.mod_lt _ (by decide)
  revert h
  generalize n % 10 = k
  intro h
  interval_cases k <;> decide

/-- A rendered decimal digit is not a dot. -/
theorem digitChar_mod_ne_dot (n : Nat) : Nat.digitChar (n % 10) ≠ '.' := by
  have h : n % 10 < 10 := Nat.mod_lt _ (by decide)
  revert h
  generalize n % 10 = k
  intro h
  interval_cases k <;> decide

/-- No dot among a two-digit group. -/
theorem dot_not_mem_two (n : Nat) : '.' ∉ two n := by
  intro h
  simp only [two, List.mem_cons, List.not_mem_nil, or_false] at h
  rcases h with h | h <;> exact digitChar_mod_ne_dot _ h.symm

/-- No dot among a four-digit group. -/
theorem dot_not_mem_four (n : Nat) : '.' ∉ four n := by
  intro h
  simp only [four, List.mem_cons, List.not_mem_nil, or_false] at h
  rcases h with h | h | h | h <;> exact digitChar_mod_ne_dot _ h.symm

/-- No dot in the rendered offset. -/
theorem dot_not_mem_offChars : ∀ tz, '.' ∉ offChars tz
  | none => by simp [offChars]
  | some m => by
      intro h
      simp only [offChars, List.mem_cons, List.mem_append] at h
      rcases h with h | h | h
      · by_cases hm : m < 0 <;> simp [hm] at h
      · exact dot_not_mem_two _ h
      · rcases h with h | h
        · cases h
        · exact dot_not_mem_two _ h

/-- The rendered offset has six characters when aware, none when naive. -/
theorem length_offChars : ∀ tz : Option Int,
    (offChars tz).length = if tz.isSome then 6 else 0
  | none => rfl
  | some _ => by simp [offChars, two]

/-- A microsecond-free timestamp renders with no dot at all. -/
theorem dot_not_mem_iso (dt : DateTimeV) (h0 : dt.microsecond = 0) :
    '.' ∉ (pyDatetimeIsoformat dt).data := by
  intro hmem
  simp [pyDatetimeIsoformat, isoDateChars, isoTimeChars, h0, List.mem_append,
    dot_not_mem_two, dot_not_mem_four, dot_not_mem_offChars] at hmem

/-- C7 amended: the default timestamp rendering is datetime.isoformat():
date, 'T', seconds-precision time, a fractional part present exactly when
the microsecond field is nonzero, and a ±HH:MM offset appended exactly when
the value is timezone-aware (naive values carry no offset); a truthy
datetime_format is rendered with strftime instead. -/
theorem C7_amended :
    (∀ dt fmt, fmt ≠ "" →
      marshal ⟨some fmt, none⟩ (.vDatetime dt) = .ok (.vStr (pyStrftime dt fmt))) ∧
    (∀ dt : DateTimeV,
      marshal noFmts (.vDatetime dt) = .ok (.vStr (pyDatetimeIsoformat dt)) ∧
      ('.' ∈ (pyDatetimeIsoformat dt).data ↔ dt.microsecond ≠ 0) ∧
      (pyDatetimeIsoformat dt).data.length =
        19 + (if dt.microsecond = 0 then 0 else 7) +
          (if dt.tzMinutes.isSome then 6 else 0)) := by
  constructor
  · intro dt fmt hne
    simp only [marshal, marshalValue, fmtTruthy]
    rw [if_neg (by simpa using hne)]
  · intro dt
    refine ⟨rfl, ⟨?_, ?_⟩, ?_⟩
    · intro hmem h0
      exact dot_not_mem_iso dt h0 hmem
    · intro hne
      simp only [pyDatetimeIsoformat, isoTimeChars]
      rw [if_neg (by simpa using hne)]
      simp [List.mem_append]
    · by_cases hm : dt.microsecond = 0 <;> by_cases ht : dt.tzMinutes.isSome <;>
        simp [pyDatetimeIsoformat, isoDateChars, isoTimeChars, four, two, six,
          hm, ht, length_offChars]

/-- C7 amended, instantiated: the strftime path at a concrete timestamp and
a concrete truthy format. -/
theorem C7_amended_witness :
    marshal ⟨some "%Y/%m/%d %H:%M", none⟩
      (.vDatetime ⟨2020, 6, 22, 8, 55, 5, 0, none⟩) =
      .ok (.vStr "2020/06/22 08:55") := by
  have h := C7_amended.1 ⟨2020, 6, 22, 8, 55, 5, 0, none⟩ "%Y/%m/%d %H:%M" (by decide)
  have h2 : pyStrftime ⟨2020, 6, 22, 8, 55, 5, 0, none⟩ "%Y/%m/%d %H:%M" =
      "2020/06/22 08:55" := rfl
  rw [h2] at h
  exact h

/-! ### C10: enum members marshal to their raw value, unconverted -/

/-- C10: marshalling an enum member emits exactly the member's raw
underlying value with no further conversion or recursive marshalling; in
particular a member whose value is a date object is emitted as that date
object, even though a plain date value at the same position would be
marshalled into a string. -/
theorem C10_enum_value_passthrough :
    (∀ fmts en mn ev, marshal fmts (.vEnum en mn ev) = .ok (enumValToValue ev)) ∧
    (∀ en mn d, marshal noFmts (.vEnum en mn (.eDate d)) = .ok (.vDate d)) ∧
    (∀ d, marshal noFmts (.vDate d) = .ok (.vStr (pyDateIsoformat d))) ∧
    (∀ fmts rn en mn ev n,
      marshal fmts (.vRecord rn [(.mk n none false (.sEnum en []), .vEnum en mn ev)]) =
        .ok (.vDict [(n, enumValToValue ev)])) :=
  ⟨fun _ _ _ _ => rfl, fun _ _ _ => rfl, fun _ => rfl, fun fmts _ _ _ ev _ => by
    cases ev <;> rfl⟩

/-! ### C9: classifying unsupported schemas -/

/-- C9 counterexample: classifying the two-non-null-alternative union
Union[str, int] raises UnmarshalError, not a SchemaError — the repository
defines no SchemaError at all (exceptions.py has exactly UnmarshalError and
MarshalError). -/
theorem C9_counterexample :
    calculate_schema_type (.sUnion [.sStr, .sInt]) (.vStr "x") =
      .error (.unmarshalError (union_unsupported_msg [.sStr, .sInt])) ∧
    JMErr.className (.unmarshalError (union_unsupported_msg [.sStr, .sInt])) =
      "UnmarshalError" ∧
    JMErr.className (.unmarshalError (union_unsupported_msg [.sStr, .sInt])) ≠
      "SchemaError" :=
  ⟨rfl, rfl, by decide⟩

/-- C9 amended: classifying a schema that denotes an unsupported construct —
a union that is not NoneType-plus-one-other-type, or a bare class the engine
has no handler for — fails with UnmarshalError (the error class the
repository actually defines for the unmarshalling side). -/
theorem C9_amended :
    (∀ args data, (args.length == 2 && args.any isNoneSchema) = false →
      calculate_schema_type (.sUnion args) data =
        .error (.unmarshalError (union_unsupported_msg args))) ∧
    (∀ cn data, calculate_schema_type (.sClass cn) data =
      .error (.unmarshalError (not_supported_msg (.sClass cn)))) := by
  constructor
  · intro args data h
    simp [calculate_schema_type, h]
  · intro cn data
    rfl

/-- C9 amended, instantiated: Union[str, list] (as in the repository's own
test) and an unhandled bare class. -/
theorem C9_amended_witness :
    calculate_schema_type (.sUnion [.sStr, .sClass "list"]) (.vStr "hello") =
      .error (.unmarshalError (union_unsupported_msg [.sStr, .sClass "list"])) ∧
    calculate_schema_type (.sClass "Impossible") (.vInt 999) =
      .error (.unmarshalError (not_supported_msg (.sClass "Impossible"))) :=
  ⟨C9_amended.1 [.sStr, .sClass "list"] (.vStr "hello") (by decide),
   C9_amended.2 "Impossible" (.vInt 999)⟩

/-! ### C2: absent external keys -/

/-- C2 counterexample: a required field whose declared type is a bare class
(here datetime) and whose external key is absent makes unmarshal fail with
AttributeError — is_field_optional evaluates field.type.__args__, which a
bare class does not have — not with the UnmarshalError the claim promises
for every required field. -/
theorem C2_counterexample :
    unmarshal noFmts (.sRecord "Item" [.mk "when" none false .sDatetime])
      (.vDict []) =
      .error (.attributeError
        "type object 'datetime.datetime' has no attribute '__args__'") ∧
    JMErr.className (.attributeError
      "type object 'datetime.datetime' has no attribute '__args__'") ≠
      "UnmarshalError" :=
  ⟨rfl, by decide⟩

/-- C2 amended: for a declared field whose external key is absent from the
input mapping: when the field is optional a None placeholder is synthesized
under its internal name; when the optionality check answers false — which it
does exactly for required fields of primitive or typing-construct type — the
clean step fails with UnmarshalError reporting the node's path, the missing
key and the keys available in the mapping (end to end for a record schema);
and when the declared type is a bare class the optionality check itself
raises AttributeError, which propagates instead. -/
theorem C2_amended :
    (∀ f data path, dictContains data (get_json_key f) = false →
      (is_field_optional f = .ok true →
        clean_item_field f data path = .ok (dictSet data f.name .vNone)) ∧
      (is_field_optional f = .ok false →
        clean_item_field f data path = .error (.unmarshalError
          (missing_key_msg path (get_json_key f) (dictKeys data)))) ∧
      (∀ e, is_field_optional f = .error e →
        clean_item_field f data path = .error e)) ∧
    (∀ f, isPrimitiveSchema f.ftype = true → is_field_optional f = .ok false) ∧
    (∀ f args, schemaArgs f.ftype = some args → isPrimitiveSchema f.ftype = false →
      is_field_optional f = .ok (args.any isNoneSchema)) ∧
    (∀ rn f es, dictContains es (get_json_key f) = false →
      is_field_optional f = .ok false →
      unmarshal noFmts (.sRecord rn [f]) (.vDict es) =
        .error (.unmarshalError
          (missing_key_msg "" (get_json_key f) (dictKeys es)))) := by
  refine ⟨?_, ?_, ?_, ?_⟩
  · intro f data path habs
    refine ⟨?_, ?_, ?_⟩
    · intro hopt
      simp [clean_item_field, get_json_key_for_item, habs, hopt]
    · intro hopt
      simp [clean_item_field, get_json_key_for_item, habs, hopt]
    · intro e herr
      simp [clean_item_field, get_json_key_for_item, habs, herr]
  · intro f hprim
    simp [is_field_optional, hprim]
  · intro f args hargs hprim
    simp [is_field_optional, hargs, hprim]
  · intro rn f es habs hopt
    simp [unmarshal, unmarshalNodeF, calculate_schema_type, validate_schema,
      isCustomPyType, runtimeTypeEq, clean_item_keys, clean_item_field,
      get_json_key_for_item, habs, hopt]

/-- C2 amended, instantiated: an optional field with absent key gets a None
placeholder; a required str-typed field with absent key yields the
UnmarshalError with path, key and available keys. -/
theorem C2_amended_witness :
    clean_item_field (.mk "maybe" (some "probablyNotThere") false
        (.sUnion [.sFloat, .sNone])) [("expectedValue", .vInt 1002)] "" =
      .ok [("expectedValue", .vInt 1002), ("maybe", .vNone)] ∧
    unmarshal noFmts (.sRecord "Item" [.mk "other_val" (some "otherVal") false .sStr])
      (.vDict [("val", .vStr "test")]) =
      .error (.unmarshalError ("Expected json key is not present in object at " ++
        "position ''. 'otherVal' not in ['val']")) := by
  constructor
  · have h := ((C2_amended.1 (.mk "maybe" (some "probablyNotThere") false
        (.sUnion [.sFloat, .sNone])) [("expectedValue", .vInt 1002)] "" (by decide)).1
        rfl)
    simpa using h
  · have h := C2_amended.2.2.2 "Item" (.mk "other_val" (some "otherVal") false .sStr)
      [("val", .vStr "test")] (by decide) rfl
    simpa using h

/-! ### C8: shape-mismatch error location -/

/-- C8 counterexample: the schema/shape mismatch at path .items.0 (the first
element of the list under the "items" key) is reported with
"at location = items" — only the nearest enclosing mapping key, not the
dot-and-index path from the root the claim promises: "items.0" occurs
nowhere in the message. -/
theorem C8_counterexample :
    unmarshal noFmts (.sRecord "Item" [.mk "items" none false (.sList .sInt)])
      (.vDict [("items", .vList [.vStr "x"])]) =
      .error (.unmarshalError ("Invalid schema. schema = <class 'int'>, " ++
        "data = 'x' (<class 'str'>) at location = items")) ∧
    containsSub ("Invalid schema. schema = <class 'int'>, " ++
        "data = 'x' (<class 'str'>) at location = items").data ("items.0").data =
      false :=
  ⟨rfl, by decide⟩

/-- C8 amended: a shape mismatch on a node whose classified kind is not one
of the exempt custom kinds raises UnmarshalError whose message names the
schema, the observed value, the observed runtime type, and the node's
immediate parent key (the nearest enclosing mapping key), not its full
dotted path. -/
theorem C8_amended :
    (∀ schema st data parent, isCustomPyType st = false →
      runtimeTypeEq data st = false →
      validate_schema schema st data parent =
        .error (.unmarshalError (invalid_schema_msg schema data parent))) ∧
    (∀ schema data parent, invalid_schema_msg schema data parent =
      "Invalid schema. schema = " ++ reprSchema schema ++ ", data = '" ++
        strValue data ++ "' (" ++ reprRuntimeType data ++
        ") at location = " ++ parent) := by
  constructor
  · intro schema st data parent hcust hne
    simp [validate_schema, hcust, hne]
  · intro schema data parent
    rfl

/-- C8 amended, instantiated: the bool-schema mismatch of the repository's
own test, reported at the parent key "value". -/
theorem C8_amended_witness :
    validate_schema .sBool .pBool (.vInt 123) "value" =
      .error (.unmarshalError ("Invalid schema. schema = <class 'bool'>, " ++
        "data = '123' (<class 'int'>) at location = value")) := by
  have h := C8_amended.1 .sBool .pBool (.vInt 123) "value" (by decide) (by decide)
  simpa using h

/-! ### C5: sequence order preservation -/

/-- Element-wise characterisation of the marshalled list: same length, and
the i-th output is the marshalled i-th input. -/
theorem marshalList_spec (fmts : Fmts) (xs : List Value) :
    ∀ ys, marshalList fmts xs = .ok ys →
      ys.length = xs.length ∧
      ∀ i (h : i < xs.length) (h2 : i < ys.length),
        marshalValue fmts (xs.get ⟨i, h⟩) = .ok (ys.get ⟨i, h2⟩) := by
  induction xs with
  | nil =>
      intro ys h
      simp only [marshalList] at h
      cases h
      exact ⟨rfl, fun i h1 _ => absurd h1 (by simp)⟩
  | cons x rest ih =>
      intro ys h
      simp only [marshalList] at h
      cases hw : marshalValue fmts x with
      | error e => rw [hw] at h; simp at h
      | ok w =>
          rw [hw] at h
          simp only [exc_bind_ok] at h
          cases htl : marshalList fmts rest with
          | error e => rw [htl] at h; simp at h
          | ok tl =>
              rw [htl] at h
              simp only [exc_bind_ok] at h
              cases h
              obtain ⟨hlen, helem⟩ := ih tl htl
              refine ⟨by simp [hlen], ?_⟩
              intro i h1 h2
              cases i with
              | zero => simpa using hw
              | succ n => simpa using helem n (by simpa using h1) (by simpa using h2)

/-- Element-wise characterisation of the unmarshalling element loop: same
length, and the i-th output is the converted i-th input at the indexed
path. -/
theorem elemsLoop_spec (g : Schema → Value → String → String → Except JMErr Value)
    (t : Schema) (parent path : String) (xs : List Value) :
    ∀ idx ys, elemsLoop g t parent path idx xs = .ok ys →
      ys.length = xs.length ∧
      ∀ i (h : i < xs.length) (h2 : i < ys.length),
        g t (xs.get ⟨i, h⟩) parent (path ++ "." ++ toString (idx + i)) =
          .ok (ys.get ⟨i, h2⟩) := by
  induction xs with
  | nil =>
      intro idx ys h
      simp only [elemsLoop] at h
      cases h
      exact ⟨rfl, fun i h1 _ => absurd h1 (by simp)⟩
  | cons x rest ih =>
      intro idx ys h
      simp only [elemsLoop] at h
      cases hw : g t x parent (path ++ "." ++ toString idx) with
      | error e => rw [hw] at h; simp at h
      | ok w =>
          rw [hw] at h
          simp only [exc_bind_ok] at h
          cases htl : elemsLoop g t parent path (idx + 1) rest with
          | error e => rw [htl] at h; simp at h
          | ok tl =>
              rw [htl] at h
              simp only [exc_bind_ok] at h
              cases h
              obtain ⟨hlen, helem⟩ := ih (idx + 1) tl htl
              refine ⟨by simp [hlen], ?_⟩
              intro i h1 h2
              cases i with
              | zero => simpa using hw
              | succ n =>
                  have h3 := helem n (by simpa using h1) (by simpa using h2)
                  rw [show idx + 1 + n = idx + (n + 1) by omega] at h3
                  simpa using h3

/-- C5: both engines preserve sequence order exactly, for sequences of any
length: the output has the same length as the input and the i-th output
element is the converted i-th input element — marshalValue applied to it on
the way out, the node conversion at the i-indexed path against the element
schema on the way in. -/
theorem C5_order_preservation :
    (∀ fmts xs ys, marshal fmts (.vList xs) = .ok (.vList ys) →
      ys.length = xs.length ∧
      ∀ i (h : i < xs.length) (h2 : i < ys.length),
        marshalValue fmts (xs.get ⟨i, h⟩) = .ok (ys.get ⟨i, h2⟩)) ∧
    (∀ fuel fmts t xs ys parent path,
      unmarshalNodeF (fuel + 1) fmts (.sList t) (.vList xs) parent path =
        .ok (.vList ys) →
      ys.length = xs.length ∧
      ∀ i (h : i < xs.length) (h2 : i < ys.length),
        unmarshalNodeF fuel fmts t (xs.get ⟨i, h⟩) parent
          (path ++ "." ++ toString i) = .ok (ys.get ⟨i, h2⟩)) := by
  constructor
  · intro fmts xs ys h
    have heq : marshal fmts (.vList xs) =
        (marshalList fmts xs) >>= fun zs => .ok (.vList zs) := rfl
    rw [heq] at h
    cases hl : marshalList fmts xs with
    | error e => rw [hl] at h; simp at h
    | ok zs =>
        rw [hl] at h
        simp only [exc_bind_ok] at h
        have h2 : Value.vList zs = Value.vList ys := by injection h
        have h3 : zs = ys := by injection h2
        subst h3
        exact marshalList_spec fmts xs zs hl
  · intro fuel fmts t xs ys parent path h
    have heq : unmarshalNodeF (fuel + 1) fmts (.sList t) (.vList xs) parent path =
        (elemsLoop (unmarshalNodeF fuel fmts) t parent path 0 xs) >>= fun zs =>
          .ok (.vList zs) := rfl
    rw [heq] at h
    cases hl : elemsLoop (unmarshalNodeF fuel fmts) t parent path 0 xs with
    | error e => rw [hl] at h; simp at h
    | ok zs =>
        rw [hl] at h
        simp only [exc_bind_ok] at h
        have h2 : Value.vList zs = Value.vList ys := by injection h
        have h3 : zs = ys := by injection h2
        subst h3
        obtain ⟨hlen, helem⟩ := elemsLoop_spec (unmarshalNodeF fuel fmts) t
          parent path xs 0 zs hl
        refine ⟨hlen, ?_⟩
        intro i h1 h2
        have h3 := helem i h1 h2
        rw [show 0 + i = i by omega] at h3
        exact h3

/-- C5, instantiated: a two-element list through each engine. -/
theorem C5_order_preservation_witness :
    marshalValue noFmts (.vDate ⟨2020, 1, 3⟩) = .ok (.vStr "2020-01-03") ∧
    unmarshalNodeF 5 noFmts .sInt (.vInt 2) "" ("" ++ "." ++ toString 1) =
      .ok (.vInt 2) := by
  constructor
  · have h := (C5_order_preservation.1 noFmts
      [.vDate ⟨2020, 1, 2⟩, .vDate ⟨2020, 1, 3⟩]
      [.vStr "2020-01-02", .vStr "2020-01-03"] rfl).2 1 (by decide) (by decide)
    simpa using h
  · exact (C5_order_preservation.2 5 noFmts .sInt [.vInt 1, .vInt 2]
      [.vInt 1, .vInt 2] "" "" rfl).2 1 (by decide) (by decide)

/-! ### Dictionary lemmas -/

theorem dictLookup_cons (k2 : String) (v2 : Value) (rest : PyDict) (k : String) :
    dictLookup ((k2, v2) :: rest) k =
      if k2 == k then some v2 else dictLookup rest k := by
  simp only [dictLookup, List.find?]
  cases h : (k2 == k) <;> simp [h]

theorem dictLookup_dictSet_self (m : PyDict) (k : String) (v : Value) :
    dictLookup (dictSet m k v) k = some v := by
  induction m with
  | nil => simp [dictSet, dictLookup_cons]
  | cons kv rest ih =>
      obtain ⟨k2, v2⟩ := kv
      cases h : (k2 == k)
      · simp [dictSet, h, dictLookup_cons, ih]
      · simp [dictSet, h, dictLookup_cons]

theorem dictLookup_dictSet_ne (m : PyDict) (k k' : String) (v : Value)
    (h : k' ≠ k) : dictLookup (dictSet m k' v) k = dictLookup m k := by
  induction m with
  | nil =>
      have hb : (k' == k) = false := by simp [h]
      simp [dictSet, dictLookup_cons, hb, dictLookup]
  | cons kv rest ih =>
      obtain ⟨k2, v2⟩ := kv
      cases h2 : (k2 == k')
      · cases h3 : (k2 == k) <;> simp [dictSet, h2, h3, dictLookup_cons, ih]
      · have hk2 : k2 = k' := by simpa using h2
        have h3 : (k2 == k) = false := by simp [hk2, h]
        simp [dictSet, h2, h3, dictLookup_cons]

/-- distinctStrings over a mapped list makes the map injective on members. -/
theorem distinct_map_inj {α : Type} (g : α → String) :
    ∀ l : List α, distinctStrings (l.map g) = true →
      ∀ a ∈ l, ∀ b ∈ l, g a = g b → a = b := by
  intro l
  induction l with
  | nil => intro _ a ha; cases ha
  | cons x rest ih =>
      intro hd a ha b hb hg
      simp only [List.map_cons, distinctStrings, Bool.and_eq_true,
        Bool.not_eq_true'] at hd
      obtain ⟨hnc, hdr⟩ := hd
      have hnotin : g x ∉ rest.map g := by simpa using hnc
      rcases List.mem_cons.mp ha with ha1 | ha1 <;>
        rcases List.mem_cons.mp hb with hb1 | hb1
      · rw [ha1, hb1]
      · subst ha1
        exact absurd (hg ▸ List.mem_map_of_mem g hb1) hnotin
      · subst hb1
        exact absurd (hg ▸ List.mem_map_of_mem g ha1) hnotin
      · exact ih hdr a ha1 b hb1 hg

/-! ### C3: omit-if-empty -/

/-- The clean_dataclass field loop writes only the json keys of its
non-omitted primitive fields: any other key's entry is untouched. -/
theorem clean_loop_preserves (k : String) :
    ∀ (fvs : List (Field × Value)) (m m1 : PyDict),
      clean_dataclass_loop fvs m = .ok m1 →
      (∀ p ∈ fvs, get_json_key p.1 = k →
        omit_field p.1 p.2 = true ∨
          ∃ t, get_type p.2 = .ok t ∧ mtypePrimitive t = false) →
      dictLookup m1 k = dictLookup m k := by
  intro fvs
  induction fvs with
  | nil =>
      intro m m1 h _
      simp only [clean_dataclass_loop] at h
      cases h
      rfl
  | cons p rest ih =>
      intro m m1 h hk
      obtain ⟨f, v⟩ := p
      simp only [clean_dataclass_loop] at h
      cases hg : get_type v with
      | error e => rw [hg] at h; simp at h
      | ok t =>
          simp only [hg] at h
          by_cases ho : omit_field f v = true
          · rw [if_pos ho] at h
            exact ih m m1 h (fun q hq => hk q (List.mem_cons_of_mem _ hq))
          · rw [if_neg ho] at h
            cases hp : mtypePrimitive t with
            | false =>
                rw [hp] at h
                simp only [Bool.false_eq_true, if_neg] at h
                exact ih m m1 h (fun q hq => hk q (List.mem_cons_of_mem _ hq))
            | true =>
                rw [hp] at h
                simp only [if_pos] at h
                have hne : get_json_key f ≠ k := by
                  intro he
                  rcases hk (f, v) (List.mem_cons_self _ _) he with h1 | ⟨t2, ht2, hp2⟩
                  · exact ho h1
                  · rw [hg] at ht2
                    injection ht2 with ht3
                    rw [ht3] at hp
                    rw [hp] at hp2
                    cases hp2
                rw [ih _ m1 h (fun q hq => hk q (List.mem_cons_of_mem _ hq))]
                exact dictLookup_dictSet_ne m k (get_json_key f) v hne

/-- Promotion of dataclass children writes only the json keys of its
non-omitted non-primitive fields: any other key's entry is untouched. -/
theorem children_loop_preserves (fmts : Fmts) (k : String) :
    ∀ (fvs : List (Field × Value)) (m m1 : PyDict),
      marshalRecordChildren fmts fvs m = .ok m1 →
      (∀ p ∈ fvs, get_json_key p.1 = k →
        omit_field p.1 p.2 = true ∨
          ∃ t, get_type p.2 = .ok t ∧ mtypePrimitive t = true) →
      dictLookup m1 k = dictLookup m k := by
  intro fvs
  induction fvs with
  | nil =>
      intro m m1 h _
      simp only [marshalRecordChildren] at h
      cases h
      rfl
  | cons p rest ih =>
      intro m m1 h hk
      obtain ⟨f, v⟩ := p
      simp only [marshalRecordChildren] at h
      by_cases ho : omit_field f v = true
      · rw [if_pos ho] at h
        exact ih m m1 h (fun q hq => hk q (List.mem_cons_of_mem _ hq))
      · rw [if_neg ho] at h
        cases hg : get_type v with
        | error e => rw [hg] at h; simp at h
        | ok t =>
            simp only [hg] at h
            cases hp : mtypePrimitive t with
            | true =>
                rw [hp] at h
                simp only [if_pos] at h
                exact ih m m1 h (fun q hq => hk q (List.mem_cons_of_mem _ hq))
            | false =>
                rw [hp] at h
                simp only [Bool.false_eq_true, if_neg] at h
                cases hw : marshalValue fmts v with
                | error e => rw [hw] at h; simp at h
                | ok w =>
                    rw [hw] at h
                    simp only [exc_bind_ok] at h
                    have hne : get_json_key f ≠ k := by
                      intro he
                      rcases hk (f, v) (List.mem_cons_self _ _) he with h1 | ⟨t2, ht2, hp2⟩
                      · exact ho h1
                      · rw [hg] at ht2
                        injection ht2 with ht3
                        rw [ht3] at hp
                        rw [hp] at hp2
                        cases hp2
                    rw [ih _ m1 h (fun q hq => hk q (List.mem_cons_of_mem _ hq))]
                    exact dictLookup_dictSet_ne m k (get_json_key f) w hne

/-- A json key occurring in the tail is not the head's key when the mapped
key list is duplicate-free. -/
theorem head_key_not_in_rest {f : Field} {v : Value}
    {rest : List (Field × Value)} {q : Field × Value}
    (hd : distinctStrings (((f, v) :: rest).map (fun p => get_json_key p.1)) = true)
    (hq : q ∈ rest) : get_json_key f ≠ get_json_key q.1 := by
  simp only [List.map_cons, distinctStrings, Bool.and_eq_true,
    Bool.not_eq_true'] at hd
  obtain ⟨hnc, _⟩ := hd
  have hnotin : get_json_key f ∉ rest.map (fun p => get_json_key p.1) := by
    simpa using hnc
  intro he
  exact hnotin (he ▸ List.mem_map_of_mem _ hq)

/-- A non-omitted None-valued field ends up in the cleaned mapping as a null
under its json key. -/
theorem clean_loop_none_entry :
    ∀ (fvs : List (Field × Value)) (m m1 : PyDict) (f : Field),
      clean_dataclass_loop fvs m = .ok m1 →
      distinctStrings (fvs.map (fun p => get_json_key p.1)) = true →
      (f, Value.vNone) ∈ fvs →
      omit_field f .vNone = false →
      dictLookup m1 (get_json_key f) = some .vNone := by
  intro fvs
  induction fvs with
  | nil => intro m m1 f _ _ hmem; cases hmem
  | cons p rest ih =>
      intro m m1 f h hd hmem ho
      obtain ⟨g, w⟩ := p
      rcases List.mem_cons.mp hmem with heq | hmem2
      · injection heq with h1 h2
        subst h1
        subst h2
        simp only [clean_dataclass_loop, get_type, mtypePrimitive, ho,
          Bool.false_eq_true, if_false, if_true, exc_bind_ok] at h
        have hpres := clean_loop_preserves (get_json_key f) rest _ m1 h
          (fun q hq hqe => absurd hqe.symm (head_key_not_in_rest hd hq))
        rw [hpres, dictLookup_dictSet_self]
      · simp only [clean_dataclass_loop] at h
        cases hg : get_type w with
        | error e => rw [hg] at h; simp at h
        | ok t =>
            simp only [hg] at h
            by_cases ho2 : omit_field g w = true
            · rw [if_pos ho2] at h
              exact ih m m1 f h
                (by simp only [List.map_cons, distinctStrings,
                  Bool.and_eq_true] at hd; exact hd.2) hmem2 ho
            · rw [if_neg ho2] at h
              cases hp : mtypePrimitive t <;> rw [hp] at h
              · simp only [Bool.false_eq_true, if_neg] at h
                exact ih m m1 f h
                  (by simp only [List.map_cons, distinctStrings,
                    Bool.and_eq_true] at hd; exact hd.2) hmem2 ho
              · simp only [if_pos] at h
                exact ih _ m1 f h
                  (by simp only [List.map_cons, distinctStrings,
                    Bool.and_eq_true] at hd; exact hd.2) hmem2 ho

/-- An omitted None-valued field's json key never enters the cleaned
mapping. -/
theorem clean_loop_omitted_absent :
    ∀ (fvs : List (Field × Value)) (m m1 : PyDict) (f : Field),
      clean_dataclass_loop fvs m = .ok m1 →
      distinctStrings (fvs.map (fun p => get_json_key p.1)) = true →
      (f, Value.vNone) ∈ fvs →
      omit_field f .vNone = true →
      dictLookup m (get_json_key f) = none →
      dictLookup m1 (get_json_key f) = none := by
  intro fvs
  induction fvs with
  | nil => intro m m1 f _ _ hmem; cases hmem
  | cons p rest ih =>
      intro m m1 f h hd hmem ho hm
      obtain ⟨g, w⟩ := p
      rcases List.mem_cons.mp hmem with heq | hmem2
      · injection heq with h1 h2
        subst h1
        subst h2
        simp only [clean_dataclass_loop, get_type, ho, if_true, exc_bind_ok] at h
        rw [clean_loop_preserves _ rest m m1 h
          (fun q hq hqe => absurd hqe.symm (head_key_not_in_rest hd hq))]
        exact hm
      · simp only [clean_dataclass_loop] at h
        cases hg : get_type w with
        | error e => simp [hg] at h
        | ok t =>
            simp only [hg] at h
            have hdr : distinctStrings (rest.map (fun p => get_json_key p.1)) = true := by
              simp only [List.map_cons, distinctStrings, Bool.and_eq_true] at hd
              exact hd.2
            have hgne : get_json_key g ≠ get_json_key f :=
              head_key_not_in_rest hd hmem2
            by_cases ho2 : omit_field g w = true
            · rw [if_pos ho2] at h
              exact ih m m1 f h hdr hmem2 ho hm
            · rw [if_neg ho2] at h
              cases hp : mtypePrimitive t with
              | false =>
                  rw [hp] at h
                  simp only [Bool.false_eq_true, if_neg] at h
                  exact ih m m1 f h hdr hmem2 ho hm
              | true =>
                  rw [hp] at h
                  simp only [if_pos] at h
                  refine ih _ m1 f h hdr hmem2 ho ?_
                  rw [dictLookup_dictSet_ne m _ _ w hgne]
                  exact hm

/-- C3: in marshalled record output, an omit-if-empty field of optional
declared type holding None never appears under its external key, while a
None-valued field without the flag appears with value null (external keys
taken unique within the record, which the spec makes the caller's
responsibility). -/
theorem C3_omitempty :
    ∀ fmts rn fvs out f,
      distinctStrings (fvs.map (fun p => get_json_key p.1)) = true →
      marshal fmts (.vRecord rn fvs) = .ok (.vDict out) →
      (f, Value.vNone) ∈ fvs →
      ((f.omitempty = true → is_optional f.ftype = true →
          dictLookup out (get_json_key f) = none) ∧
       (f.omitempty = false → dictLookup out (get_json_key f) = some .vNone)) := by
  intro fmts rn fvs out f hd hm hmem
  have heq : marshal fmts (.vRecord rn fvs) =
      (clean_dataclass_loop fvs []) >>= fun m1 =>
        (marshalRecordChildren fmts fvs m1) >>= fun m2 => .ok (.vDict m2) := rfl
  rw [heq] at hm
  cases h1 : clean_dataclass_loop fvs [] with
  | error e => rw [h1] at hm; simp at hm
  | ok m1 =>
      rw [h1] at hm
      simp only [exc_bind_ok] at hm
      cases h2 : marshalRecordChildren fmts fvs m1 with
      | error e => rw [h2] at hm; simp at hm
      | ok m2 =>
          rw [h2] at hm
          simp only [exc_bind_ok] at hm
          have h3 : Value.vDict m2 = Value.vDict out := by injection hm
          have h4 : m2 = out := by injection h3
          subst h4
          have hkp : ∀ p ∈ fvs, get_json_key p.1 = get_json_key f →
              omit_field p.1 p.2 = true ∨
                ∃ t, get_type p.2 = .ok t ∧ mtypePrimitive t = true := by
            intro p hp hpe
            have hpf : p = (f, Value.vNone) :=
              distinct_map_inj (fun p => get_json_key p.1) fvs hd p hp
                (f, .vNone) hmem hpe
            rw [hpf]
            exact Or.inr ⟨.NONETYPE, rfl, rfl⟩
          have hpres := children_loop_preserves fmts (get_json_key f) fvs m1 _ h2 hkp
          constructor
          · intro homit hopt
            rw [hpres]
            have hof : omit_field f .vNone = true := by
              simp [omit_field, homit, hopt]
            exact clean_loop_omitted_absent fvs [] m1 f h1 hd hmem hof rfl
          · intro homit
            rw [hpres]
            have hof : omit_field f .vNone = false := by
              simp [omit_field, homit]
            exact clean_loop_none_entry fvs [] m1 f h1 hd hmem hof

/-- C3, instantiated: one omit-if-empty optional None field (key absent from
output) and one plain optional None field (key present as null). -/
theorem C3_omitempty_witness :
    dictLookup [("k", Value.vNone)] "m" = none ∧
    dictLookup [("k", Value.vNone)] "k" = some .vNone := by
  constructor
  · exact (C3_omitempty noFmts "I"
      [(⟨"m", none, true, .sUnion [.sStr, .sNone]⟩, .vNone),
       (⟨"k", none, false, .sUnion [.sStr, .sNone]⟩, .vNone)]
      [("k", Value.vNone)] ⟨"m", none, true, .sUnion [.sStr, .sNone]⟩
      (by decide) rfl (List.mem_cons_self _ _)).1 rfl rfl
  · exact (C3_omitempty noFmts "I"
      [(⟨"m", none, true, .sUnion [.sStr, .sNone]⟩, .vNone),
       (⟨"k", none, false, .sUnion [.sStr, .sNone]⟩, .vNone)]
      [("k", Value.vNone)] ⟨"k", none, false, .sUnion [.sStr, .sNone]⟩
      (by decide) rfl
      (List.mem_cons_of_mem _ (List.mem_cons_self _ _))).2 rfl

/-! ### C4: marshal mutates the caller's lists -/

/-- The element pass over a list cell of dates: each date is marshalled to
its ISO string and appended back into the same cell. -/
theorem heapElemsLoop_dates (fuel : Nat) (hf : 1 ≤ fuel) :
    ∀ (ds : List DateV) (acc : List RValue),
      heapElemsLoop (marshalHeapF fuel noFmts) 0 (ds.map .rDate) [acc] =
        .ok [acc ++ ds.map (fun d => .rStr (pyDateIsoformat d))] := by
  obtain ⟨f, rfl⟩ : ∃ f, fuel = f + 1 := ⟨fuel - 1, by omega⟩
  intro ds
  induction ds with
  | nil => intro acc; simp [heapElemsLoop]
  | cons d rest ih =>
      intro acc
      simp only [List.map_cons, heapElemsLoop]
      have hstep : marshalHeapF (f + 1) noFmts (.rDate d) [acc] =
          .ok (.rStr (pyDateIsoformat d), [acc]) := rfl
      rw [hstep]
      simp only [exc_bind_ok]
      have hset : heapSet [acc] 0 (heapGet [acc] 0 ++ [.rStr (pyDateIsoformat d)]) =
          [acc ++ [RValue.rStr (pyDateIsoformat d)]] := rfl
      rw [hset, ih (acc ++ [RValue.rStr (pyDateIsoformat d)])]
      simp

/-- C4 counterexample: marshalling a caller-owned list containing a date
mutates that list object in place — after the call the very cell the caller
passed holds the marshalled ISO string, not the original date, so the input
graph is not unchanged. -/
theorem C4_counterexample :
    marshalHeapF 3 noFmts (.rListRef 0) [[.rDate ⟨2020, 1, 2⟩]] =
      .ok (.rListRef 0, [[.rStr "2020-01-02"]]) ∧
    heapGet [[RValue.rStr "2020-01-02"]] 0 ≠ heapGet [[RValue.rDate ⟨2020, 1, 2⟩]] 0 := by
  refine ⟨rfl, ?_⟩
  intro h
  simp [heapGet] at h

/-- C4 amended: marshal consumes every input list in place — _clean_list
empties the caller's list object with pop(0) and promotion appends the
marshalled elements back into it — so after marshalling a list of dates the
caller's list holds the ISO strings; for a nonempty list the contents have
observably changed.  (The result value even aliases the same cell.) -/
theorem C4_amended :
    ∀ (fuel : Nat) (ds : List DateV), 2 ≤ fuel →
      marshalHeapF fuel noFmts (.rListRef 0) [ds.map .rDate] =
        .ok (.rListRef 0, [ds.map (fun d => .rStr (pyDateIsoformat d))]) ∧
      (ds ≠ [] →
        [ds.map (fun d => RValue.rStr (pyDateIsoformat d))] ≠ [ds.map RValue.rDate]) := by
  intro fuel ds hf
  obtain ⟨f, rfl⟩ : ∃ f, fuel = f + 1 := ⟨fuel - 1, by omega⟩
  constructor
  · simp only [marshalHeapF]
    have h1 : heapGet [ds.map RValue.rDate] 0 = ds.map RValue.rDate := rfl
    have h2 : heapSet [ds.map RValue.rDate] 0 [] = [([] : List RValue)] := rfl
    rw [h1, h2, heapElemsLoop_dates f (by omega) ds []]
    simp
  · intro hne hcontra
    cases ds with
    | nil => exact hne rfl
    | cons d rest => simp at hcontra

/-- C4 amended, instantiated: a singleton list of a concrete date. -/
theorem C4_amended_witness :
    marshalHeapF 2 noFmts (.rListRef 0) [[RValue.rDate ⟨2021, 12, 31⟩]] =
      .ok (.rListRef 0, [[.rStr "2021-12-31"]]) ∧
    ([[RValue.rStr "2021-12-31"]] : List (List RValue)) ≠
      [[RValue.rDate ⟨2021, 12, 31⟩]] := by
  have h := C4_amended 2 [⟨2021, 12, 31⟩] (by omega)
  refine ⟨by simpa using h.1, ?_⟩
  have h2 := h.2 (by intro hx; cases hx)
  simp only [List.map_cons, List.map_nil] at h2
  exact h2

/-! ### C1: round-trip.  Digit-group recomposition lemmas. -/

theorem charVal_digitChar (k : Nat) (h : k < 10) :
    charVal (Nat.digitChar k) = k := by
  interval_cases k <;> rfl

theorem d2v_two (n : Nat) (h : n < 100) :
    d2v (Nat.digitChar (n / 10 % 10)) (Nat.digitChar (n % 10)) = n := by
  rw [d2v, charVal_digitChar _ (Nat.mod_lt _ (by decide)),
    charVal_digitChar _ (Nat.mod_lt _ (by decide))]
  omega

theorem d4v_four (n : Nat) (h : n < 10000) :
    d4v (Nat.digitChar (n / 1000 % 10)) (Nat.digitChar (n / 100 % 10))
      (Nat.digitChar (n / 10 % 10)) (Nat.digitChar (n % 10)) = n := by
  rw [d4v, charVal_digitChar _ (Nat.mod_lt _ (by decide)),
    charVal_digitChar _ (Nat.mod_lt _ (by decide)),
    charVal_digitChar _ (Nat.mod_lt _ (by decide)),
    charVal_digitChar _ (Nat.mod_lt _ (by decide))]
  omega

theorem d6v_six (n : Nat) (h : n < 1000000) :
    d6v (Nat.digitChar (n / 100000 % 10)) (Nat.digitChar (n / 10000 % 10))
      (Nat.digitChar (n / 1000 % 10)) (Nat.digitChar (n / 100 % 10))
      (Nat.digitChar (n / 10 % 10)) (Nat.digitChar (n % 10)) = n := by
  rw [d6v, charVal_digitChar _ (Nat.mod_lt _ (by decide)),
    charVal_digitChar _ (Nat.mod_lt _ (by decide)),
    charVal_digitChar _ (Nat.mod_lt _ (by decide)),
    charVal_digitChar _ (Nat.mod_lt _ (by decide)),
    charVal_digitChar _ (Nat.mod_lt _ (by decide)),
    charVal_digitChar _ (Nat.mod_lt _ (by decide))]
  omega

/-- A rendered digit differs from any non-digit character. -/
theorem digitChar_mod_bne (n : Nat) (c : Char) (hc : c.isDigit = false) :
    (Nat.digitChar (n % 10) != c) = true := by
  have hd := digitChar_mod_isDigit n
  cases heq : (Nat.digitChar (n % 10) == c)
  · simp [bne, heq]
  · have : Nat.digitChar (n % 10) = c := by simpa using heq
    rw [this] at hd
    rw [hd] at hc
    cases hc

theorem parseDatePrefix_digits (y mo dd : Nat) (rest : List Char)
    (hy : y < 10000) (hmo : mo < 100) (hdd : dd < 100)
    (h1 : 1 ≤ y) (h3 : 1 ≤ mo) (h4 : mo ≤ 12) (h5 : 1 ≤ dd)
    (h6 : dd ≤ daysInMonth y mo) :
    parseDatePrefix (four y ++ '-' :: (two mo ++ '-' :: (two dd ++ rest))) =
      some (⟨y, mo, dd⟩, rest) := by
  simp only [four, two, List.cons_append, List.nil_append, parseDatePrefix,
    digitChar_mod_isDigit, Bool.and_self, Bool.and_true, Bool.true_and, if_true]
  rw [d4v_four y hy, d2v_two mo hmo, d2v_two dd hdd]
  simp [h1, h3, h4, h5, h6]

theorem parseTimeChars_iso (h mi s us : Nat)
    (hh : h < 24) (hmi : mi < 60) (hs : s < 60) (hus : us < 1000000) :
    parseTimeChars (two h ++ ':' :: (two mi ++ ':' :: (two s ++
      (if (us == 0) then [] else '.' :: six us)))) = some (h, mi, s, us) := by
  by_cases h0 : us = 0
  · subst h0
    simp only [beq_self_eq_true, if_true, List.append_nil, two,
      List.cons_append, List.nil_append, parseTimeChars, digitChar_mod_isDigit,
      Bool.and_self, Bool.and_true, Bool.true_and]
    rw [d2v_two h (by omega), d2v_two mi (by omega), d2v_two s (by omega)]
    simp [hh, hmi, hs]
  · rw [if_neg (by simpa using h0)]
    simp only [two, six, List.cons_append, List.nil_append, parseTimeChars,
      digitChar_mod_isDigit, Bool.and_self, Bool.and_true, Bool.true_and]
    rw [d2v_two h (by omega), d2v_two mi (by omega), d2v_two s (by omega),
      d6v_six us hus]
    simp [hh, hmi, hs]

theorem parseTz_offChars (m : Int) (h : m.natAbs < 1440) :
    parseTz (offChars (some m)) = some (some m) := by
  simp only [offChars, two, List.cons_append, List.nil_append, parseTz]
  have hsplit : ((if m < 0 then '-' else '+') == '+' ||
      (if m < 0 then '-' else '+') == '-') = true := by
    by_cases hm : m < 0 <;> simp [hm]
  rw [if_pos hsplit]
  simp only [digitChar_mod_isDigit, Bool.and_self, Bool.and_true,
    Bool.true_and, if_true]
  rw [d2v_two (m.natAbs / 60) (by omega), d2v_two (m.natAbs % 60) (by omega)]
  have htot : m.natAbs / 60 * 60 + m.natAbs % 60 = m.natAbs := by omega
  rw [htot, if_pos (by simpa using h)]
  by_cases hm : m < 0
  · rw [if_pos hm]
    show some (some (-((m.natAbs : Int)))) = some (some m)
    have hval : -((m.natAbs : Int)) = m := by omega
    rw [hval]
  · rw [if_neg hm]
    show some (some ((m.natAbs : Int))) = some (some m)
    have hval : ((m.natAbs : Int)) = m := by omega
    rw [hval]

theorem takeWhile_append_all {p : Char → Bool} :
    ∀ (xs ys : List Char), (∀ c ∈ xs, p c = true) →
      (xs ++ ys).takeWhile p = xs ++ ys.takeWhile p := by
  intro xs ys
  induction xs with
  | nil => intro _; simp
  | cons x rest ih =>
      intro hall
      simp only [List.cons_append, List.takeWhile_cons,
        hall x (List.mem_cons_self _ _), if_true]
      rw [ih (fun c hc => hall c (List.mem_cons_of_mem _ hc))]

theorem dropWhile_append_all {p : Char → Bool} :
    ∀ (xs ys : List Char), (∀ c ∈ xs, p c = true) →
      (xs ++ ys).dropWhile p = ys.dropWhile p := by
  intro xs ys
  induction xs with
  | nil => intro _; simp
  | cons x rest ih =>
      intro hall
      simp only [List.cons_append, List.dropWhile_cons,
        hall x (List.mem_cons_self _ _), if_true]
      exact ih (fun c hc => hall c (List.mem_cons_of_mem _ hc))

/-- No sign character among a two-digit group. -/
theorem no_sign_two (n : Nat) :
    (two n).all (fun c => c != '+' && c != '-') = true := by
  simp [two, digitChar_mod_bne _ '+' (by decide), digitChar_mod_bne _ '-' (by decide)]

/-- Every character of the rendered time part survives the sign split. -/
theorem isoTimeChars_no_sign (dt : DateTimeV) :
    ∀ c ∈ isoTimeChars dt, (c != '+' && c != '-') = true := by
  have hall : (isoTimeChars dt).all (fun c => c != '+' && c != '-') = true := by
    simp only [isoTimeChars, List.all_append, List.all_cons, no_sign_two,
      Bool.and_true, Bool.true_and, Bool.and_self]
    by_cases h0 : (dt.microsecond == 0) = true
    · simp [h0]
    · simp only [h0, Bool.false_eq_true, if_false]
      simp [six, digitChar_mod_bne _ '+' (by decide),
        digitChar_mod_bne _ '-' (by decide)]
  intro c hc
  exact List.all_eq_true.mp hall c hc

/-- Every month has at most 31 days. -/
theorem daysInMonth_le_31 (y m : Nat) : daysInMonth y m ≤ 31 := by
  match m with
  | 1 | 3 | 4 | 5 | 6 | 7 | 8 | 9 | 10 | 11 | 12 => simp [daysInMonth]
  | 2 =>
      simp only [daysInMonth]
      by_cases h : isLeapYear y <;> simp [h]
  | 0 => simp [daysInMonth]
  | n + 13 => simp [daysInMonth]

/-- datetime.fromisoformat inverts datetime.isoformat on constructor-valid
values. -/
theorem parse_iso_datetime (dt : DateTimeV) (h : validDateTime dt = true) :
    parseIsoDateTimeChars ((pyDatetimeIsoformat dt).data) = some dt := by
  obtain ⟨y, mo, dd, hh, mi, ss, us, tz⟩ := dt
  simp only [validDateTime, validDate, validTzOff, Bool.and_eq_true,
    decide_eq_true_eq] at h
  obtain ⟨⟨⟨⟨⟨hvd, h24⟩, hm60⟩, hs60⟩, hus⟩, htz⟩ := h
  obtain ⟨⟨⟨⟨⟨hy1, hy2⟩, hmo1⟩, hmo2⟩, hd1⟩, hd2⟩ := hvd
  have hdata : (pyDatetimeIsoformat ⟨y, mo, dd, hh, mi, ss, us, tz⟩).data =
      four y ++ '-' :: (two mo ++ '-' :: (two dd ++
        ('T' :: (isoTimeChars ⟨y, mo, dd, hh, mi, ss, us, tz⟩ ++ offChars tz)))) := by
    simp [pyDatetimeIsoformat, isoDateChars, List.append_assoc]
  rw [parseIsoDateTimeChars, hdata,
    parseDatePrefix_digits y mo dd _ (by omega) (by omega)
      (by have := daysInMonth_le_31 y mo; omega) hy1 hmo1 hmo2 hd1 hd2]
  simp only [Option.bind_eq_bind, Option.some_bind]
  have htimeshape : isoTimeChars ⟨y, mo, dd, hh, mi, ss, us, tz⟩ =
      two hh ++ ':' :: (two mi ++ ':' :: (two ss ++
        (if (us == 0) then [] else '.' :: six us))) := rfl
  cases tz with
  | none =>
      have htake : (isoTimeChars ⟨y, mo, dd, hh, mi, ss, us, none⟩ ++
          offChars none).takeWhile (fun c => c != '+' && c != '-') =
          isoTimeChars ⟨y, mo, dd, hh, mi, ss, us, none⟩ := by
        rw [show offChars none = [] from rfl]
        rw [takeWhile_append_all _ [] (isoTimeChars_no_sign _)]
        simp
      have hdrop : (isoTimeChars ⟨y, mo, dd, hh, mi, ss, us, none⟩ ++
          offChars none).dropWhile (fun c => c != '+' && c != '-') = [] := by
        rw [show offChars none = [] from rfl]
        rw [dropWhile_append_all _ [] (isoTimeChars_no_sign _)]
        rfl
      rw [htake, hdrop, htimeshape, parseTimeChars_iso hh mi ss us h24 hm60 hs60 hus]
      simp [parseTz]
  | some m =>
      have hsign : ((if m < 0 then '-' else '+') != '+' &&
          (if m < 0 then '-' else '+') != '-') = false := by
        by_cases hm : m < 0 <;> simp [hm]
      have hoff : offChars (some m) = (if m < 0 then '-' else '+') ::
          (two (m.natAbs / 60) ++ ':' :: two (m.natAbs % 60)) := rfl
      have htake : (isoTimeChars ⟨y, mo, dd, hh, mi, ss, us, some m⟩ ++
          offChars (some m)).takeWhile (fun c => c != '+' && c != '-') =
          isoTimeChars ⟨y, mo, dd, hh, mi, ss, us, some m⟩ := by
        rw [takeWhile_append_all _ _ (isoTimeChars_no_sign _), hoff]
        simp [List.takeWhile_cons, hsign]
      have hdrop : (isoTimeChars ⟨y, mo, dd, hh, mi, ss, us, some m⟩ ++
          offChars (some m)).dropWhile (fun c => c != '+' && c != '-') =
          offChars (some m) := by
        rw [dropWhile_append_all _ _ (isoTimeChars_no_sign _), hoff]
        simp [List.dropWhile_cons, hsign]
      rw [htake, hdrop, htimeshape, parseTimeChars_iso hh mi ss us h24 hm60 hs60 hus]
      simp only [Option.some_bind]
      rw [parseTz_offChars m (by simpa using htz)]
      rfl

theorem no_Z_two (n : Nat) : (two n).all (fun c => c != 'Z') = true := by
  simp [two, digitChar_mod_bne _ 'Z' (by decide)]

theorem no_Z_four (n : Nat) : (four n).all (fun c => c != 'Z') = true := by
  simp [four, digitChar_mod_bne _ 'Z' (by decide)]

theorem no_Z_six (n : Nat) : (six n).all (fun c => c != 'Z') = true := by
  simp [six, digitChar_mod_bne _ 'Z' (by decide)]

theorem isoDateChars_no_Z (d : DateV) :
    (isoDateChars d).all (fun c => c != 'Z') = true := by
  simp [isoDateChars, no_Z_four, no_Z_two]

theorem isoTimeChars_no_Z (dt : DateTimeV) :
    (isoTimeChars dt).all (fun c => c != 'Z') = true := by
  by_cases h0 : (dt.microsecond == 0) = true
  · simp [isoTimeChars, h0, no_Z_two]
  · simp only [isoTimeChars, h0, Bool.false_eq_true, if_false]
    simp [no_Z_two, no_Z_six]

theorem offChars_no_Z (tz : Option Int) :
    (offChars tz).all (fun c => c != 'Z') = true := by
  cases tz with
  | none => rfl
  | some m =>
      simp only [offChars, List.all_cons, List.all_append, no_Z_two,
        Bool.and_true, Bool.true_and, Bool.and_self]
      by_cases hm : m < 0 <;> simp [hm]

/-- isoformat output never ends in Z, so the Z-rewrite leaves it alone. -/
theorem zfix_iso (dt : DateTimeV) :
    zfix (pyDatetimeIsoformat dt) = pyDatetimeIsoformat dt := by
  have hall : ((pyDatetimeIsoformat dt).data).all (fun c => c != 'Z') = true := by
    simp [pyDatetimeIsoformat, List.all_append, isoDateChars_no_Z,
      isoTimeChars_no_Z, offChars_no_Z]
  rw [zfix, if_neg]
  intro hz
  have hz2 : ((pyDatetimeIsoformat dt).data.getLast?) = some 'Z' := by
    cases hl : ((pyDatetimeIsoformat dt).data.getLast?) with
    | none => rw [hl] at hz; cases hz
    | some c => rw [hl] at hz; simpa using hz
  have hmem : 'Z' ∈ (pyDatetimeIsoformat dt).data := by
    obtain ⟨hne, heq⟩ := List.mem_getLast?_eq_getLast
      (l := (pyDatetimeIsoformat dt).data) (x := 'Z') hz2
    rw [heq]
    exact List.getLast_mem hne
  have := List.all_eq_true.mp hall 'Z' hmem
  simp at this

/-- process_datetime with no format option inverts the default marshalled
timestamp rendering. -/
theorem datetime_leaf_roundtrip (dt : DateTimeV) (h : validDateTime dt = true) :
    process_datetime noFmts (.vStr (pyDatetimeIsoformat dt)) = .ok (.vDatetime dt) := by
  have hfmt : fmtTruthy noFmts.datetime_fmt = none := rfl
  simp only [process_datetime, hfmt, zfix_iso, pyDatetimeFromisoformat,
    parse_iso_datetime dt h, exc_map_ok]

/-- date.fromisoformat inverts date.isoformat on constructor-valid values. -/
theorem parse_iso_date (d : DateV) (h : validDate d = true) :
    parseDatePrefix ((pyDateIsoformat d).data) = some (d, []) := by
  obtain ⟨y, mo, dd⟩ := d
  simp only [validDate, Bool.and_eq_true, decide_eq_true_eq] at h
  obtain ⟨⟨⟨⟨⟨hy1, hy2⟩, hmo1⟩, hmo2⟩, hd1⟩, hd2⟩ := h
  have hdata : (pyDateIsoformat ⟨y, mo, dd⟩).data =
      four y ++ '-' :: (two mo ++ '-' :: (two dd ++ [])) := by
    simp [pyDateIsoformat, isoDateChars]
  rw [hdata, parseDatePrefix_digits y mo dd [] (by omega) (by omega)
    (by have := daysInMonth_le_31 y mo; omega) hy1 hmo1 hmo2 hd1 hd2]

/-- process_date with no format option inverts the default marshalled date
rendering. -/
theorem date_leaf_roundtrip (d : DateV) (h : validDate d = true) :
    process_date noFmts (.vStr (pyDateIsoformat d)) = .ok (.vDate d) := by
  have hfmt : fmtTruthy noFmts.date_fmt = none := rfl
  simp only [process_date, hfmt, pyDateFromisoformat, parse_iso_date d h,
    exc_map_ok]

theorem removePatternAux_no_head (p : Char) (ps : List Char) :
    ∀ (fuel : Nat) (cs : List Char), (∀ c ∈ cs, c ≠ p) →
      removePatternAux (p :: ps) fuel cs = cs := by
  intro fuel
  induction fuel with
  | zero => intro cs _; rfl
  | succ f ih =>
      intro cs hall
      cases cs with
      | nil => rfl
      | cons c rest =>
          have hne : (p == c) = false := by
            have h2 := hall c (List.mem_cons_self _ _)
            simp [(Ne.symm h2 : p ≠ c)]
          simp only [removePatternAux, List.isPrefixOf, hne, Bool.false_and,
            Bool.false_eq_true, if_false]
          rw [ih rest (fun c2 hc2 => hall c2 (List.mem_cons_of_mem _ hc2))]

theorem removePattern_no_head (p : Char) (ps cs : List Char)
    (hall : ∀ c ∈ cs, c ≠ p) : removePattern (p :: ps) cs = cs :=
  removePatternAux_no_head p ps cs.length cs hall

theorem dropWhile_all_false {p : Char → Bool} :
    ∀ cs : List Char, (∀ c ∈ cs, p c = false) → cs.dropWhile p = cs
  | [], _ => rfl
  | c :: rest, h => by
      simp [List.dropWhile_cons, h c (List.mem_cons_self _ _)]

theorem stripBraces_no_brace (cs : List Char) (h : ∀ c ∈ cs, isBrace c = false) :
    stripBraces cs = cs := by
  rw [stripBraces, dropWhile_all_false cs h,
    dropWhile_all_false _ (fun c hc => h c (List.mem_reverse.mp hc)),
    List.reverse_reverse]

theorem map_self_of_fixed {f : Char → Char} :
    ∀ l : List Char, (∀ c ∈ l, f c = c) → l.map f = l
  | [], _ => rfl
  | c :: rest, h => by
      rw [List.map_cons, h c (List.mem_cons_self _ _),
        map_self_of_fixed rest (fun c2 hc2 => h c2 (List.mem_cons_of_mem _ hc2))]

/-- Character facts for a canonical lowercase hex digit. -/
theorem hexLower_facts (c : Char) (h : c ∈ hexLowerChars) :
    c ≠ 'u' ∧ isBrace c = false ∧ (c != '-') = true ∧
      isHexDigitPy c = true ∧ hexNormalize c = c := by
  fin_cases h <;> exact ⟨by decide, by decide, by decide, by decide, by decide⟩

/-- uuid.UUID(str(u)) reconstructs the same canonical digits. -/
theorem uuid_parse_str (hex : List Char) (h : validUuidHex hex = true) :
    pyUuidParse (uuidStr hex) = .ok hex := by
  simp only [validUuidHex, Bool.and_eq_true, beq_iff_eq] at h
  obtain ⟨hlen, hall⟩ := h
  have hmem : ∀ c ∈ hex, c ∈ hexLowerChars := by
    intro c hc
    have h2 := List.all_eq_true.mp hall c hc
    simpa using h2
  have hchars : ∀ c ∈ (uuidStr hex).data, c = '-' ∨ c ∈ hexLowerChars := by
    intro c hc
    simp only [uuidStr, List.mem_append, List.mem_cons] at hc
    rcases hc with h1 | h1 | h1 | h1 | h1 | h1 | h1 | h1 | h1
    · exact Or.inr (hmem c (List.mem_of_mem_take h1))
    · exact Or.inl h1
    · exact Or.inr (hmem c (List.mem_of_mem_drop (List.mem_of_mem_take h1)))
    · exact Or.inl h1
    · exact Or.inr (hmem c (List.mem_of_mem_drop (List.mem_of_mem_take h1)))
    · exact Or.inl h1
    · exact Or.inr (hmem c (List.mem_of_mem_drop (List.mem_of_mem_take h1)))
    · exact Or.inl h1
    · exact Or.inr (hmem c (List.mem_of_mem_drop h1))
  have hno_u : ∀ c ∈ (uuidStr hex).data, c ≠ 'u' := by
    intro c hc
    rcases hchars c hc with h1 | h1
    · rw [h1]; decide
    · exact (hexLower_facts c h1).1
  have h1 : removePattern ("urn:").data ((uuidStr hex).data) = (uuidStr hex).data :=
    removePattern_no_head 'u' _ _ hno_u
  have h2 : removePattern ("uuid:").data ((uuidStr hex).data) = (uuidStr hex).data :=
    removePattern_no_head 'u' _ _ hno_u
  have h3 : stripBraces ((uuidStr hex).data) = (uuidStr hex).data := by
    apply stripBraces_no_brace
    intro c hc
    rcases hchars c hc with hb | hb
    · rw [hb]; decide
    · exact (hexLower_facts c hb).2.1
  have hgroup : ∀ l : List Char, (∀ c ∈ l, c ∈ hexLowerChars) →
      l.filter (fun c => c != '-') = l := by
    intro l hl
    exact List.filter_eq_self.mpr (fun c hc => (hexLower_facts c (hl c hc)).2.2.1)
  have hfilter : ((uuidStr hex).data).filter (fun c => c != '-') = hex := by
    simp only [uuidStr, List.filter_append, List.filter_cons]
    have hdash : (('-' : Char) != '-') = false := by decide
    rw [hdash]
    simp only [Bool.false_eq_true, if_false]
    rw [hgroup _ (fun c hc => hmem c (List.mem_of_mem_take hc)),
      hgroup _ (fun c hc => hmem c (List.mem_of_mem_drop (List.mem_of_mem_take hc))),
      hgroup _ (fun c hc => hmem c (List.mem_of_mem_drop (List.mem_of_mem_take hc))),
      hgroup _ (fun c hc => hmem c (List.mem_of_mem_drop (List.mem_of_mem_take hc))),
      hgroup _ (fun c hc => hmem c (List.mem_of_mem_drop hc))]
    have e20 : hex.drop 20 = (hex.drop 16).drop 4 := by
      rw [List.drop_drop]
    rw [e20, List.take_append_drop]
    have e16 : hex.drop 16 = (hex.drop 12).drop 4 := by
      rw [List.drop_drop]
    rw [e16, List.take_append_drop]
    have e12 : hex.drop 12 = (hex.drop 8).drop 4 := by
      rw [List.drop_drop]
    rw [e12, List.take_append_drop, List.take_append_drop]
  rw [pyUuidParse, h1, h2, h3, hfilter]
  have hhex : hex.all isHexDigitPy = true := by
    rw [List.all_eq_true]
    exact fun c hc => (hexLower_facts c (hmem c hc)).2.2.2.1
  rw [if_pos (by simp [hlen, hhex])]
  rw [map_self_of_fixed hex (fun c hc => (hexLower_facts c (hmem c hc)).2.2.2.2)]

/-! ### C1 support: enum member by-value lookup -/

/-- The Enum == lookup test succeeds on a member value exactly for that
value. -/
theorem enumValMatches_toValue (ev ev2 : EnumVal) :
    enumValMatches ev (enumValToValue ev2) = true ↔ ev = ev2 := by
  cases ev <;> cases ev2 <;> simp [enumValMatches, enumValToValue]

/-- With pairwise-distinct member values, the by-value find? returns the
member whose value was emitted. -/
theorem enum_find (ms : List (String × EnumVal)) (mn : String) (ev : EnumVal)
    (hd : distinctEnumVals ms = true) (hm : (mn, ev) ∈ ms) :
    ms.find? (fun m => enumValMatches m.2 (enumValToValue ev)) = some (mn, ev) := by
  induction ms with
  | nil => cases hm
  | cons e rest ih =>
      obtain ⟨n1, v1⟩ := e
      simp only [distinctEnumVals, Bool.and_eq_true, Bool.not_eq_true'] at hd
      rcases List.mem_cons.mp hm with h1 | h1
      · rw [Prod.mk.injEq] at h1
        obtain ⟨he1, he2⟩ := h1
        subst he1; subst he2
        have ht : enumValMatches ev (enumValToValue ev) = true :=
          (enumValMatches_toValue ev ev).mpr rfl
        simp [List.find?, ht]
      · cases htest : enumValMatches v1 (enumValToValue ev) with
        | true =>
            exfalso
            have hv : v1 = ev := (enumValMatches_toValue v1 ev).mp htest
            have hany : rest.any (fun m => m.2 == v1) = true :=
              List.any_eq_true.mpr ⟨(mn, ev), h1, by simp [hv]⟩
            rw [hd.1] at hany
            exact Bool.false_ne_true hany
        | false =>
            simp only [List.find?, htest]
            exact ih hd.2 h1

/-! ### C1 support: dict utilities -/

/-- A key is in the key list exactly when some entry carries it. -/
theorem mem_dictKeys {d : List (String × Value)} {k : String} :
    k ∈ dictKeys d ↔ ∃ u, (k, u) ∈ d := by
  constructor
  · intro h
    obtain ⟨⟨k2, u⟩, hmem, hk⟩ := List.mem_map.mp h
    exact ⟨u, by rwa [show k2 = k from hk] at hmem⟩
  · rintro ⟨u, hm⟩
    exact List.mem_map.mpr ⟨(k, u), hm, rfl⟩

/-- Python `key in d` agrees with key-list membership. -/
theorem dictContains_eq {d : List (String × Value)} {k : String} :
    dictContains d k = true ↔ k ∈ dictKeys d := by
  simp [dictContains, dictKeys, List.any_eq_true, List.mem_map]

/-- With unique keys, d[k] returns the entry carrying k. -/
theorem dictLookup_of_mem_nodup (d : List (String × Value))
    (hnd : (dictKeys d).Nodup) {k : String} {u : Value} (hm : (k, u) ∈ d) :
    dictLookup d k = some u := by
  induction d with
  | nil => cases hm
  | cons e rest ih =>
      obtain ⟨k2, v2⟩ := e
      simp only [dictKeys, List.map_cons, List.nodup_cons] at hnd
      rcases List.mem_cons.mp hm with h1 | h1
      · rw [Prod.mk.injEq] at h1
        obtain ⟨he1, he2⟩ := h1
        subst he1; subst he2
        simp [dictLookup, List.find?]
      · have hk : (k2 == k) = false := by
          refine beq_eq_false_iff_ne.mpr (fun he => hnd.1 ?_)
          subst he
          exact List.mem_map.mpr ⟨(k2, u), h1, rfl⟩
        rw [dictLookup, List.find?, hk]
        exact ih hnd.2 h1

/-- With unique keys, two entries under one key coincide. -/
theorem entry_unique {d : List (String × Value)} (hnd : (dictKeys d).Nodup)
    {k : String} {a b : Value} (ha : (k, a) ∈ d) (hb : (k, b) ∈ d) : a = b := by
  have h1 := dictLookup_of_mem_nodup d hnd ha
  have h2 := dictLookup_of_mem_nodup d hnd hb
  rw [h1] at h2
  exact Option.some.inj h2

/-- Setting a fresh key appends the entry. -/
theorem dictSet_fresh : ∀ (d : List (String × Value)) (k : String) (u : Value),
    k ∉ dictKeys d → dictSet d k u = d ++ [(k, u)]
  | [], _, _, _ => rfl
  | (k2, v2) :: rest, k, u, h => by
      simp only [dictKeys, List.map_cons, List.mem_cons, not_or] at h
      have hbe : (k2 == k) = false := beq_eq_false_iff_ne.mpr (fun he => h.1 he.symm)
      have heq : dictSet ((k2, v2) :: rest) k u = (k2, v2) :: dictSet rest k u := by
        simp [dictSet, hbe]
      rw [heq]
      exact congrArg (List.cons (k2, v2)) (dictSet_fresh rest k u h.2)

/-- Popping a key yields a sublist of the dict. -/
theorem dictPop_sublist : ∀ (d : List (String × Value)) (k : String),
    List.Sublist (dictPop d k) d
  | [], _ => List.Sublist.refl _
  | (k2, v2) :: rest, k => by
      cases hbe : (k2 == k) with
      | true =>
          have heq : dictPop ((k2, v2) :: rest) k = rest := by simp [dictPop, hbe]
          rw [heq]
          exact List.Sublist.cons _ (List.Sublist.refl rest)
      | false =>
          have heq : dictPop ((k2, v2) :: rest) k = (k2, v2) :: dictPop rest k := by
            simp [dictPop, hbe]
          rw [heq]
          exact List.Sublist.cons₂ _ (dictPop_sublist rest k)

/-- With unique keys, the popped dict holds exactly the entries under other
keys. -/
theorem mem_dictPop : ∀ (d : List (String × Value)) (k : String),
    (dictKeys d).Nodup →
    ∀ {k2 : String} {u : Value}, ((k2, u) ∈ dictPop d k ↔ (k2, u) ∈ d ∧ k2 ≠ k)
  | [], k, _, k2, u => by
      constructor
      · intro h; cases h
      · rintro ⟨h, _⟩; cases h
  | (ka, va) :: rest, k, hnd, k2, u => by
      simp only [dictKeys, List.map_cons, List.nodup_cons] at hnd
      cases hbe : (ka == k) with
      | true =>
          have hka : ka = k := beq_iff_eq.mp hbe
          have heq : dictPop ((ka, va) :: rest) k = rest := by simp [dictPop, hbe]
          rw [heq]
          constructor
          · intro hm
            refine ⟨List.mem_cons_of_mem _ hm, fun he => hnd.1 ?_⟩
            have hk2 : ka = k2 := hka.trans he.symm
            exact hk2 ▸ List.mem_map.mpr ⟨(k2, u), hm, rfl⟩
          · rintro ⟨hm, hne⟩
            rcases List.mem_cons.mp hm with h1 | h1
            · exfalso
              apply hne
              rw [Prod.mk.injEq] at h1
              exact h1.1.trans hka
            · exact h1
      | false =>
          have hka : ka ≠ k := beq_eq_false_iff_ne.mp hbe
          have heq : dictPop ((ka, va) :: rest) k = (ka, va) :: dictPop rest k := by
            simp [dictPop, hbe]
          rw [heq]
          rw [List.mem_cons, List.mem_cons, mem_dictPop rest k hnd.2]
          constructor
          · rintro (h1 | ⟨h1, h2⟩)
            · rw [Prod.mk.injEq] at h1
              obtain ⟨he1, he2⟩ := h1
              subst he1; subst he2
              exact ⟨Or.inl rfl, hka⟩
            · exact ⟨Or.inr h1, h2⟩
          · rintro ⟨h1 | h1, h2⟩
            · exact Or.inl h1
            · exact Or.inr ⟨h1, h2⟩

/-- The popped key is gone (unique keys). -/
theorem not_mem_keys_dictPop (d : List (String × Value)) (k : String)
    (hnd : (dictKeys d).Nodup) : k ∉ dictKeys (dictPop d k) := by
  intro hmem
  obtain ⟨u, hm⟩ := mem_dictKeys.mp hmem
  exact ((@mem_dictPop d k hnd k u).mp hm).2 rfl

/-- Distinct-string lists have no duplicates. -/
theorem distinctStrings_nodup : ∀ l : List String, distinctStrings l = true → l.Nodup
  | [], _ => List.nodup_nil
  | s :: rest, h => by
      simp only [distinctStrings, Bool.and_eq_true, Bool.not_eq_true'] at h
      refine List.nodup_cons.mpr ⟨fun hm => ?_, distinctStrings_nodup rest h.2⟩
      have h1 := h.1
      simp at h1
      exact h1 hm

/-! ### C1 support: sizes -/

theorem sizeValue_pos : ∀ v : Value, 1 ≤ sizeValue v := by
  intro v
  cases v <;> simp [sizeValue]

theorem sizeValueList_mem : ∀ (xs : List Value) (x : Value), x ∈ xs →
    sizeValue x ≤ sizeValueList xs
  | [], _, h => absurd h (List.not_mem_nil _)
  | y :: rest, x, h => by
      rcases List.mem_cons.mp h with h1 | h1
      · subst h1
        simp only [sizeValueList]
        exact Nat.le_add_right _ _
      · have := sizeValueList_mem rest x h1
        simp only [sizeValueList]
        omega

theorem sizeValueEntries_mem : ∀ (d : List (String × Value)) (k : String)
    (u : Value), (k, u) ∈ d → sizeValue u ≤ sizeValueEntries d
  | [], _, _, h => absurd h (List.not_mem_nil _)
  | (k2, v2) :: rest, k, u, h => by
      rcases List.mem_cons.mp h with h1 | h1
      · rw [Prod.mk.injEq] at h1
        obtain ⟨he1, he2⟩ := h1
        subst he2
        simp only [sizeValueEntries]
        omega
      · have := sizeValueEntries_mem rest k u h1
        simp only [sizeValueEntries]
        omega

/-! ### C1 support: conformance and schema shape facts -/

/-- A conforming dataclass instance stores exactly the schema's fields, in
order, with each value an instance of its declared type. -/
theorem conformsFields_shape : ∀ (fs : List Field) (fvs : List (Field × Value)),
    conformsFields fs fvs = true →
    fvs.map Prod.fst = fs ∧ ∀ p ∈ fvs, conformsTo p.1.ftype p.2 = true := by
  intro fs
  induction fs with
  | nil =>
      intro fvs h
      cases fvs with
      | nil => exact ⟨rfl, fun p hp => absurd hp (List.not_mem_nil _)⟩
      | cons p rest => simp [conformsFields] at h
  | cons f fs ih =>
      intro fvs h
      obtain ⟨n, j, o, t⟩ := f
      cases fvs with
      | nil => simp [conformsFields] at h
      | cons p rest =>
          obtain ⟨g, v⟩ := p
          simp only [conformsFields, Bool.and_eq_true] at h
          obtain ⟨⟨hb, hc⟩, hrest⟩ := h
          have hg : Field.mk n j o t = g := fieldBeq_sound _ _ hb
          obtain ⟨h1, h2⟩ := ih rest hrest
          subst hg
          refine ⟨by simp [h1], fun p hp => ?_⟩
          rcases List.mem_cons.mp hp with hh | hh
          · subst hh
            simpa [Field.ftype] using hc
          · exact h2 p hh

theorem goodFields_mem : ∀ fs : List Field, goodFields fs = true →
    ∀ f ∈ fs, goodSchema f.ftype = true := by
  intro fs
  induction fs with
  | nil => intro _ f hf; cases hf
  | cons g rest ih =>
      intro h f hf
      obtain ⟨n, j, o, t⟩ := g
      simp only [goodFields, Bool.and_eq_true] at h
      rcases List.mem_cons.mp hf with h1 | h1
      · subst h1; simpa [Field.ftype] using h.1
      · exact ih h.2 f h1

/-- The no-cross-collision condition, pointwise: an external key naming a
declared field names the field it belongs to. -/
theorem crossColl_of {fs : List Field} (h : noCrossCollision fs = true)
    {f g : Field} (hf : f ∈ fs) (hg : g ∈ fs)
    (he : get_json_key f = g.name) : f.name = g.name := by
  simp only [noCrossCollision, List.all_eq_true] at h
  have h2 := h f hf g hg
  simp at h2
  rcases h2 with h3 | h3
  · exact h3
  · exact absurd he h3

/-- With distinct field names, the by-name find? returns the field itself. -/
theorem find_field_of_nodup : ∀ (fs : List Field), (fs.map Field.name).Nodup →
    ∀ {f : Field}, f ∈ fs → fs.find? (fun g => g.name == f.name) = some f
  | [], _, f, h => absurd h (List.not_mem_nil _)
  | g0 :: rest, hnd, f, h => by
      simp only [List.map_cons, List.nodup_cons] at hnd
      rcases List.mem_cons.mp h with h1 | h1
      · subst h1
        simp [List.find?]
      · cases htest : (g0.name == f.name) with
        | true =>
            exfalso
            have hgf := beq_iff_eq.mp htest
            exact hnd.1 (hgf ▸ List.mem_map.mpr ⟨f, h1, rfl⟩)
        | false =>
            simp only [List.find?, htest]
            exact find_field_of_nodup rest hnd.2 h1

/-- With distinct field names, __annotations__ lookup of a declared field's
name yields its declared type. -/
theorem field_type_lookup_eq {fs : List Field} (hnd : (fs.map Field.name).Nodup)
    {f : Field} (hf : f ∈ fs) : field_type_lookup fs f.name = .ok f.ftype := by
  rw [field_type_lookup, find_field_of_nodup fs hnd hf]

/-! ### C1 support: Forall₂ helpers -/

theorem forall2_mem_left {α β : Type} {R : α → β → Prop} :
    ∀ {l : List α} {l2 : List β}, List.Forall₂ R l l2 →
      ∀ {p : α}, p ∈ l → ∃ e ∈ l2, R p e := by
  intro l l2 h
  induction h with
  | nil => intro p hp; cases hp
  | cons hr htail ih =>
      intro p hp
      rcases List.mem_cons.mp hp with h1 | h1
      · subst h1
        exact ⟨_, List.mem_cons_self _ _, hr⟩
      · obtain ⟨e, he, hre⟩ := ih h1
        exact ⟨e, List.mem_cons_of_mem _ he, hre⟩

/-! ### C1 support: the marshalled record mapping -/

/-- Phase 1 (clean_dataclass) appends exactly the non-omitted primitive
entries to the accumulator, provided the json keys are distinct and fresh. -/
theorem clean_loop_eq : ∀ (fvs : List (Field × Value)) (m0 m : PyDict),
    clean_dataclass_loop fvs m0 = .ok m →
    (fvs.map (fun p => get_json_key p.1)).Nodup →
    (∀ p ∈ fvs, get_json_key p.1 ∉ dictKeys m0) →
    m = m0 ++ phase1Entries fvs := by
  intro fvs
  induction fvs with
  | nil =>
      intro m0 m h _ _
      simp only [clean_dataclass_loop] at h
      cases h
      simp [phase1Entries]
  | cons p rest ih =>
      intro m0 m h hnd hfresh
      obtain ⟨f, v⟩ := p
      simp only [clean_dataclass_loop] at h
      cases hg : get_type v with
      | error e => rw [hg] at h; simp at h
      | ok t =>
          simp only [hg] at h
          simp only [List.map_cons, List.nodup_cons] at hnd
          have hek : entryKind v = mtypePrimitive t := by simp only [entryKind, hg]
          by_cases ho : omit_field f v = true
          · rw [if_pos ho] at h
            have hres := ih m0 m h hnd.2
              (fun q hq => hfresh q (List.mem_cons_of_mem _ hq))
            simp only [phase1Entries]
            rw [if_pos ho]
            exact hres
          · rw [if_neg ho] at h
            cases hp : mtypePrimitive t with
            | false =>
                rw [hp] at h
                simp only [Bool.false_eq_true, if_neg] at h
                have hres := ih m0 m h hnd.2
                  (fun q hq => hfresh q (List.mem_cons_of_mem _ hq))
                simp only [phase1Entries]
                rw [if_neg ho, if_neg (by rw [hek, hp]; exact Bool.false_ne_true)]
                exact hres
            | true =>
                rw [hp] at h
                simp only [if_pos] at h
                have hfr : get_json_key f ∉ dictKeys m0 :=
                  hfresh (f, v) (List.mem_cons_self _ _)
                rw [dictSet_fresh m0 (get_json_key f) v hfr] at h
                have hkeys : dictKeys (m0 ++ [(get_json_key f, v)]) =
                    dictKeys m0 ++ [get_json_key f] := by
                  simp [dictKeys]
                have hres := ih (m0 ++ [(get_json_key f, v)]) m h hnd.2 ?_
                · simp only [phase1Entries]
                  rw [if_neg ho, if_pos (by rw [hek, hp])]
                  rw [hres, List.append_assoc]
                  rfl
                · intro q hq
                  rw [hkeys]
                  intro hmem
                  rcases List.mem_append.mp hmem with h1 | h1
                  · exact hfresh q (List.mem_cons_of_mem _ hq) h1
                  · rcases List.mem_cons.mp h1 with h2 | h2
                    · exact hnd.1 (h2 ▸ List.mem_map.mpr ⟨q, hq, rfl⟩)
                    · cases h2

/-- Phase 2 (promotion) appends the marshalled non-omitted non-primitive
children's entries, in declaration order, provided the json keys are
distinct and fresh. -/
theorem children_loop_eq : ∀ (fvs : List (Field × Value)) (m m2 : PyDict),
    marshalRecordChildren noFmts fvs m = .ok m2 →
    (fvs.map (fun p => get_json_key p.1)).Nodup →
    (∀ p ∈ fvs, omit_field p.1 p.2 = false → entryKind p.2 = false →
      get_json_key p.1 ∉ dictKeys m) →
    ∃ ch, m2 = m ++ ch ∧
      List.Forall₂ (fun (p : Field × Value) (e : String × Value) =>
        e.1 = get_json_key p.1 ∧ marshalValue noFmts p.2 = .ok e.2)
        (childPairs fvs) ch := by
  intro fvs
  induction fvs with
  | nil =>
      intro m m2 h _ _
      simp only [marshalRecordChildren] at h
      cases h
      exact ⟨[], by simp, by simp [childPairs]⟩
  | cons p rest ih =>
      intro m m2 h hnd hfresh
      obtain ⟨f, v⟩ := p
      simp only [marshalRecordChildren] at h
      simp only [List.map_cons, List.nodup_cons] at hnd
      by_cases ho : omit_field f v = true
      · rw [if_pos ho] at h
        obtain ⟨ch, he, hf2⟩ := ih m m2 h hnd.2
          (fun q hq => hfresh q (List.mem_cons_of_mem _ hq))
        refine ⟨ch, he, ?_⟩
        simp only [childPairs]
        rw [if_pos ho]
        exact hf2
      · rw [if_neg ho] at h
        cases hg : get_type v with
        | error e => rw [hg] at h; simp at h
        | ok t =>
            simp only [hg] at h
            have hek : entryKind v = mtypePrimitive t := by simp only [entryKind, hg]
            cases hp : mtypePrimitive t with
            | true =>
                rw [hp] at h
                simp only [if_pos] at h
                obtain ⟨ch, he, hf2⟩ := ih m m2 h hnd.2
                  (fun q hq => hfresh q (List.mem_cons_of_mem _ hq))
                refine ⟨ch, he, ?_⟩
                simp only [childPairs]
                rw [if_neg ho, if_pos (by rw [hek, hp])]
                exact hf2
            | false =>
                rw [hp] at h
                simp only [Bool.false_eq_true, if_neg] at h
                cases hw : marshalValue noFmts v with
                | error e => rw [hw] at h; simp at h
                | ok w =>
                    simp only [hw, exc_bind_ok] at h
                    have hfr : get_json_key f ∉ dictKeys m :=
                      hfresh (f, v) (List.mem_cons_self _ _)
                        (Bool.eq_false_iff.mpr ho) (by rw [hek, hp])
                    rw [dictSet_fresh m (get_json_key f) w hfr] at h
                    have hkeys : dictKeys (m ++ [(get_json_key f, w)]) =
                        dictKeys m ++ [get_json_key f] := by
                      simp [dictKeys]
                    have hfresh2 : ∀ q ∈ rest, omit_field q.1 q.2 = false →
                        entryKind q.2 = false →
                        get_json_key q.1 ∉ dictKeys (m ++ [(get_json_key f, w)]) := by
                      intro q hq hqo hqk
                      rw [hkeys]
                      intro hmem
                      rcases List.mem_append.mp hmem with h1 | h1
                      · exact hfresh q (List.mem_cons_of_mem _ hq) hqo hqk h1
                      · rcases List.mem_cons.mp h1 with h2 | h2
                        · exact hnd.1 (h2 ▸ List.mem_map.mpr ⟨q, hq, rfl⟩)
                        · cases h2
                    obtain ⟨ch, he, hf2⟩ := ih (m ++ [(get_json_key f, w)]) m2 h
                      hnd.2 hfresh2
                    refine ⟨(get_json_key f, w) :: ch, ?_, ?_⟩
                    · rw [he, List.append_assoc]
                      rfl
                    · simp only [childPairs]
                      rw [if_neg ho,
                        if_neg (by rw [hek, hp]; exact Bool.false_ne_true)]
                      exact List.Forall₂.cons ⟨rfl, hw⟩ hf2

/-- Decomposition of a successful record marshal into its two phases. -/
theorem marshal_record_decomp {rn : String} {fvs : List (Field × Value)}
    {w : Value} (h : marshalValue noFmts (.vRecord rn fvs) = .ok w) :
    ∃ m m2, clean_dataclass_loop fvs [] = .ok m ∧
      marshalRecordChildren noFmts fvs m = .ok m2 ∧ w = .vDict m2 := by
  simp only [marshalValue] at h
  cases h1 : clean_dataclass_loop fvs [] with
  | error e => rw [h1] at h; simp at h
  | ok m =>
      simp only [h1, exc_bind_ok] at h
      cases h2 : marshalRecordChildren noFmts fvs m with
      | error e => rw [h2] at h; simp at h
      | ok m2 =>
          simp only [h2, exc_bind_ok, exc_pure] at h
          exact ⟨m, m2, rfl, h2, by injection h with h3; exact h3.symm⟩

/-- Membership in the phase-1 mapping. -/
theorem phase1_mem : ∀ (fvs : List (Field × Value)) (f : Field) (v : Value),
    (f, v) ∈ fvs → omit_field f v = false → entryKind v = true →
    (get_json_key f, v) ∈ phase1Entries fvs
  | [], _, _, h, _, _ => absurd h (List.not_mem_nil _)
  | (g, u) :: rest, f, v, h, ho, hk => by
      rcases List.mem_cons.mp h with h1 | h1
      · rw [Prod.mk.injEq] at h1
        obtain ⟨he1, he2⟩ := h1
        subst he1; subst he2
        simp only [phase1Entries]
        rw [if_neg (by rw [ho]; exact Bool.false_ne_true), if_pos hk]
        exact List.mem_cons_self _ _
      · simp only [phase1Entries]
        by_cases ho2 : omit_field g u = true
        · rw [if_pos ho2]
          exact phase1_mem rest f v h1 ho hk
        · rw [if_neg ho2]
          cases hk2 : entryKind u with
          | true =>
              rw [if_pos rfl]
              exact List.mem_cons_of_mem _ (phase1_mem rest f v h1 ho hk)
          | false =>
              rw [if_neg (by simp)]
              exact phase1_mem rest f v h1 ho hk

/-- Every phase-1 key is the json key of a non-omitted primitive field. -/
theorem phase1_keys : ∀ (fvs : List (Field × Value)) (k : String),
    k ∈ dictKeys (phase1Entries fvs) →
    ∃ p ∈ fvs, omit_field p.1 p.2 = false ∧ entryKind p.2 = true ∧
      k = get_json_key p.1
  | [], k, h => by simp [phase1Entries, dictKeys] at h
  | (g, u) :: rest, k, h => by
      simp only [phase1Entries] at h
      by_cases ho : omit_field g u = true
      · rw [if_pos ho] at h
        obtain ⟨p, hp, hrest⟩ := phase1_keys rest k h
        exact ⟨p, List.mem_cons_of_mem _ hp, hrest⟩
      · rw [if_neg ho] at h
        cases hk2 : entryKind u with
        | true =>
            rw [hk2, if_pos rfl] at h
            simp only [dictKeys, List.map_cons, List.mem_cons] at h
            rcases h with h1 | h1
            · exact ⟨(g, u), List.mem_cons_self _ _,
                Bool.eq_false_iff.mpr ho, hk2, h1⟩
            · obtain ⟨p, hp, hrest⟩ := phase1_keys rest k h1
              exact ⟨p, List.mem_cons_of_mem _ hp, hrest⟩
        | false =>
            rw [hk2, if_neg (by simp)] at h
            obtain ⟨p, hp, hrest⟩ := phase1_keys rest k h
            exact ⟨p, List.mem_cons_of_mem _ hp, hrest⟩

/-- The phase-1 keys are drawn (as a sublist) from the fields' json keys. -/
theorem phase1_keys_sublist : ∀ (fvs : List (Field × Value)),
    List.Sublist (dictKeys (phase1Entries fvs))
      (fvs.map (fun p => get_json_key p.1))
  | [] => List.Sublist.refl _
  | (g, u) :: rest => by
      simp only [phase1Entries, List.map_cons]
      by_cases ho : omit_field g u = true
      · rw [if_pos ho]
        exact List.Sublist.cons _ (phase1_keys_sublist rest)
      · rw [if_neg ho]
        cases hk2 : entryKind u with
        | true =>
            rw [if_pos rfl]
            simp only [dictKeys, List.map_cons]
            exact List.Sublist.cons₂ _ (phase1_keys_sublist rest)
        | false =>
            rw [if_neg (by simp)]
            exact List.Sublist.cons _ (phase1_keys_sublist rest)

/-- Membership in the child list. -/
theorem childPairs_mem : ∀ (fvs : List (Field × Value)) (f : Field) (v : Value),
    (f, v) ∈ fvs → omit_field f v = false → entryKind v = false →
    (f, v) ∈ childPairs fvs
  | [], _, _, h, _, _ => absurd h (List.not_mem_nil _)
  | (g, u) :: rest, f, v, h, ho, hk => by
      rcases List.mem_cons.mp h with h1 | h1
      · rw [Prod.mk.injEq] at h1
        obtain ⟨he1, he2⟩ := h1
        subst he1; subst he2
        simp only [childPairs]
        rw [if_neg (by rw [ho]; exact Bool.false_ne_true),
          if_neg (by rw [hk]; exact Bool.false_ne_true)]
        exact List.mem_cons_self _ _
      · simp only [childPairs]
        by_cases ho2 : omit_field g u = true
        · rw [if_pos ho2]
          exact childPairs_mem rest f v h1 ho hk
        · rw [if_neg ho2]
          cases hk2 : entryKind u with
          | true =>
              rw [if_pos rfl]
              exact childPairs_mem rest f v h1 ho hk
          | false =>
              rw [if_neg (by simp)]
              exact List.mem_cons_of_mem _ (childPairs_mem rest f v h1 ho hk)

/-- Every child pair is a non-omitted non-primitive field of the record. -/
theorem childPairs_spec : ∀ (fvs : List (Field × Value)) (p : Field × Value),
    p ∈ childPairs fvs →
    p ∈ fvs ∧ omit_field p.1 p.2 = false ∧ entryKind p.2 = false
  | [], p, h => absurd h (List.not_mem_nil _)
  | (g, u) :: rest, p, h => by
      simp only [childPairs] at h
      by_cases ho : omit_field g u = true
      · rw [if_pos ho] at h
        obtain ⟨h1, h2⟩ := childPairs_spec rest p h
        exact ⟨List.mem_cons_of_mem _ h1, h2⟩
      · rw [if_neg ho] at h
        cases hk2 : entryKind u with
        | true =>
            rw [hk2, if_pos rfl] at h
            obtain ⟨h1, h2⟩ := childPairs_spec rest p h
            exact ⟨List.mem_cons_of_mem _ h1, h2⟩
        | false =>
            rw [hk2, if_neg (by simp)] at h
            rcases List.mem_cons.mp h with h1 | h1
            · subst h1
              exact ⟨List.mem_cons_self _ _, Bool.eq_false_iff.mpr ho, hk2⟩
            · obtain ⟨h1, h2⟩ := childPairs_spec rest p h1
              exact ⟨List.mem_cons_of_mem _ h1, h2⟩

/-- The child list is a sublist of the fields. -/
theorem childPairs_sublist : ∀ (fvs : List (Field × Value)),
    List.Sublist (childPairs fvs) fvs
  | [] => List.Sublist.refl _
  | (g, u) :: rest => by
      simp only [childPairs]
      by_cases ho : omit_field g u = true
      · rw [if_pos ho]
        exact List.Sublist.cons _ (childPairs_sublist rest)
      · rw [if_neg ho]
        cases hk2 : entryKind u with
        | true =>
            rw [if_pos rfl]
            exact List.Sublist.cons _ (childPairs_sublist rest)
        | false =>
            rw [if_neg (by simp)]
            exact List.Sublist.cons₂ _ (childPairs_sublist rest)

/-- The keys of the promoted-children mapping are the child fields' json
keys. -/
theorem forall2_child_keys : ∀ {l : List (Field × Value)} {ch : PyDict},
    List.Forall₂ (fun (p : Field × Value) (e : String × Value) =>
      e.1 = get_json_key p.1 ∧ marshalValue noFmts p.2 = .ok e.2) l ch →
    dictKeys ch = l.map (fun p => get_json_key p.1) := by
  intro l ch h
  induction h with
  | nil => rfl
  | cons hr htail ih =>
      simp only [dictKeys, List.map_cons] at ih ⊢
      rw [hr.1, ih]

/-! ### C1 support: classification correspondence between the engines -/

/-- The xor-shaped goodness of a supported optional, split into its two
orientations. -/
theorem union_good_parts {t1 t2 : Schema}
    (hg : goodSchema (.sUnion [t1, t2]) = true) :
    (isNoneSchema t1 = true ∧ isNoneSchema t2 = false ∧ goodNonNull t2 = true) ∨
    (isNoneSchema t1 = false ∧ isNoneSchema t2 = true ∧ goodNonNull t1 = true) := by
  simp only [goodSchema, Bool.and_eq_true] at hg
  obtain ⟨hx, hif⟩ := hg
  cases hn1 : isNoneSchema t1 with
  | true =>
      left
      rw [hn1] at hx hif
      simp at hx
      rw [if_pos rfl] at hif
      exact ⟨rfl, hx, hif⟩
  | false =>
      right
      rw [hn1] at hx hif
      simp at hx
      rw [if_neg (by simp)] at hif
      exact ⟨rfl, hx, hif⟩

/-- Conformance to an optional on non-null data is conformance of the
appropriate branch. -/
theorem conformsTo_union_not_none {t1 t2 : Schema} {v : Value}
    (h : conformsTo (.sUnion [t1, t2]) v = true) (hv : v ≠ .vNone) :
    (if isNoneSchema t1 then conformsTo t2 v else conformsTo t1 v) = true := by
  cases v <;> first
    | exact absurd rfl hv
    | simpa [conformsTo] using h

/-- An optional classifies null data as NoneType. -/
theorem calculate_union_none {t1 t2 : Schema}
    (hany : isNoneSchema t1 = true ∨ isNoneSchema t2 = true) :
    calculate_schema_type (.sUnion [t1, t2]) .vNone = .ok .pNone := by
  rcases hany with h | h <;> simp [calculate_schema_type, h]

/-- An optional classifies non-null data through the first non-null
alternative. -/
theorem calculate_union_fm {t1 t2 : Schema} {u : Value}
    (hany : isNoneSchema t1 = true ∨ isNoneSchema t2 = true)
    (hu : u ≠ .vNone) :
    calculate_schema_type (.sUnion [t1, t2]) u = union_first_match [t1, t2] u := by
  cases u <;> first
    | exact absurd rfl hu
    | (rcases hany with h | h <;> simp [calculate_schema_type, h])

/-- A good non-null alternative conforming to a marshal-primitive runtime
value is the exactly matching primitive annotation; classifying it yields
the matching primitive type and shape validation passes. -/
theorem nonNull_prim_shape : ∀ (t : Schema) (v : Value) (mt : MType),
    goodNonNull t = true → conformsTo t v = true →
    get_type v = .ok mt → mtypePrimitive mt = true →
    isNoneSchema t = false ∧
    ∃ c, calculate_schema_type t v = .ok c ∧ isPrimitivePyType c = true ∧
      runtimeTypeEq v c = true := by
  intro t v mt hgN hc hmt hprim
  cases v <;>
    try (simp only [get_type, Except.ok.injEq] at hmt; subst hmt; simp [mtypePrimitive] at hprim)
  case vOpaque cn txt => simp [get_type] at hmt
  case vNone =>
      exfalso
      cases t <;> first
        | (revert hgN; simp [goodNonNull]; done)
        | simp [conformsTo] at hc
  case vBool b =>
      cases t <;> first
        | (revert hgN; simp [goodNonNull]; done)
        | simp [conformsTo] at hc
      exact ⟨rfl, .pBool, by simp [calculate_schema_type], rfl, rfl⟩
  case vInt n =>
      cases t <;> first
        | (revert hgN; simp [goodNonNull]; done)
        | simp [conformsTo] at hc
      exact ⟨rfl, .pInt, by simp [calculate_schema_type], rfl, rfl⟩
  case vFloat fl =>
      cases t <;> first
        | (revert hgN; simp [goodNonNull]; done)
        | simp [conformsTo] at hc
      exact ⟨rfl, .pFloat, by simp [calculate_schema_type], rfl, rfl⟩
  case vStr s =>
      cases t <;> first
        | (revert hgN; simp [goodNonNull]; done)
        | simp [conformsTo] at hc
      exact ⟨rfl, .pStr, by simp [calculate_schema_type], rfl, rfl⟩

/-- A good non-null alternative conforming to a non-primitive runtime value
classifies the marshalled image as a non-primitive type, and that image is
never null. -/
theorem nonNull_child_calc : ∀ (t : Schema) (v : Value) (mt : MType) (u : Value),
    goodNonNull t = true → conformsTo t v = true →
    get_type v = .ok mt → mtypePrimitive mt = false →
    marshalValue noFmts v = .ok u →
    ∃ c, calculate_schema_type t u = .ok c ∧ isPrimitivePyType c = false ∧
      u ≠ .vNone := by
  intro t v mt u hgN hc hmt hprim hmar
  cases v <;>
    try (simp only [get_type, Except.ok.injEq] at hmt; subst hmt; simp [mtypePrimitive] at hprim)
  case vOpaque cn txt => simp [get_type] at hmt
  case vUuid hx =>
      cases t <;> first
        | (revert hgN; simp [goodNonNull]; done)
        | simp [conformsTo] at hc
      simp only [marshalValue] at hmar
      injection hmar with hu
      subst hu
      exact ⟨.pUuid, by simp [calculate_schema_type], rfl, by simp⟩
  case vDatetime dt =>
      cases t <;> first
        | (revert hgN; simp [goodNonNull]; done)
        | simp [conformsTo] at hc
      simp only [marshalValue] at hmar
      injection hmar with hu
      subst hu
      exact ⟨.pDatetime, by simp [calculate_schema_type], rfl, by simp⟩
  case vDate d =>
      cases t <;> first
        | (revert hgN; simp [goodNonNull]; done)
        | simp [conformsTo] at hc
      simp only [marshalValue] at hmar
      injection hmar with hu
      subst hu
      exact ⟨.pDate, by simp [calculate_schema_type], rfl, by simp⟩
  case vEnum en mn ev =>
      cases t <;> first
        | (revert hgN; simp [goodNonNull]; done)
        | simp [conformsTo] at hc
      case sEnum en2 ms =>
        simp only [goodNonNull, Bool.and_eq_true, Bool.not_eq_true'] at hgN
        have hmem : (mn, ev) ∈ ms := by
          have := hc.2
          simpa using this
        have hnone : (ms.any fun m => m.2 == EnumVal.eNone) = false := hgN.2
        have hev : ev ≠ .eNone := by
          intro he
          subst he
          have : ms.any (fun m => m.2 == EnumVal.eNone) = true :=
            List.any_eq_true.mpr ⟨(mn, .eNone), hmem, by simp⟩
          rw [hnone] at this
          exact Bool.false_ne_true this
        simp only [marshalValue] at hmar
        injection hmar with hu
        subst hu
        refine ⟨.pEnum, by simp [calculate_schema_type], rfl, ?_⟩
        cases ev with
        | eNone => exact absurd rfl hev
        | eBool b => simp [enumValToValue]
        | eInt n => simp [enumValToValue]
        | eFloat fl => simp [enumValToValue]
        | eStr s => simp [enumValToValue]
        | eDate d => simp [enumValToValue]
        | eDatetime dt => simp [enumValToValue]
  case vList xs =>
      cases t <;> first
        | (revert hgN; simp [goodNonNull]; done)
        | simp [conformsTo] at hc
      case sList t2 =>
        simp only [marshalValue] at hmar
        cases hy : marshalList noFmts xs with
        | error e => rw [hy] at hmar; simp at hmar
        | ok ys =>
            simp only [hy, exc_bind_ok, exc_pure] at hmar
            injection hmar with hu
            subst hu
            exact ⟨.pList, by simp [calculate_schema_type], rfl, by simp⟩
  case vDict es =>
      exfalso
      cases t <;> first
        | (revert hgN; simp [goodNonNull]; done)
        | simp [conformsTo] at hc
  case vRecord rn fvs =>
      exfalso
      cases t <;> first
        | (revert hgN; simp [goodNonNull]; done)
        | simp [conformsTo] at hc

/-- The optional wrapper of nonNull_prim_shape: classification through the
union and shape validation against the union schema. -/
theorem union_prim_calc {t1 t2 : Schema} {v : Value} {mt : MType}
    (hg : goodSchema (.sUnion [t1, t2]) = true)
    (hc : conformsTo (.sUnion [t1, t2]) v = true)
    (hv : v ≠ .vNone)
    (hmt : get_type v = .ok mt) (hprim : mtypePrimitive mt = true) :
    ∃ c, calculate_schema_type (.sUnion [t1, t2]) v = .ok c ∧
      isPrimitivePyType c = true ∧
      ∀ parent, validate_schema (.sUnion [t1, t2]) c v parent = .ok () := by
  have hc2 := conformsTo_union_not_none hc hv
  rcases union_good_parts hg with ⟨hn1, hn2, hgN⟩ | ⟨hn1, hn2, hgN⟩
  · rw [if_pos hn1] at hc2
    obtain ⟨hn2b, c, hcalc, hcp, hrt⟩ := nonNull_prim_shape t2 v mt hgN hc2 hmt hprim
    refine ⟨c, ?_, hcp, ?_⟩
    · rw [calculate_union_fm (Or.inl hn1) hv]
      simp [union_first_match, hn1, hn2, hcalc]
    · intro parent
      simp [validate_schema, hrt]
  · rw [if_neg (by simp [hn1])] at hc2
    obtain ⟨hn1b, c, hcalc, hcp, hrt⟩ := nonNull_prim_shape t1 v mt hgN hc2 hmt hprim
    refine ⟨c, ?_, hcp, ?_⟩
    · rw [calculate_union_fm (Or.inr hn2) hv]
      simp [union_first_match, hn1, hcalc]
    · intro parent
      simp [validate_schema, hrt]

/-- The optional wrapper of nonNull_child_calc: the marshalled image of a
non-null non-primitive value classifies through the union as non-primitive. -/
theorem union_child_calc {t1 t2 : Schema} {v : Value} {mt : MType} {u : Value}
    (hg : goodSchema (.sUnion [t1, t2]) = true)
    (hc : conformsTo (.sUnion [t1, t2]) v = true)
    (hv : v ≠ .vNone)
    (hmt : get_type v = .ok mt) (hprim : mtypePrimitive mt = false)
    (hmar : marshalValue noFmts v = .ok u) :
    ∃ c, calculate_schema_type (.sUnion [t1, t2]) u = .ok c ∧
      isPrimitivePyType c = false := by
  have hc2 := conformsTo_union_not_none hc hv
  rcases union_good_parts hg with ⟨hn1, hn2, hgN⟩ | ⟨hn1, hn2, hgN⟩
  · rw [if_pos hn1] at hc2
    obtain ⟨c, hcalc, hcp, hune⟩ := nonNull_child_calc t2 v mt u hgN hc2 hmt hprim hmar
    refine ⟨c, ?_, hcp⟩
    rw [calculate_union_fm (Or.inl hn1) hune]
    simp [union_first_match, hn1, hn2, hcalc]
  · rw [if_neg (by simp [hn1])] at hc2
    obtain ⟨c, hcalc, hcp, hune⟩ := nonNull_child_calc t1 v mt u hgN hc2 hmt hprim hmar
    refine ⟨c, ?_, hcp⟩
    rw [calculate_union_fm (Or.inr hn2) hune]
    simp [union_first_match, hn1, hcalc]

/-- A good schema conforming to a marshal-primitive value (stored raw in
the output mapping) classifies that raw value as an unmarshal-primitive and
its shape validation passes. -/
theorem stored_prim_calc (t : Schema) (v : Value)
    (hg : goodSchema t = true) (hc : conformsTo t v = true)
    (mt : MType) (hmt : get_type v = .ok mt) (hprim : mtypePrimitive mt = true) :
    ∃ c, calculate_schema_type t v = .ok c ∧ isPrimitivePyType c = true ∧
      ∀ parent, validate_schema t c v parent = .ok () := by
  cases v <;>
    try (simp only [get_type, Except.ok.injEq] at hmt; subst hmt; simp [mtypePrimitive] at hprim)
  case vOpaque cn txt => simp [get_type] at hmt
  case vNone =>
      cases t <;> first
        | (simp [conformsTo] at hc; done)
        | skip
      · exact ⟨.pNone, by simp [calculate_schema_type], rfl,
          fun parent => by simp [validate_schema, isCustomPyType]⟩
      · rename_i args
        rcases args with _ | ⟨a1, _ | ⟨a2, _ | ⟨a3, rest⟩⟩⟩
        · simp [conformsTo] at hc
        · simp [conformsTo] at hc
        · have hany : isNoneSchema a1 = true ∨ isNoneSchema a2 = true := by
            simpa [conformsTo] using hc
          exact ⟨.pNone, calculate_union_none hany, rfl,
            fun parent => by simp [validate_schema, isCustomPyType]⟩
        · simp [conformsTo] at hc
  case vBool b =>
      cases t <;> first
        | (simp [conformsTo] at hc; done)
        | skip
      · exact ⟨.pBool, by simp [calculate_schema_type], rfl,
          fun parent => by simp [validate_schema, isCustomPyType, runtimeTypeEq]⟩
      · rename_i args
        rcases args with _ | ⟨a1, _ | ⟨a2, _ | ⟨a3, rest⟩⟩⟩
        · simp [conformsTo] at hc
        · simp [conformsTo] at hc
        · exact union_prim_calc hg hc (by simp) rfl rfl
        · simp [conformsTo] at hc
  case vInt n =>
      cases t <;> first
        | (simp [conformsTo] at hc; done)
        | skip
      · exact ⟨.pInt, by simp [calculate_schema_type], rfl,
          fun parent => by simp [validate_schema, isCustomPyType, runtimeTypeEq]⟩
      · rename_i args
        rcases args with _ | ⟨a1, _ | ⟨a2, _ | ⟨a3, rest⟩⟩⟩
        · simp [conformsTo] at hc
        · simp [conformsTo] at hc
        · exact union_prim_calc hg hc (by simp) rfl rfl
        · simp [conformsTo] at hc
  case vFloat fl =>
      cases t <;> first
        | (simp [conformsTo] at hc; done)
        | skip
      · exact ⟨.pFloat, by simp [calculate_schema_type], rfl,
          fun parent => by simp [validate_schema, isCustomPyType, runtimeTypeEq]⟩
      · rename_i args
        rcases args with _ | ⟨a1, _ | ⟨a2, _ | ⟨a3, rest⟩⟩⟩
        · simp [conformsTo] at hc
        · simp [conformsTo] at hc
        · exact union_prim_calc hg hc (by simp) rfl rfl
        · simp [conformsTo] at hc
  case vStr s =>
      cases t <;> first
        | (simp [conformsTo] at hc; done)
        | skip
      · exact ⟨.pStr, by simp [calculate_schema_type], rfl,
          fun parent => by simp [validate_schema, isCustomPyType, runtimeTypeEq]⟩
      · rename_i args
        rcases args with _ | ⟨a1, _ | ⟨a2, _ | ⟨a3, rest⟩⟩⟩
        · simp [conformsTo] at hc
        · simp [conformsTo] at hc
        · exact union_prim_calc hg hc (by simp) rfl rfl
        · simp [conformsTo] at hc

set_option linter.unusedTactic false in
/-- A good schema conforming to a non-primitive value classifies the
marshalled image of that value as non-primitive (so the work-list recurses
into it). -/
theorem stored_child_calc (t : Schema) (v : Value)
    (hg : goodSchema t = true) (hc : conformsTo t v = true)
    (mt : MType) (hmt : get_type v = .ok mt) (hprim : mtypePrimitive mt = false)
    (u : Value) (hmar : marshalValue noFmts v = .ok u) :
    ∃ c, calculate_schema_type t u = .ok c ∧ isPrimitivePyType c = false := by
  cases v <;>
    try (simp only [get_type, Except.ok.injEq] at hmt; subst hmt; simp [mtypePrimitive] at hprim)
  case vOpaque cn txt => simp [get_type] at hmt
  case vUuid hx =>
      cases t <;> first
        | (simp [conformsTo] at hc; done)
        | skip
      · exact ⟨.pUuid, by simp [calculate_schema_type], rfl⟩
      · rename_i args
        rcases args with _ | ⟨a1, _ | ⟨a2, _ | ⟨a3, rest⟩⟩⟩
        · simp [conformsTo] at hc
        · simp [conformsTo] at hc
        · exact union_child_calc hg hc (by simp) rfl rfl hmar
        · simp [conformsTo] at hc
  case vDatetime dt =>
      cases t <;> first
        | (simp [conformsTo] at hc; done)
        | skip
      · exact ⟨.pDatetime, by simp [calculate_schema_type], rfl⟩
      · rename_i args
        rcases args with _ | ⟨a1, _ | ⟨a2, _ | ⟨a3, rest⟩⟩⟩
        · simp [conformsTo] at hc
        · simp [conformsTo] at hc
        · exact union_child_calc hg hc (by simp) rfl rfl hmar
        · simp [conformsTo] at hc
  case vDate d =>
      cases t <;> first
        | (simp [conformsTo] at hc; done)
        | skip
      · exact ⟨.pDate, by simp [calculate_schema_type], rfl⟩
      · rename_i args
        rcases args with _ | ⟨a1, _ | ⟨a2, _ | ⟨a3, rest⟩⟩⟩
        · simp [conformsTo] at hc
        · simp [conformsTo] at hc
        · exact union_child_calc hg hc (by simp) rfl rfl hmar
        · simp [conformsTo] at hc
  case vEnum en mn ev =>
      cases t <;> first
        | (simp [conformsTo] at hc; done)
        | skip
      · exact ⟨.pEnum, by simp [calculate_schema_type], rfl⟩
      · rename_i args
        rcases args with _ | ⟨a1, _ | ⟨a2, _ | ⟨a3, rest⟩⟩⟩
        · simp [conformsTo] at hc
        · simp [conformsTo] at hc
        · exact union_child_calc hg hc (by simp) rfl rfl hmar
        · simp [conformsTo] at hc
  case vList xs =>
      cases t <;> first
        | (simp [conformsTo] at hc; done)
        | skip
      · exact ⟨.pList, by simp [calculate_schema_type], rfl⟩
      · rename_i args
        rcases args with _ | ⟨a1, _ | ⟨a2, _ | ⟨a3, rest⟩⟩⟩
        · simp [conformsTo] at hc
        · simp [conformsTo] at hc
        · exact union_child_calc hg hc (by simp) rfl rfl hmar
        · simp [conformsTo] at hc
  case vDict es =>
      cases t <;> first
        | (simp [conformsTo] at hc; done)
        | skip
      rename_i args
      rcases args with _ | ⟨a1, _ | ⟨a2, _ | ⟨a3, rest⟩⟩⟩
      · simp [conformsTo] at hc
      · simp [conformsTo] at hc
      · exact union_child_calc hg hc (by simp) rfl rfl hmar
      · simp [conformsTo] at hc
  case vRecord rn fvs =>
      cases t <;> first
        | (simp [conformsTo] at hc; done)
        | skip
      · rename_i args
        rcases args with _ | ⟨a1, _ | ⟨a2, _ | ⟨a3, rest⟩⟩⟩
        · simp [conformsTo] at hc
        · simp [conformsTo] at hc
        · exact union_child_calc hg hc (by simp) rfl rfl hmar
        · simp [conformsTo] at hc
      · exact ⟨.pDict, by simp [calculate_schema_type], rfl⟩

/-! ### C1 support: loop machinery of the unmarshaller -/

/-- A successful marshalList is element-wise marshalling. -/
theorem marshalList_forall2 : ∀ (xs ys : List Value),
    marshalList noFmts xs = .ok ys →
    List.Forall₂ (fun x y => marshalValue noFmts x = .ok y) xs ys
  | [], ys, h => by
      simp only [marshalList] at h
      injection h with h2
      subst h2
      exact List.Forall₂.nil
  | x :: rest, ys, h => by
      simp only [marshalList] at h
      cases hw : marshalValue noFmts x with
      | error e => rw [hw] at h; simp at h
      | ok w =>
          simp only [hw, exc_bind_ok] at h
          cases ht : marshalList noFmts rest with
          | error e => rw [ht] at h; simp at h
          | ok tl =>
              simp only [ht, exc_bind_ok, exc_pure] at h
              injection h with h2
              subst h2
              exact List.Forall₂.cons hw (marshalList_forall2 rest tl ht)

/-- If each element converts, the element loop succeeds with the converted
list, at any starting index. -/
theorem elemsLoop_of_forall2
    (g : Schema → Value → String → String → Except JMErr Value)
    (t : Schema) (parent path : String) {ys xs : List Value}
    (h : List.Forall₂ (fun y x => ∀ p, g t y parent p = .ok x) ys xs) :
    ∀ idx, elemsLoop g t parent path idx ys = .ok xs := by
  induction h with
  | nil => intro idx; simp [elemsLoop]
  | cons hr htail ih =>
      intro idx
      simp only [elemsLoop, hr _, exc_bind_ok, ih _, exc_pure]

/-- If each remaining entry classifies (with validation passing for
primitives), the classify loop succeeds. -/
theorem classify_of_pointwise (fields : List Field) :
    ∀ d : PyDict,
    (∀ k u, (k, u) ∈ d → ∃ t c, field_type_lookup fields k = .ok t ∧
      calculate_schema_type t u = .ok c ∧
      (isPrimitivePyType c = true → validate_schema t c u k = .ok ())) →
    classify_entries fields d = .ok ()
  | [], _ => by simp [classify_entries]
  | (k, u) :: rest, h => by
      obtain ⟨t, c, h1, h2, h3⟩ := h k u (List.mem_cons_self _ _)
      cases hp : isPrimitivePyType c with
      | true =>
          have hv := h3 hp
          simp only [classify_entries, h1, exc_bind_ok, h2, hp, if_pos, hv]
          exact classify_of_pointwise fields rest
            (fun k2 u2 hm => h k2 u2 (List.mem_cons_of_mem _ hm))
      | false =>
          simp only [classify_entries, h1, exc_bind_ok, h2, hp,
            Bool.false_eq_true, if_neg]
          exact classify_of_pointwise fields rest
            (fun k2 u2 hm => h k2 u2 (List.mem_cons_of_mem _ hm))

/-- If each remaining entry classifies, with primitive entries kept and the
rest converted by the work-list step, the processing loop succeeds; the
keys are unchanged and every output entry satisfies the given per-key
relation. -/
theorem entriesLoop_of_pointwise
    (g : Schema → Value → String → String → Except JMErr Value)
    (fields : List Field) (path : String) (Rel : String → Value → Prop) :
    ∀ d : PyDict,
    (∀ k u, (k, u) ∈ d → ∃ t c, field_type_lookup fields k = .ok t ∧
      calculate_schema_type t u = .ok c ∧
      ((isPrimitivePyType c = true ∧ Rel k u) ∨
       (isPrimitivePyType c = false ∧
         ∃ r, g t u k (path ++ "." ++ k) = .ok r ∧ Rel k r))) →
    ∃ d2, entriesLoop g fields path d = .ok d2 ∧
      dictKeys d2 = dictKeys d ∧ ∀ k r, (k, r) ∈ d2 → Rel k r
  | [], _ => ⟨[], by simp [entriesLoop], rfl,
      fun k r hm => absurd hm (List.not_mem_nil _)⟩
  | (k, u) :: rest, h => by
      obtain ⟨t, c, h1, h2, h3⟩ := h k u (List.mem_cons_self _ _)
      obtain ⟨d2, hd2, hkeys, hrel⟩ := entriesLoop_of_pointwise g fields path Rel
        rest (fun k2 u2 hm => h k2 u2 (List.mem_cons_of_mem _ hm))
      rcases h3 with ⟨hp, hr⟩ | ⟨hp, r, hgr, hr⟩
      · refine ⟨(k, u) :: d2, ?_, ?_, ?_⟩
        · rw [entriesLoop]
          simp only [h1, exc_bind_ok, h2, hp, if_pos, hd2, exc_pure]
        · exact congrArg (List.cons k) hkeys
        · intro k2 r2 hm
          rcases List.mem_cons.mp hm with h4 | h4
          · rw [Prod.mk.injEq] at h4
            obtain ⟨he1, he2⟩ := h4
            subst he1; subst he2
            exact hr
          · exact hrel _ _ h4
      · refine ⟨(k, r) :: d2, ?_, ?_, ?_⟩
        · rw [entriesLoop]
          simp only [h1, exc_bind_ok, h2, hp, Bool.false_eq_true, if_neg,
            if_false, hgr, hd2, exc_pure]
        · exact congrArg (List.cons k) hkeys
        · intro k2 r2 hm
          rcases List.mem_cons.mp hm with h4 | h4
          · rw [Prod.mk.injEq] at h4
            obtain ⟨he1, he2⟩ := h4
            subst he1; subst he2
            exact hr
          · exact hrel _ _ h4

/-- schema(**data) rebinds each declared field to its looked-up entry. -/
theorem construct_fields_of_lookup :
    ∀ (fvs : List (Field × Value)) (d : PyDict),
    (∀ p ∈ fvs, dictLookup d p.1.name = some p.2) →
    construct_fields (fvs.map Prod.fst) d = .ok fvs
  | [], _, _ => by simp [construct_fields]
  | (f, v) :: rest, d, h => by
      simp only [List.map_cons, construct_fields]
      rw [h (f, v) (List.mem_cons_self _ _)]
      rw [construct_fields_of_lookup rest d
        (fun p hp => h p (List.mem_cons_of_mem _ hp))]
      simp only [exc_bind_ok, exc_pure]

/-- Dropping unknown keys is a no-op when every key names a declared
field. -/
theorem drop_unknown_noop {fields : List Field} {d : PyDict}
    (h : ∀ k ∈ dictKeys d, ∃ f ∈ fields, k = f.name) :
    drop_unknown_keys fields d = d := by
  rw [drop_unknown_keys]
  apply List.filter_eq_self.mpr
  intro kv hkv
  obtain ⟨f, hf, hk⟩ := h kv.1 (List.mem_map.mpr ⟨kv, hkv, rfl⟩)
  rw [hk]
  simp only [field_names]
  simp
  exact ⟨f, hf, rfl⟩

/-- omit_field only fires on a None value of an Optional-annotated field. -/
theorem omit_field_vNone {f : Field} {v : Value} (h : omit_field f v = true) :
    v = .vNone ∧ is_optional f.ftype = true := by
  simp only [omit_field, Bool.and_eq_true] at h
  obtain ⟨⟨h1, h2⟩, h3⟩ := h
  refine ⟨?_, h3⟩
  cases v <;> simp_all

/-- is_field_optional succeeds with True on an Optional-annotated field. -/
theorem is_field_optional_of_optional {f : Field}
    (h : is_optional f.ftype = true) : is_field_optional f = .ok true := by
  rw [is_field_optional]
  cases hft : f.ftype <;> rw [hft] at h <;> first
    | (simp [is_optional] at h; done)
    | skip
  rename_i args
  simp only [is_optional, Bool.and_eq_true] at h
  simp [isPrimitiveSchema, schemaArgs, h.2]

/-- Evaluation of the optional unwrapping when the null part is first. -/
theorem union_eval_left {t1 t2 : Schema} (hn1 : isNoneSchema t1 = true)
    (hn2 : isNoneSchema t2 = false) :
    container_is_union (.sUnion [t1, t2]) = .ok true ∧
    get_non_null_union_part (.sUnion [t1, t2]) = .ok t2 := by
  constructor
  · simp [container_is_union, hn1]
  · simp [get_non_null_union_part, firstNonNoneSchema, hn1, hn2]

/-- Evaluation of the optional unwrapping when the null part is second. -/
theorem union_eval_right {t1 t2 : Schema} (hn1 : isNoneSchema t1 = false)
    (hn2 : isNoneSchema t2 = true) :
    container_is_union (.sUnion [t1, t2]) = .ok true ∧
    get_non_null_union_part (.sUnion [t1, t2]) = .ok t1 := by
  constructor
  · simp [container_is_union, hn2]
  · simp [get_non_null_union_part, firstNonNoneSchema, hn1]

/-! ### C1 support: the key-renaming loop of clean_item -/

/-- In a duplicate-free mapped list, the element in the middle differs in
image from everything before and after it. -/
theorem nodup_mid {β : Type} (g : Field × Value → β) :
    ∀ (done rest : List (Field × Value)) (p0 : Field × Value),
    ((done ++ p0 :: rest).map g).Nodup →
    (∀ p ∈ done, g p ≠ g p0) ∧ ∀ p ∈ rest, g p ≠ g p0 := by
  intro done rest p0 h
  rw [List.map_append, List.map_cons] at h
  constructor
  · intro p hp he
    have h1 : g p0 ∈ done.map g := he ▸ List.mem_map.mpr ⟨p, hp, rfl⟩
    have h2 := (List.nodup_append.mp h).2.2
    exact h2 h1 (List.mem_cons_self _ _)
  · intro p hp he
    have h2 := (List.nodup_append.mp h).2.1
    rw [List.nodup_cons] at h2
    exact h2.1 (he ▸ List.mem_map.mpr ⟨p, hp, rfl⟩)

/-- The invariant of the renaming loop of clean_item: processing the
remaining fields of a record whose processed fields already sit under their
schema names and whose pending non-omitted fields sit under their json
keys (with any per-field payload property Q), the loop succeeds and leaves
every field's entry under its schema name — a synthesized None for omitted
fields, the untouched payload otherwise — with no other keys. -/
theorem clean_keys_inv (Q : Field → Value → Value → Prop) (path : String) :
    ∀ (todo done : List (Field × Value)) (data : PyDict),
    (((done ++ todo).map (fun p => p.1.name)).Nodup) →
    (((done ++ todo).map (fun p => get_json_key p.1)).Nodup) →
    (noCrossCollision ((done ++ todo).map Prod.fst) = true) →
    ((dictKeys data).Nodup) →
    (∀ p ∈ done, ∃ u, (p.1.name, u) ∈ data ∧
      ((omit_field p.1 p.2 = true ∧ u = Value.vNone) ∨
       (omit_field p.1 p.2 = false ∧ Q p.1 p.2 u))) →
    (∀ p ∈ todo, omit_field p.1 p.2 = false →
      ∃ u, (get_json_key p.1, u) ∈ data ∧ Q p.1 p.2 u) →
    (∀ k ∈ dictKeys data,
      (∃ p ∈ done, k = p.1.name) ∨
      (∃ p ∈ todo, omit_field p.1 p.2 = false ∧ k = get_json_key p.1)) →
    ∃ cleaned, clean_item_keys (todo.map Prod.fst) data path = .ok cleaned ∧
      (dictKeys cleaned).Nodup ∧
      (∀ p ∈ done ++ todo, ∃ u, (p.1.name, u) ∈ cleaned ∧
        ((omit_field p.1 p.2 = true ∧ u = Value.vNone) ∨
         (omit_field p.1 p.2 = false ∧ Q p.1 p.2 u))) ∧
      (∀ k ∈ dictKeys cleaned, ∃ p ∈ done ++ todo, k = p.1.name) := by
  intro todo
  induction todo with
  | nil =>
      intro done data hnames hjks hcc hnodup hdone htodo hcov
      refine ⟨data, by simp [clean_item_keys], hnodup, ?_, ?_⟩
      · intro p hp
        exact hdone p (by simpa using hp)
      · intro k hk
        rcases hcov k hk with ⟨p, hp, he⟩ | ⟨p, hp, _, _⟩
        · exact ⟨p, by simpa using hp, he⟩
        · exact absurd hp (List.not_mem_nil _)
  | cons pv rest ih =>
      intro done data hnames hjks hcc hnodup hdone htodo hcov
      obtain ⟨f, v⟩ := pv
      have hfin : (f, v) ∈ done ++ (f, v) :: rest :=
        List.mem_append_right _ (List.mem_cons_self _ _)
      have hmemfs : ∀ q ∈ done ++ (f, v) :: rest,
          q.1 ∈ (done ++ (f, v) :: rest).map Prod.fst :=
        fun q hq => List.mem_map.mpr ⟨q, hq, rfl⟩
      have hnameNe := nodup_mid (fun p => p.1.name) done rest (f, v) hnames
      have hjkNe := nodup_mid (fun p => get_json_key p.1) done rest (f, v) hjks
      have hassoc : (done ++ [(f, v)]) ++ rest = done ++ (f, v) :: rest := by
        simp
      by_cases ho : omit_field f v = true
      · obtain ⟨hv, hopt⟩ := omit_field_vNone ho
        subst hv
        have hnotkey : get_json_key f ∉ dictKeys data := by
          intro hk
          rcases hcov _ hk with ⟨p, hp, he⟩ | ⟨p, hp, hpo, he⟩
          · have h2 := crossColl_of hcc (hmemfs (f, .vNone) hfin)
              (hmemfs p (List.mem_append_left _ hp)) he
            exact hnameNe.1 p hp h2.symm
          · rcases List.mem_cons.mp hp with hp1 | hp1
            · subst hp1
              simp [ho] at hpo
            · exact hjkNe.2 p hp1 he.symm
        have hnc : dictContains data (get_json_key f) = false := by
          cases hcb : dictContains data (get_json_key f) with
          | false => rfl
          | true => exact absurd (dictContains_eq.mp hcb) hnotkey
        have hgk : get_json_key_for_item f data path = .ok (get_json_key f) := by
          simp [get_json_key_for_item, hnc, is_field_optional_of_optional hopt]
        have hfn : f.name ∉ dictKeys data := by
          intro hk
          rcases hcov _ hk with ⟨p, hp, he⟩ | ⟨p, hp, hpo, he⟩
          · exact hnameNe.1 p hp he.symm
          · rcases List.mem_cons.mp hp with hp1 | hp1
            · subst hp1
              simp [ho] at hpo
            · have h2 := crossColl_of hcc
                (hmemfs p (List.mem_append_right _ (List.mem_cons_of_mem _ hp1)))
                (hmemfs (f, .vNone) hfin) he.symm
              exact hnameNe.2 p hp1 h2
        have hset := dictSet_fresh data f.name Value.vNone hfn
        have hstep : clean_item_field f data path =
            .ok (data ++ [(f.name, Value.vNone)]) := by
          simp [clean_item_field, hgk, hnc, hset]
        have hkeys2 : dictKeys (data ++ [(f.name, Value.vNone)]) =
            dictKeys data ++ [f.name] := by simp [dictKeys]
        have hnodup2 : (dictKeys (data ++ [(f.name, Value.vNone)])).Nodup := by
          rw [hkeys2]
          refine List.nodup_append.mpr ⟨hnodup, List.nodup_singleton _, ?_⟩
          intro a ha hamem
          have : a = f.name := by simpa using hamem
          subst this
          exact hfn ha
        have hdone2 : ∀ p ∈ done ++ [(f, Value.vNone)],
            ∃ u, (p.1.name, u) ∈ data ++ [(f.name, Value.vNone)] ∧
              ((omit_field p.1 p.2 = true ∧ u = Value.vNone) ∨
               (omit_field p.1 p.2 = false ∧ Q p.1 p.2 u)) := by
          intro p hp
          rcases List.mem_append.mp hp with hp1 | hp1
          · obtain ⟨u, hu1, hu2⟩ := hdone p hp1
            exact ⟨u, List.mem_append_left _ hu1, hu2⟩
          · have hp2 : p = (f, .vNone) := by simpa using hp1
            subst hp2
            exact ⟨.vNone, List.mem_append_right _ (by simp), Or.inl ⟨ho, rfl⟩⟩
        have htodo2 : ∀ p ∈ rest, omit_field p.1 p.2 = false →
            ∃ u, (get_json_key p.1, u) ∈ data ++ [(f.name, Value.vNone)] ∧
              Q p.1 p.2 u := by
          intro p hp hpo
          obtain ⟨u, hu1, hu2⟩ := htodo p (List.mem_cons_of_mem _ hp) hpo
          exact ⟨u, List.mem_append_left _ hu1, hu2⟩
        have hcov2 : ∀ k ∈ dictKeys (data ++ [(f.name, Value.vNone)]),
            (∃ p ∈ done ++ [(f, Value.vNone)], k = p.1.name) ∨
            (∃ p ∈ rest, omit_field p.1 p.2 = false ∧ k = get_json_key p.1) := by
          intro k hk
          rw [hkeys2] at hk
          rcases List.mem_append.mp hk with hk1 | hk1
          · rcases hcov k hk1 with ⟨p, hp, he⟩ | ⟨p, hp, hpo, he⟩
            · exact Or.inl ⟨p, List.mem_append_left _ hp, he⟩
            · rcases List.mem_cons.mp hp with hp1 | hp1
              · subst hp1
                simp [ho] at hpo
              · exact Or.inr ⟨p, hp1, hpo, he⟩
          · have : k = f.name := by simpa using hk1
            exact Or.inl ⟨(f, .vNone), List.mem_append_right _ (by simp), this⟩
        obtain ⟨cleaned, hck, hcnd, hcent, hccov⟩ := ih (done ++ [(f, .vNone)])
          (data ++ [(f.name, .vNone)])
          (by rw [hassoc]; exact hnames) (by rw [hassoc]; exact hjks)
          (by rw [hassoc]; exact hcc) hnodup2 hdone2 htodo2 hcov2
        refine ⟨cleaned, ?_, hcnd, ?_, ?_⟩
        · simp only [List.map_cons, clean_item_keys, hstep, exc_bind_ok]
          exact hck
        · intro p hp
          rw [← hassoc] at hp
          exact hcent p hp
        · intro k hk
          obtain ⟨p, hp, he⟩ := hccov k hk
          rw [hassoc] at hp
          exact ⟨p, hp, he⟩
      · have ho' : omit_field f v = false := Bool.eq_false_iff.mpr ho
        obtain ⟨u, hmem, hQ⟩ := htodo (f, v) (List.mem_cons_self _ _) ho'
        have hcb : dictContains data (get_json_key f) = true :=
          dictContains_eq.mpr (mem_dictKeys.mpr ⟨u, hmem⟩)
        have hgk : get_json_key_for_item f data path = .ok (get_json_key f) := by
          simp [get_json_key_for_item, hcb]
        have hlook : dictLookup data (get_json_key f) = some u :=
          dictLookup_of_mem_nodup data hnodup hmem
        by_cases hkn : get_json_key f = f.name
        · have hcb2 : dictContains data f.name = true := hkn ▸ hcb
          have hstep : clean_item_field f data path = .ok data := by
            simp [clean_item_field, hgk, hcb, hcb2, hkn]
          have hdone2 : ∀ p ∈ done ++ [(f, v)],
              ∃ u2, (p.1.name, u2) ∈ data ∧
                ((omit_field p.1 p.2 = true ∧ u2 = Value.vNone) ∨
                 (omit_field p.1 p.2 = false ∧ Q p.1 p.2 u2)) := by
            intro p hp
            rcases List.mem_append.mp hp with hp1 | hp1
            · exact hdone p hp1
            · have hp2 : p = (f, v) := by simpa using hp1
              subst hp2
              exact ⟨u, hkn ▸ hmem, Or.inr ⟨ho', hQ⟩⟩
          have htodo2 : ∀ p ∈ rest, omit_field p.1 p.2 = false →
              ∃ u2, (get_json_key p.1, u2) ∈ data ∧ Q p.1 p.2 u2 := by
            intro p hp hpo
            exact htodo p (List.mem_cons_of_mem _ hp) hpo
          have hcov2 : ∀ k ∈ dictKeys data,
              (∃ p ∈ done ++ [(f, v)], k = p.1.name) ∨
              (∃ p ∈ rest, omit_field p.1 p.2 = false ∧ k = get_json_key p.1) := by
            intro k hk
            rcases hcov k hk with ⟨p, hp, he⟩ | ⟨p, hp, hpo, he⟩
            · exact Or.inl ⟨p, List.mem_append_left _ hp, he⟩
            · rcases List.mem_cons.mp hp with hp1 | hp1
              · subst hp1
                exact Or.inl ⟨(f, v), List.mem_append_right _ (by simp),
                  he.trans hkn⟩
              · exact Or.inr ⟨p, hp1, hpo, he⟩
          obtain ⟨cleaned, hck, hcnd, hcent, hccov⟩ := ih (done ++ [(f, v)]) data
            (by rw [hassoc]; exact hnames) (by rw [hassoc]; exact hjks)
            (by rw [hassoc]; exact hcc) hnodup hdone2 htodo2 hcov2
          refine ⟨cleaned, ?_, hcnd, ?_, ?_⟩
          · simp only [List.map_cons, clean_item_keys, hstep, exc_bind_ok]
            exact hck
          · intro p hp
            rw [← hassoc] at hp
            exact hcent p hp
          · intro k hk
            obtain ⟨p, hp, he⟩ := hccov k hk
            rw [hassoc] at hp
            exact ⟨p, hp, he⟩
        · have hbne : (get_json_key f == f.name) = false :=
            beq_eq_false_iff_ne.mpr hkn
          have hstep : clean_item_field f data path =
              .ok (dictSet (dictPop data (get_json_key f)) f.name u) := by
            simp [clean_item_field, hgk, hcb, hbne, hlook, hkn]
          have hpopsub : List.Sublist (dictKeys (dictPop data (get_json_key f)))
              (dictKeys data) :=
            List.Sublist.map _ (dictPop_sublist data _)
          have hnodupP : (dictKeys (dictPop data (get_json_key f))).Nodup :=
            List.Nodup.sublist hpopsub hnodup
          have hfnP : f.name ∉ dictKeys (dictPop data (get_json_key f)) := by
            intro hk
            have hk2 : f.name ∈ dictKeys data := hpopsub.subset hk
            rcases hcov _ hk2 with ⟨p, hp, he⟩ | ⟨p, hp, hpo, he⟩
            · exact hnameNe.1 p hp he.symm
            · rcases List.mem_cons.mp hp with hp1 | hp1
              · subst hp1
                exact hkn he.symm
              · have h2 := crossColl_of hcc
                  (hmemfs p (List.mem_append_right _ (List.mem_cons_of_mem _ hp1)))
                  (hmemfs (f, v) hfin) he.symm
                exact hnameNe.2 p hp1 h2
          have hset := dictSet_fresh (dictPop data (get_json_key f)) f.name u hfnP
          have hkeys2 : dictKeys (dictPop data (get_json_key f) ++ [(f.name, u)]) =
              dictKeys (dictPop data (get_json_key f)) ++ [f.name] := by
            simp [dictKeys]
          have hnodup2 :
              (dictKeys (dictPop data (get_json_key f) ++ [(f.name, u)])).Nodup := by
            rw [hkeys2]
            refine List.nodup_append.mpr ⟨hnodupP, List.nodup_singleton _, ?_⟩
            intro a ha hamem
            have : a = f.name := by simpa using hamem
            subst this
            exact hfnP ha
          have hdone2 : ∀ p ∈ done ++ [(f, v)],
              ∃ u2, (p.1.name, u2) ∈ dictPop data (get_json_key f) ++ [(f.name, u)] ∧
                ((omit_field p.1 p.2 = true ∧ u2 = Value.vNone) ∨
                 (omit_field p.1 p.2 = false ∧ Q p.1 p.2 u2)) := by
            intro p hp
            rcases List.mem_append.mp hp with hp1 | hp1
            · obtain ⟨u2, hu1, hu2⟩ := hdone p hp1
              have hne : p.1.name ≠ get_json_key f := by
                intro he
                have h2 := crossColl_of hcc (hmemfs (f, v) hfin)
                  (hmemfs p (List.mem_append_left _ hp1)) he.symm
                exact hnameNe.1 p hp1 h2.symm
              exact ⟨u2, List.mem_append_left _
                ((mem_dictPop data _ hnodup).mpr ⟨hu1, hne⟩), hu2⟩
            · have hp2 : p = (f, v) := by simpa using hp1
              subst hp2
              exact ⟨u, List.mem_append_right _ (by simp), Or.inr ⟨ho', hQ⟩⟩
          have htodo2 : ∀ p ∈ rest, omit_field p.1 p.2 = false →
              ∃ u2, (get_json_key p.1, u2) ∈
                dictPop data (get_json_key f) ++ [(f.name, u)] ∧ Q p.1 p.2 u2 := by
            intro p hp hpo
            obtain ⟨u2, hu1, hu2⟩ := htodo p (List.mem_cons_of_mem _ hp) hpo
            exact ⟨u2, List.mem_append_left _
              ((mem_dictPop data _ hnodup).mpr ⟨hu1, hjkNe.2 p hp⟩), hu2⟩
          have hcov2 : ∀ k ∈ dictKeys (dictPop data (get_json_key f) ++
              [(f.name, u)]),
              (∃ p ∈ done ++ [(f, v)], k = p.1.name) ∨
              (∃ p ∈ rest, omit_field p.1 p.2 = false ∧ k = get_json_key p.1) := by
            intro k hk
            rw [hkeys2] at hk
            rcases List.mem_append.mp hk with hk1 | hk1
            · obtain ⟨u2, hku⟩ := mem_dictKeys.mp hk1
              have hm2 := (mem_dictPop data _ hnodup).mp hku
              have hk2 : k ∈ dictKeys data := mem_dictKeys.mpr ⟨u2, hm2.1⟩
              rcases hcov k hk2 with ⟨p, hp, he⟩ | ⟨p, hp, hpo, he⟩
              · exact Or.inl ⟨p, List.mem_append_left _ hp, he⟩
              · rcases List.mem_cons.mp hp with hp1 | hp1
                · subst hp1
                  exact absurd he hm2.2
                · exact Or.inr ⟨p, hp1, hpo, he⟩
            · have : k = f.name := by simpa using hk1
              exact Or.inl ⟨(f, v), List.mem_append_right _ (by simp), this⟩
          rw [hset] at hstep
          obtain ⟨cleaned, hck, hcnd, hcent, hccov⟩ := ih (done ++ [(f, v)])
            (dictPop data (get_json_key f) ++ [(f.name, u)])
            (by rw [hassoc]; exact hnames) (by rw [hassoc]; exact hjks)
            (by rw [hassoc]; exact hcc) hnodup2 hdone2 htodo2 hcov2
          refine ⟨cleaned, ?_, hcnd, ?_, ?_⟩
          · simp only [List.map_cons, clean_item_keys, hstep, exc_bind_ok]
            exact hck
          · intro p hp
            rw [← hassoc] at hp
            exact hcent p hp
          · intro k hk
            obtain ⟨p, hp, he⟩ := hccov k hk
            rw [hassoc] at hp
            exact ⟨p, hp, he⟩

/-! ### C1 support: element-wise conformance and the optional node case -/

theorem conformsList_mem : ∀ (t : Schema) (xs : List Value),
    conformsList t xs = true → ∀ x ∈ xs, conformsTo t x = true := by
  intro t xs
  induction xs with
  | nil => intro _ x hx; cases hx
  | cons y rest ih =>
      intro h x hx
      simp only [conformsList, Bool.and_eq_true] at h
      rcases List.mem_cons.mp hx with h1 | h1
      · subst h1; exact h.1
      · exact ih h.2 x h1

set_option maxHeartbeats 1600000 in
set_option linter.unusedTactic false in
/-- One work-list step on an optional-typed node whose data is the
marshalled image of a conforming non-null value recovers that value. -/
theorem union_core_roundtrip (fuel : Nat)
    (IH : ∀ (s : Schema) (v2 w2 : Value), goodSchema s = true →
      conformsTo s v2 = true → marshalValue noFmts v2 = .ok w2 →
      sizeValue w2 ≤ fuel →
      ∀ pr pt, unmarshalNodeF fuel noFmts s w2 pr pt = .ok v2)
    {t1 t2 tN : Schema} {v w : Value}
    (hcu : container_is_union (.sUnion [t1, t2]) = .ok true)
    (hnn : get_non_null_union_part (.sUnion [t1, t2]) = .ok tN)
    (hany : isNoneSchema t1 = true ∨ isNoneSchema t2 = true)
    (hfm : ∀ u : Value, union_first_match [t1, t2] u = calculate_schema_type tN u)
    (hgN : goodNonNull tN = true)
    (hc : conformsTo tN v = true)
    (hv : v ≠ .vNone)
    (hm : marshalValue noFmts v = .ok w)
    (hsz : sizeValue w ≤ fuel + 1)
    (parent path : String) :
    unmarshalNodeF (fuel + 1) noFmts (.sUnion [t1, t2]) w parent path = .ok v := by
  cases v with
  | vNone => exact absurd rfl hv
  | vOpaque cn txt => simp [marshalValue] at hm
  | vBool b =>
      cases tN <;> first
        | (revert hgN; simp [goodNonNull]; done)
        | (simp [conformsTo] at hc; done)
        | skip
      simp only [marshalValue] at hm
      injection hm with hw
      subst hw
      have hcalc : calculate_schema_type (.sUnion [t1, t2]) (.vBool b) =
          .ok .pBool := by
        rw [calculate_union_fm hany (by simp), hfm]
        simp [calculate_schema_type]
      simp [unmarshalNodeF, hcalc, validate_schema, isCustomPyType, runtimeTypeEq]
  | vInt n =>
      cases tN <;> first
        | (revert hgN; simp [goodNonNull]; done)
        | (simp [conformsTo] at hc; done)
        | skip
      simp only [marshalValue] at hm
      injection hm with hw
      subst hw
      have hcalc : calculate_schema_type (.sUnion [t1, t2]) (.vInt n) =
          .ok .pInt := by
        rw [calculate_union_fm hany (by simp), hfm]
        simp [calculate_schema_type]
      simp [unmarshalNodeF, hcalc, validate_schema, isCustomPyType, runtimeTypeEq]
  | vFloat fl =>
      cases tN <;> first
        | (revert hgN; simp [goodNonNull]; done)
        | (simp [conformsTo] at hc; done)
        | skip
      simp only [marshalValue] at hm
      injection hm with hw
      subst hw
      have hcalc : calculate_schema_type (.sUnion [t1, t2]) (.vFloat fl) =
          .ok .pFloat := by
        rw [calculate_union_fm hany (by simp), hfm]
        simp [calculate_schema_type]
      simp [unmarshalNodeF, hcalc, validate_schema, isCustomPyType, runtimeTypeEq]
  | vStr s =>
      cases tN <;> first
        | (revert hgN; simp [goodNonNull]; done)
        | (simp [conformsTo] at hc; done)
        | skip
      simp only [marshalValue] at hm
      injection hm with hw
      subst hw
      have hcalc : calculate_schema_type (.sUnion [t1, t2]) (.vStr s) =
          .ok .pStr := by
        rw [calculate_union_fm hany (by simp), hfm]
        simp [calculate_schema_type]
      simp [unmarshalNodeF, hcalc, validate_schema, isCustomPyType, runtimeTypeEq]
  | vUuid hex =>
      cases tN <;> first
        | (revert hgN; simp [goodNonNull]; done)
        | (simp [conformsTo] at hc; done)
        | skip
      simp only [conformsTo] at hc
      simp only [marshalValue] at hm
      injection hm with hw
      subst hw
      have hcalc : calculate_schema_type (.sUnion [t1, t2])
          (.vStr (uuidStr hex)) = .ok .pUuid := by
        rw [calculate_union_fm hany (by simp), hfm]
        simp [calculate_schema_type]
      simp [unmarshalNodeF, hcalc, validate_schema, isCustomPyType,
        process_uuid, hcu, hnn, uuid_parse_str hex hc]
  | vDatetime dt =>
      cases tN <;> first
        | (revert hgN; simp [goodNonNull]; done)
        | (simp [conformsTo] at hc; done)
        | skip
      simp only [conformsTo] at hc
      simp only [marshalValue, noFmts, fmtTruthy] at hm
      injection hm with hw
      subst hw
      have hcalc : calculate_schema_type (.sUnion [t1, t2])
          (.vStr (pyDatetimeIsoformat dt)) = .ok .pDatetime := by
        rw [calculate_union_fm hany (by simp), hfm]
        simp [calculate_schema_type]
      simp [unmarshalNodeF, hcalc, validate_schema, isCustomPyType,
        datetime_leaf_roundtrip dt hc]
  | vDate d =>
      cases tN <;> first
        | (revert hgN; simp [goodNonNull]; done)
        | (simp [conformsTo] at hc; done)
        | skip
      simp only [conformsTo] at hc
      simp only [marshalValue, noFmts, fmtTruthy] at hm
      injection hm with hw
      subst hw
      have hcalc : calculate_schema_type (.sUnion [t1, t2])
          (.vStr (pyDateIsoformat d)) = .ok .pDate := by
        rw [calculate_union_fm hany (by simp), hfm]
        simp [calculate_schema_type]
      simp [unmarshalNodeF, hcalc, validate_schema, isCustomPyType,
        date_leaf_roundtrip d hc]
  | vEnum en mn ev =>
      cases tN <;> first
        | (revert hgN; simp [goodNonNull]; done)
        | (simp [conformsTo] at hc; done)
        | skip
      rename_i en2 ms
      simp only [conformsTo, Bool.and_eq_true, beq_iff_eq] at hc
      obtain ⟨hen, hmem2⟩ := hc
      subst hen
      have hmem : (mn, ev) ∈ ms := by simpa using hmem2
      simp only [goodNonNull, Bool.and_eq_true, Bool.not_eq_true'] at hgN
      have hev : ev ≠ .eNone := by
        intro he
        subst he
        have hth : ms.any (fun m => m.2 == EnumVal.eNone) = true :=
          List.any_eq_true.mpr ⟨(mn, .eNone), hmem, by simp⟩
        rw [hgN.2] at hth
        exact Bool.false_ne_true hth
      simp only [marshalValue] at hm
      injection hm with hw
      subst hw
      have hwne : enumValToValue ev ≠ .vNone := by
        cases ev <;> simp [enumValToValue]
        exact absurd rfl hev
      have hcalc : calculate_schema_type (.sUnion [t1, t2])
          (enumValToValue ev) = .ok .pEnum := by
        rw [calculate_union_fm hany hwne, hfm]
        simp [calculate_schema_type]
      simp [unmarshalNodeF, hcalc, validate_schema, isCustomPyType,
        process_enum, hcu, hnn, enum_find ms mn ev hgN.1 hmem]
  | vList xs =>
      cases tN <;> first
        | (revert hgN; simp [goodNonNull]; done)
        | (simp [conformsTo] at hc; done)
        | skip
      rename_i tE
      simp only [conformsTo] at hc
      have hgt : goodSchema tE = true := by
        simpa [goodNonNull, goodSchema] using hgN
      simp only [marshalValue] at hm
      cases hy : marshalList noFmts xs with
      | error e => rw [hy] at hm; simp at hm
      | ok ys =>
          simp only [hy, exc_bind_ok, exc_pure] at hm
          injection hm with hw
          subst hw
          have hszl : sizeValueList ys ≤ fuel := by
            simp only [sizeValue] at hsz
            omega
          have hf2 := marshalList_forall2 xs ys hy
          have hcmem := conformsList_mem tE xs hc
          have haux : ∀ (xs2 ys2 : List Value),
              List.Forall₂ (fun x y => marshalValue noFmts x = .ok y) xs2 ys2 →
              (∀ x ∈ xs2, conformsTo tE x = true) → sizeValueList ys2 ≤ fuel →
              List.Forall₂ (fun y x => ∀ p2,
                unmarshalNodeF fuel noFmts tE y parent p2 = .ok x) ys2 xs2 := by
            intro xs2 ys2 hf
            induction hf with
            | nil => intro _ _; exact List.Forall₂.nil
            | cons hr htail ih2 =>
                intro hcf hsz2
                simp only [sizeValueList] at hsz2
                refine List.Forall₂.cons (fun p2 => ?_)
                  (ih2 (fun q hq => hcf q (List.mem_cons_of_mem _ hq)) (by omega))
                exact IH tE _ _ hgt (hcf _ (List.mem_cons_self _ _)) hr
                  (by omega) parent p2
          have hloop := elemsLoop_of_forall2 (unmarshalNodeF fuel noFmts) tE
            parent path (haux xs ys hf2 hcmem hszl) 0
          have hcalc : calculate_schema_type (.sUnion [t1, t2]) (.vList ys) =
              .ok .pList := by
            rw [calculate_union_fm hany (by simp), hfm]
            simp [calculate_schema_type]
          have hinner : inner_schema (.sUnion [t1, t2]) = .ok tE := by
            simp [inner_schema, hcu, hnn, schemaArgs]
          simp [unmarshalNodeF, hcalc, validate_schema, isCustomPyType,
            runtimeTypeEq, hinner, hloop]
  | vDict es =>
      exfalso
      cases tN <;> first
        | (revert hgN; simp [goodNonNull]; done)
        | (simp [conformsTo] at hc; done)
  | vRecord rn fvs =>
      exfalso
      cases tN <;> first
        | (revert hgN; simp [goodNonNull]; done)
        | (simp [conformsTo] at hc; done)

/-- A value the marshaller handles has a known runtime kind. -/
theorem get_type_ok_of_marshal {v u : Value} (h : marshalValue noFmts v = .ok u) :
    ∃ mt, get_type v = .ok mt := by
  cases v <;> first
    | exact ⟨_, rfl⟩
    | simp [marshalValue] at h

/-- An Optional annotation classifies null data as NoneType. -/
theorem calc_optional_none : ∀ t : Schema, is_optional t = true →
    calculate_schema_type t .vNone = .ok .pNone := by
  intro t h
  cases t <;> simp [is_optional] at h
  rename_i args
  obtain ⟨hlen, hx⟩ := h
  simp [calculate_schema_type, hlen]
  exact hx

set_option maxHeartbeats 3200000 in
set_option linter.unusedTactic false in
/-- The round trip at the node level: unmarshalling the marshalled image of
a conforming value against the good schema that value conforms to, with
enough fuel for the image's depth, recovers the value — for every node
kind, at any parent and path. -/
theorem node_roundtrip : ∀ (fuel : Nat) (s : Schema) (v w : Value),
    goodSchema s = true → conformsTo s v = true →
    marshalValue noFmts v = .ok w → sizeValue w ≤ fuel →
    ∀ parent path, unmarshalNodeF fuel noFmts s w parent path = .ok v := by
  intro fuel
  induction fuel with
  | zero =>
      intro s v w _ _ _ hsz parent path
      exfalso
      have := sizeValue_pos w
      omega
  | succ fuel ih =>
      intro s v w hg hc hm hsz parent path
      cases s with
      | sClass cn => cases v <;> simp [conformsTo] at hc
      | sNone =>
          cases v <;> first | (simp [conformsTo] at hc; done) | skip
          simp only [marshalValue] at hm
          injection hm with hw
          subst hw
          simp [unmarshalNodeF, calculate_schema_type, validate_schema,
            isCustomPyType]
      | sStr =>
          cases v <;> first | (simp [conformsTo] at hc; done) | skip
          simp only [marshalValue] at hm
          injection hm with hw
          subst hw
          simp [unmarshalNodeF, calculate_schema_type, validate_schema,
            isCustomPyType, runtimeTypeEq]
      | sInt =>
          cases v <;> first | (simp [conformsTo] at hc; done) | skip
          simp only [marshalValue] at hm
          injection hm with hw
          subst hw
          simp [unmarshalNodeF, calculate_schema_type, validate_schema,
            isCustomPyType, runtimeTypeEq]
      | sFloat =>
          cases v <;> first | (simp [conformsTo] at hc; done) | skip
          simp only [marshalValue] at hm
          injection hm with hw
          subst hw
          simp [unmarshalNodeF, calculate_schema_type, validate_schema,
            isCustomPyType, runtimeTypeEq]
      | sBool =>
          cases v <;> first | (simp [conformsTo] at hc; done) | skip
          simp only [marshalValue] at hm
          injection hm with hw
          subst hw
          simp [unmarshalNodeF, calculate_schema_type, validate_schema,
            isCustomPyType, runtimeTypeEq]
      | sUuid =>
          cases v <;> first | (simp [conformsTo] at hc; done) | skip
          rename_i hex
          simp only [conformsTo] at hc
          simp only [marshalValue] at hm
          injection hm with hw
          subst hw
          simp [unmarshalNodeF, calculate_schema_type, validate_schema,
            isCustomPyType, process_uuid, container_is_union,
            uuid_parse_str hex hc]
      | sDatetime =>
          cases v <;> first | (simp [conformsTo] at hc; done) | skip
          rename_i dt
          simp only [conformsTo] at hc
          simp only [marshalValue, noFmts, fmtTruthy] at hm
          injection hm with hw
          subst hw
          simp [unmarshalNodeF, calculate_schema_type, validate_schema,
            isCustomPyType, datetime_leaf_roundtrip dt hc]
      | sDate =>
          cases v <;> first | (simp [conformsTo] at hc; done) | skip
          rename_i d
          simp only [conformsTo] at hc
          simp only [marshalValue, noFmts, fmtTruthy] at hm
          injection hm with hw
          subst hw
          simp [unmarshalNodeF, calculate_schema_type, validate_schema,
            isCustomPyType, date_leaf_roundtrip d hc]
      | sEnum en ms =>
          cases v <;> first | (simp [conformsTo] at hc; done) | skip
          rename_i en2 mn ev
          simp only [conformsTo, Bool.and_eq_true, beq_iff_eq] at hc
          obtain ⟨hen, hmem2⟩ := hc
          subst hen
          have hmem : (mn, ev) ∈ ms := by simpa using hmem2
          simp only [goodSchema] at hg
          simp only [marshalValue] at hm
          injection hm with hw
          subst hw
          simp [unmarshalNodeF, calculate_schema_type, validate_schema,
            isCustomPyType, process_enum, container_is_union,
            enum_find ms mn ev hg hmem]
      | sList tE =>
          cases v <;> first | (simp [conformsTo] at hc; done) | skip
          rename_i xs
          simp only [conformsTo] at hc
          have hgt : goodSchema tE = true := by simpa [goodSchema] using hg
          simp only [marshalValue] at hm
          cases hy : marshalList noFmts xs with
          | error e => rw [hy] at hm; simp at hm
          | ok ys =>
              simp only [hy, exc_bind_ok, exc_pure] at hm
              injection hm with hw
              subst hw
              have hszl : sizeValueList ys ≤ fuel := by
                simp only [sizeValue] at hsz
                omega
              have hf2 := marshalList_forall2 xs ys hy
              have hcmem := conformsList_mem tE xs hc
              have haux : ∀ (xs2 ys2 : List Value),
                  List.Forall₂ (fun x y => marshalValue noFmts x = .ok y) xs2 ys2 →
                  (∀ x ∈ xs2, conformsTo tE x = true) →
                  sizeValueList ys2 ≤ fuel →
                  List.Forall₂ (fun y x => ∀ p2,
                    unmarshalNodeF fuel noFmts tE y parent p2 = .ok x) ys2 xs2 := by
                intro xs2 ys2 hf
                induction hf with
                | nil => intro _ _; exact List.Forall₂.nil
                | cons hr htail ih2 =>
                    intro hcf hsz2
                    simp only [sizeValueList] at hsz2
                    refine List.Forall₂.cons (fun p2 => ?_)
                      (ih2 (fun q hq => hcf q (List.mem_cons_of_mem _ hq))
                        (by omega))
                    exact ih tE _ _ hgt (hcf _ (List.mem_cons_self _ _)) hr
                      (by omega) parent p2
              have hloop := elemsLoop_of_forall2 (unmarshalNodeF fuel noFmts) tE
                parent path (haux xs ys hf2 hcmem hszl) 0
              simp [unmarshalNodeF, calculate_schema_type, validate_schema,
                isCustomPyType, runtimeTypeEq, inner_schema, container_is_union,
                schemaArgs, hloop]
      | sUnion args =>
          rcases args with _ | ⟨t1, _ | ⟨t2, _ | ⟨t3, restArgs⟩⟩⟩
          · simp [goodSchema] at hg
          · simp [goodSchema] at hg
          · by_cases hv : v = .vNone
            · subst hv
              simp only [marshalValue] at hm
              injection hm with hw
              subst hw
              have hany : isNoneSchema t1 = true ∨ isNoneSchema t2 = true := by
                simpa [conformsTo] using hc
              simp [unmarshalNodeF, calculate_union_none hany, validate_schema,
                isCustomPyType]
            · have hc2 := conformsTo_union_not_none hc hv
              rcases union_good_parts hg with ⟨hn1, hn2, hgN⟩ | ⟨hn1, hn2, hgN⟩
              · rw [if_pos hn1] at hc2
                obtain ⟨hcu, hnn⟩ := union_eval_left hn1 hn2
                have hfm : ∀ u : Value, union_first_match [t1, t2] u =
                    calculate_schema_type t2 u := by
                  intro u
                  simp [union_first_match, hn1, hn2]
                exact union_core_roundtrip fuel ih hcu hnn (Or.inl hn1) hfm hgN
                  hc2 hv hm hsz parent path
              · rw [if_neg (by simp [hn1])] at hc2
                obtain ⟨hcu, hnn⟩ := union_eval_right hn1 hn2
                have hfm : ∀ u : Value, union_first_match [t1, t2] u =
                    calculate_schema_type t1 u := by
                  intro u
                  simp [union_first_match, hn1]
                exact union_core_roundtrip fuel ih hcu hnn (Or.inr hn2) hfm hgN
                  hc2 hv hm hsz parent path
          · simp [goodSchema] at hg
      | sRecord rn fs =>
          cases v <;> first | (simp [conformsTo] at hc; done) | skip
          rename_i rn2 fvs
          simp only [conformsTo, Bool.and_eq_true, beq_iff_eq] at hc
          obtain ⟨hrn, hcf0⟩ := hc
          subst hrn
          obtain ⟨hfst, hcf⟩ := conformsFields_shape fs fvs hcf0
          simp only [goodSchema, Bool.and_eq_true] at hg
          obtain ⟨⟨⟨hg1, hg2⟩, hg3⟩, hg4⟩ := hg
          obtain ⟨m, m2, h1, h2, hw⟩ := marshal_record_decomp hm
          subst hw
          have hsze : sizeValueEntries m2 ≤ fuel := by
            simp only [sizeValue] at hsz
            omega
          have hnamesEq : fvs.map (fun p => p.1.name) = field_names fs := by
            rw [field_names, ← hfst, List.map_map]
            rfl
          have hjksEq : fvs.map (fun p => get_json_key p.1) =
              fs.map get_json_key := by
            rw [← hfst, List.map_map]
            rfl
          have hnmN : (fvs.map (fun p => p.1.name)).Nodup := by
            rw [hnamesEq]
            exact distinctStrings_nodup _ hg1
          have hjkN : (fvs.map (fun p => get_json_key p.1)).Nodup := by
            rw [hjksEq]
            exact distinctStrings_nodup _ hg2
          have hccN : noCrossCollision (fvs.map Prod.fst) = true := by
            rw [hfst]
            exact hg3
          have hfieldnames : (fs.map Field.name).Nodup :=
            distinctStrings_nodup _ hg1
          have hinj := List.inj_on_of_nodup_map hjkN
          have hinjN := List.inj_on_of_nodup_map hnmN
          have hm1 : m = phase1Entries fvs := by
            have hres := clean_loop_eq fvs [] m h1 hjkN
              (fun q hq => by simp [dictKeys])
            simpa using hres
          subst hm1
          have hfreshC : ∀ p ∈ fvs, omit_field p.1 p.2 = false →
              entryKind p.2 = false →
              get_json_key p.1 ∉ dictKeys (phase1Entries fvs) := by
            intro p hp hpo hpk hkmem
            obtain ⟨q, hq, hqo, hqk, hkeq⟩ := phase1_keys fvs _ hkmem
            have hpq : p = q := hinj hp hq hkeq
            rw [← hpq] at hqk
            rw [hpk] at hqk
            exact absurd hqk (by decide)
          obtain ⟨ch, hm2eq, hf2ch⟩ := children_loop_eq fvs (phase1Entries fvs)
            m2 h2 hjkN hfreshC
          subst hm2eq
          have hkeysM2 : dictKeys (phase1Entries fvs ++ ch) =
              dictKeys (phase1Entries fvs) ++ dictKeys ch := by
            simp [dictKeys]
          have hchKeys := forall2_child_keys hf2ch
          have hndP1 : (dictKeys (phase1Entries fvs)).Nodup :=
            List.Nodup.sublist (phase1_keys_sublist fvs) hjkN
          have hndCh : (dictKeys ch).Nodup := by
            rw [hchKeys]
            exact List.Nodup.sublist (List.Sublist.map _ (childPairs_sublist fvs))
              hjkN
          have hndM2 : (dictKeys (phase1Entries fvs ++ ch)).Nodup := by
            rw [hkeysM2]
            refine List.nodup_append.mpr ⟨hndP1, hndCh, ?_⟩
            intro k hk1 hk2
            obtain ⟨q, hq, hqo, hqk, hkeq⟩ := phase1_keys fvs k hk1
            rw [hchKeys] at hk2
            obtain ⟨p2, hp2, hkeq2⟩ := List.mem_map.mp hk2
            obtain ⟨hp2f, hp2o, hp2k⟩ := childPairs_spec fvs p2 hp2
            have hpq : q = p2 := hinj hq hp2f (by rw [← hkeq, hkeq2])
            rw [hpq] at hqk
            rw [hqk] at hp2k
            exact absurd hp2k (by decide)
          have hQall : ∀ p ∈ fvs, omit_field p.1 p.2 = false →
              ∃ u, (get_json_key p.1, u) ∈ phase1Entries fvs ++ ch ∧
                (((∃ mt, get_type p.2 = .ok mt ∧ mtypePrimitive mt = true) ∧
                    u = p.2) ∨
                 ((∃ mt, get_type p.2 = .ok mt ∧ mtypePrimitive mt = false) ∧
                    marshalValue noFmts p.2 = .ok u ∧ sizeValue u ≤ fuel)) := by
            intro p hp hpo
            obtain ⟨pf, pv⟩ := p
            cases hek : entryKind pv with
            | true =>
                cases hgt : get_type pv with
                | error e => simp [entryKind, hgt] at hek
                | ok mt =>
                    have hprim : mtypePrimitive mt = true := by
                      simpa [entryKind, hgt] using hek
                    exact ⟨pv, List.mem_append_left _
                      (phase1_mem fvs pf pv hp hpo hek),
                      Or.inl ⟨⟨mt, rfl, hprim⟩, rfl⟩⟩
            | false =>
                have hcp := childPairs_mem fvs pf pv hp hpo hek
                obtain ⟨e, he, hre⟩ := forall2_mem_left hf2ch hcp
                obtain ⟨he1, he2⟩ := hre
                have hee : e = (get_json_key pf, e.2) := by
                  obtain ⟨e1, e2⟩ := e
                  simp only at he1
                  rw [he1]
                have hmm : (get_json_key pf, e.2) ∈ ch := hee ▸ he
                obtain ⟨mt, hgt⟩ := get_type_ok_of_marshal he2
                have hprim : mtypePrimitive mt = false := by
                  simpa [entryKind, hgt] using hek
                have hsz2 : sizeValue e.2 ≤ fuel :=
                  le_trans (sizeValueEntries_mem _ _ _
                    (List.mem_append_right _ hmm)) hsze
                exact ⟨e.2, List.mem_append_right _ hmm,
                  Or.inr ⟨⟨mt, hgt, hprim⟩, he2, hsz2⟩⟩
          have hcovM2 : ∀ k ∈ dictKeys (phase1Entries fvs ++ ch),
              ∃ p ∈ fvs, omit_field p.1 p.2 = false ∧
                k = get_json_key p.1 := by
            intro k hk
            rw [hkeysM2] at hk
            rcases List.mem_append.mp hk with hk1 | hk1
            · obtain ⟨q, hq, hqo, hqk, hkeq⟩ := phase1_keys fvs k hk1
              exact ⟨q, hq, hqo, hkeq⟩
            · rw [hchKeys] at hk1
              obtain ⟨p2, hp2, hkeq2⟩ := List.mem_map.mp hk1
              obtain ⟨hp2f, hp2o, _⟩ := childPairs_spec fvs p2 hp2
              exact ⟨p2, hp2f, hp2o, hkeq2.symm⟩
          obtain ⟨cleaned, hck, hcnd, hcent, hccov⟩ :=
            clean_keys_inv (fun f0 v0 u0 =>
              ((∃ mt, get_type v0 = .ok mt ∧ mtypePrimitive mt = true) ∧
                  u0 = v0) ∨
              ((∃ mt, get_type v0 = .ok mt ∧ mtypePrimitive mt = false) ∧
                  marshalValue noFmts v0 = .ok u0 ∧ sizeValue u0 ≤ fuel))
              path fvs [] (phase1Entries fvs ++ ch)
              (by simpa using hnmN) (by simpa using hjkN) (by simpa using hccN)
              hndM2 (fun p hp => absurd hp (List.not_mem_nil _)) hQall
              (fun k hk => Or.inr (hcovM2 k hk))
          rw [hfst] at hck
          have hentry : ∀ k u, (k, u) ∈ cleaned → ∃ p ∈ fvs, k = p.1.name ∧
              ((omit_field p.1 p.2 = true ∧ u = Value.vNone) ∨
               (omit_field p.1 p.2 = false ∧
                 (((∃ mt, get_type p.2 = .ok mt ∧ mtypePrimitive mt = true) ∧
                     u = p.2) ∨
                  ((∃ mt, get_type p.2 = .ok mt ∧ mtypePrimitive mt = false) ∧
                     marshalValue noFmts p.2 = .ok u ∧
                     sizeValue u ≤ fuel)))) := by
            intro k u hku
            obtain ⟨p, hp, hk⟩ := hccov k (mem_dictKeys.mpr ⟨u, hku⟩)
            obtain ⟨u2, hu2mem, hu2⟩ := hcent p hp
            have hueq : u = u2 := entry_unique hcnd (hk ▸ hku) hu2mem
            subst hueq
            exact ⟨p, hp, hk, hu2⟩
          have hclassify : classify_entries fs cleaned = .ok () := by
            apply classify_of_pointwise
            intro k u hku
            obtain ⟨p, hp, hk, hEV⟩ := hentry k u hku
            have hpfs : p.1 ∈ fs := hfst ▸ List.mem_map.mpr ⟨p, hp, rfl⟩
            have hft : field_type_lookup fs k = .ok p.1.ftype := by
              rw [hk]
              exact field_type_lookup_eq hfieldnames hpfs
            rcases hEV with ⟨hom, hun⟩ | ⟨hom, hQ⟩
            · obtain ⟨hv0, hopt⟩ := omit_field_vNone hom
              subst hun
              exact ⟨p.1.ftype, .pNone, hft, calc_optional_none _ hopt,
                fun _ => by simp [validate_schema, isCustomPyType]⟩
            · rcases hQ with ⟨⟨mt, hgt, hprim⟩, hup⟩ |
                ⟨⟨mt, hgt, hprim⟩, hmar, hszu⟩
              · subst hup
                obtain ⟨c, hcalc, hcp, hval⟩ := stored_prim_calc p.1.ftype p.2
                  (goodFields_mem fs hg4 p.1 hpfs) (hcf p hp) mt hgt hprim
                exact ⟨p.1.ftype, c, hft, hcalc, fun _ => hval k⟩
              · obtain ⟨c, hcalc, hcp⟩ := stored_child_calc p.1.ftype p.2
                  (goodFields_mem fs hg4 p.1 hpfs) (hcf p hp) mt hgt hprim u hmar
                exact ⟨p.1.ftype, c, hft, hcalc,
                  fun hx => absurd hx (by simp [hcp])⟩
          have hpointwise : ∀ k u, (k, u) ∈ cleaned →
              ∃ t c, field_type_lookup fs k = .ok t ∧
                calculate_schema_type t u = .ok c ∧
                ((isPrimitivePyType c = true ∧
                    ∀ q ∈ fvs, q.1.name = k → u = q.2) ∨
                 (isPrimitivePyType c = false ∧
                   ∃ r, unmarshalNodeF fuel noFmts t u k (path ++ "." ++ k) =
                       .ok r ∧
                     ∀ q ∈ fvs, q.1.name = k → r = q.2)) := by
            intro k u hku
            obtain ⟨p, hp, hk, hEV⟩ := hentry k u hku
            have hpfs : p.1 ∈ fs := hfst ▸ List.mem_map.mpr ⟨p, hp, rfl⟩
            have hft : field_type_lookup fs k = .ok p.1.ftype := by
              rw [hk]
              exact field_type_lookup_eq hfieldnames hpfs
            have hRel : ∀ r, r = p.2 → ∀ q ∈ fvs, q.1.name = k → r = q.2 := by
              intro r hr q hq hqn
              have hpq : q = p := hinjN hq hp (hqn.trans hk)
              rw [hpq]
              exact hr
            rcases hEV with ⟨hom, hun⟩ | ⟨hom, hQ⟩
            · obtain ⟨hv0, hopt⟩ := omit_field_vNone hom
              subst hun
              exact ⟨p.1.ftype, .pNone, hft, calc_optional_none _ hopt,
                Or.inl ⟨rfl, hRel _ hv0.symm⟩⟩
            · rcases hQ with ⟨⟨mt, hgt, hprim⟩, hup⟩ |
                ⟨⟨mt, hgt, hprim⟩, hmar, hszu⟩
              · subst hup
                obtain ⟨c, hcalc, hcp, hval⟩ := stored_prim_calc p.1.ftype p.2
                  (goodFields_mem fs hg4 p.1 hpfs) (hcf p hp) mt hgt hprim
                exact ⟨p.1.ftype, c, hft, hcalc, Or.inl ⟨hcp, hRel _ rfl⟩⟩
              · obtain ⟨c, hcalc, hcp⟩ := stored_child_calc p.1.ftype p.2
                  (goodFields_mem fs hg4 p.1 hpfs) (hcf p hp) mt hgt hprim u hmar
                refine ⟨p.1.ftype, c, hft, hcalc, Or.inr ⟨hcp, p.2, ?_, hRel _ rfl⟩⟩
                exact ih p.1.ftype p.2 u (goodFields_mem fs hg4 p.1 hpfs)
                  (hcf p hp) hmar hszu k (path ++ "." ++ k)
          obtain ⟨processed, hply, hpkeys, hprel⟩ :=
            entriesLoop_of_pointwise (unmarshalNodeF fuel noFmts) fs path
              (fun k r => ∀ q ∈ fvs, q.1.name = k → r = q.2) cleaned hpointwise
          have hndPr : (dictKeys processed).Nodup := by
            rw [hpkeys]
            exact hcnd
          have hlook : ∀ p ∈ fvs, dictLookup processed p.1.name = some p.2 := by
            intro p hp
            obtain ⟨u2, hu2mem, _⟩ := hcent p hp
            have hkc : p.1.name ∈ dictKeys processed := by
              rw [hpkeys]
              exact mem_dictKeys.mpr ⟨u2, hu2mem⟩
            obtain ⟨r, hr⟩ := mem_dictKeys.mp hkc
            have hrp : r = p.2 := hprel _ _ hr p hp rfl
            have hlk := dictLookup_of_mem_nodup processed hndPr hr
            rw [hrp] at hlk
            exact hlk
          have hcf2 : construct_fields fs processed = .ok fvs := by
            rw [← hfst]
            exact construct_fields_of_lookup fvs processed hlook
          have hall : processed.all
              (fun kv => (field_names fs).contains kv.1) = true := by
            rw [List.all_eq_true]
            intro kv hkv
            have hkc : kv.1 ∈ dictKeys cleaned := by
              rw [← hpkeys]
              exact List.mem_map.mpr ⟨kv, hkv, rfl⟩
            obtain ⟨p, hp, hk⟩ := hccov kv.1 hkc
            have hpfs : p.1 ∈ fs := hfst ▸ List.mem_map.mpr ⟨p, hp, rfl⟩
            have hmemname : kv.1 ∈ field_names fs := by
              rw [hk]
              exact List.mem_map.mpr ⟨p.1, hpfs, rfl⟩
            simpa using hmemname
          have hconstruct : construct_dataclass rn fs processed =
              .ok (.vRecord rn fvs) := by
            simp only [construct_dataclass, hcf2, exc_bind_ok, hall, if_pos]
          have hdrop : drop_unknown_keys fs cleaned = cleaned := by
            apply drop_unknown_noop
            intro k hk
            obtain ⟨p, hp, he⟩ := hccov k hk
            exact ⟨p.1, hfst ▸ List.mem_map.mpr ⟨p, hp, rfl⟩, he⟩
          simp [unmarshalNodeF, calculate_schema_type, validate_schema,
            isCustomPyType, runtimeTypeEq, hck, hdrop, hclassify, hply,
            hconstruct]

/-! ### C1: the round trip -/

/-- C1 (amended): for every record value of a good schema — only supported
constructs, unions only as Optional of one supported non-record
non-None-valued-enum type, distinct field names, distinct external keys,
and no external key naming a different field — marshalled with no
datetime_fmt/date_fmt override, unmarshalling the marshalled output
against the same schema returns the original record:
unmarshal(marshal(v), schema) = v. -/
theorem C1_amended (rn : String) (fs : List Field) (v w : Value)
    (hg : goodSchema (.sRecord rn fs) = true)
    (hc : conformsTo (.sRecord rn fs) v = true)
    (hm : marshal noFmts v = .ok w) :
    unmarshal noFmts (.sRecord rn fs) w = .ok v := by
  rw [unmarshal]
  exact node_roundtrip (sizeValue w + 1) _ v w hg hc hm (by omega) "" ""

/-- C1 (counterexample to the unamended claim): a record of an acyclic
schema whose two int fields use each other's names as their external json
keys marshals successfully, but unmarshalling the marshalled output crashes
in schema(**data) with TypeError — the renaming pass of clean_item
overwrites one entry with the other — so unmarshal(marshal(v), schema)
is not v for every record value of an acyclic schema. -/
theorem C1_counterexample :
    conformsTo
      (.sRecord "R" [.mk "a" (some "b") false .sInt,
        .mk "b" (some "a") false .sInt])
      (.vRecord "R" [(.mk "a" (some "b") false .sInt, .vInt 1),
        (.mk "b" (some "a") false .sInt, .vInt 2)]) = true ∧
    marshal noFmts
      (.vRecord "R" [(.mk "a" (some "b") false .sInt, .vInt 1),
        (.mk "b" (some "a") false .sInt, .vInt 2)]) =
      .ok (.vDict [("b", .vInt 1), ("a", .vInt 2)]) ∧
    unmarshal noFmts
      (.sRecord "R" [.mk "a" (some "b") false .sInt,
        .mk "b" (some "a") false .sInt])
      (.vDict [("b", .vInt 1), ("a", .vInt 2)]) =
      .error (.typeError
        "__init__() missing 1 required positional argument: 'a'") := by
  refine ⟨?_, rfl, rfl⟩
  simp [conformsTo, conformsFields, fieldBeq, schemaBeq]

/-- C1 witness: the amended round trip at a concrete one-field record. -/
theorem C1_amended_witness :
    goodSchema (.sRecord "R" [.mk "a" none false .sInt]) = true ∧
    conformsTo (.sRecord "R" [.mk "a" none false .sInt])
      (.vRecord "R" [(.mk "a" none false .sInt, .vInt 3)]) = true ∧
    marshal noFmts (.vRecord "R" [(.mk "a" none false .sInt, .vInt 3)]) =
      .ok (.vDict [("a", .vInt 3)]) ∧
    unmarshal noFmts (.sRecord "R" [.mk "a" none false .sInt])
      (.vDict [("a", .vInt 3)]) =
      .ok (.vRecord "R" [(.mk "a" none false .sInt, .vInt 3)]) :=
  ⟨by simp [goodSchema, distinctStrings, field_names, noCrossCollision,
      goodFields, get_json_key, Field.name, Field.json],
   by simp [conformsTo, conformsFields, fieldBeq, schemaBeq],
   rfl,
   C1_amended "R" [.mk "a" none false .sInt]
     (.vRecord "R" [(.mk "a" none false .sInt, .vInt 3)])
     (.vDict [("a", .vInt 3)])
     (by simp [goodSchema, distinctStrings, field_names, noCrossCollision,
       goodFields, get_json_key, Field.name, Field.json])
     (by simp [conformsTo, conformsFields, fieldBeq, schemaBeq])
     rfl⟩

end JM
